import Mathlib

/-!
The `ded` lexer (`src/lexer.c`) as a shallow embedding.

Conventions of the embedding.

* A `char` of the buffer is an `Int` holding the value the C program sees
  (`-128..127` where `char` is signed, `0..255` where it is unsigned).
* `size_t` values (cursor, lengths, line counter) are `Nat`.
* The pen position `x` and the advance widths are exact integers; the vertical
  position `y`, which the source computes with an explicit `(float)` cast, is
  the binary32 result (an integer, since all operands are integers).
* `Token.text` is the offset of the token's first byte inside `content`
  (the C code stores the pointer `&l->content[offset]`).
* `assert` failure is the result `none`; a loop that would need more
  iterations than bytes remain in the buffer also yields `none`.
* `GLYPH_METRICS_CAPACITY` and `FREE_GLYPH_FONT_SIZE` come from a header that
  is not part of the sources at hand; every function that uses one of them
  takes it as an argument of that name.
-/

namespace Ded

/-! ## Data model -/

/-- Token kinds, in the order of the `switch` in `token_kind_name`; a
zero-initialised `Token` has kind `TOKEN_END`. -/
inductive Token_Kind where
  | TOKEN_END
  | TOKEN_INVALID
  | TOKEN_PREPROC
  | TOKEN_SYMBOL
  | TOKEN_OPEN_PAREN
  | TOKEN_CLOSE_PAREN
  | TOKEN_OPEN_CURLY
  | TOKEN_CLOSE_CURLY
  | TOKEN_SEMICOLON
  | TOKEN_KEYWORD
  | TOKEN_CONTROL_FLOW
  | TOKEN_COMMENT
  | TOKEN_STRING
  deriving DecidableEq

open Token_Kind

/-- Pixel position of a token. -/
structure Vec2f where
  x : Int
  y : Int
  deriving DecidableEq

/-- A token: kind, offset of its text in the buffer, length of its text,
position on screen. -/
structure Token where
  kind : Token_Kind
  text : Nat
  text_len : Nat
  position : Vec2f
  deriving DecidableEq

/-- The part of the glyph atlas the lexer reads: `metrics[i].ax`. -/
structure Free_Glyph_Atlas where
  metrics : Nat → Int

/-- Scanner state; `atlas = none` is the `NULL` atlas. -/
structure Lexer where
  atlas : Option Free_Glyph_Atlas
  content : List Int
  content_len : Nat
  line : Nat
  bol : Nat
  cursor : Nat
  x : Int

/-- The bytes of a C string literal. -/
def cstr (s : String) : List Int :=
  s.toList.map (fun c => (c.toNat : Int))

/-- Entry of the `literal_tokens` table. -/
structure Literal_Token where
  kind : Token_Kind
  text : List Int
  deriving DecidableEq

/-! ## Static tables -/

def literal_tokens : List Literal_Token :=
  [ { text := cstr "(", kind := TOKEN_OPEN_PAREN },
    { text := cstr ")", kind := TOKEN_CLOSE_PAREN },
    { text := cstr "\x7b", kind := TOKEN_OPEN_CURLY },
    { text := cstr "\x7d", kind := TOKEN_CLOSE_CURLY },
    { text := cstr ";", kind := TOKEN_SEMICOLON } ]

def keywords : List (List Int) :=
  [ "auto", "char", "const", "double", "enum", "extern", "float", "int", "long",
    "register", "short", "signed", "sizeof", "static", "struct", "typedef", "union",
    "unsigned", "void", "volatile", "while", "alignas", "alignof", "and", "and_eq",
    "asm", "atomic_cancel", "atomic_commit", "atomic_noexcept", "bitand", "bitor",
    "bool", "char16_t", "char32_t", "char8_t", "class", "compl", "concept", "const_cast",
    "consteval", "constexpr", "constinit", "decltype", "delete", "dynamic_cast", "explicit",
    "export", "false", "friend", "inline", "mutable", "namespace", "new", "noexcept", "not",
    "not_eq", "nullptr", "operator", "or", "or_eq", "private", "protected", "public",
    "reflexpr", "reinterpret_cast", "requires", "static_assert", "static_cast", "synchronized",
    "template", "this", "thread_local", "true", "typeid", "typename", "using", "virtual",
    "wchar_t", "xor", "xor_eq" ].map cstr

def control_flow : List (List Int) :=
  [ "break", "case", "continue", "default", "do", "else", "for", "goto", "if", "return",
    "switch", "while", "catch", "co_await", "co_return", "co_yield", "try" ].map cstr

/-! ## Character classes of the C library ("C" locale) -/

/-- C `isspace`: space, `\t`, `\n`, `\v`, `\f`, `\r`. -/
def isspace (x : Int) : Bool :=
  x == 32 || (9 ≤ x && x ≤ 13)

/-- C `isalpha`: `A`..`Z` and `a`..`z`. -/
def isalpha (x : Int) : Bool :=
  (65 ≤ x && x ≤ 90) || (97 ≤ x && x ≤ 122)

/-- C `isalnum`: `isalpha` or `0`..`9`. -/
def isalnum (x : Int) : Bool :=
  isalpha x || (48 ≤ x && x ≤ 57)

/-! ## The scanner -/

def lexer_new (atlas : Option Free_Glyph_Atlas) (content : List Int) (content_len : Nat) :
    Lexer :=
  { atlas := atlas, content := content, content_len := content_len,
    line := 0, bol := 0, cursor := 0, x := 0 }

/-- The read `l->content[i]`. -/
def Lexer.char_at (l : Lexer) (i : Nat) : Int :=
  l.content.getD i 0

/-- The `len` bytes of the buffer starting at offset `off`. -/
def Lexer.slice (l : Lexer) (off len : Nat) : List Int :=
  (List.range len).map (fun i => l.char_at (off + i))

def lexer_starts_with (l : Lexer) (pfx : List Int) : Bool :=
  let pfx_len := pfx.length
  if pfx_len = 0 then true
  else if l.cursor + pfx_len - 1 ≥ l.content_len then false
  else (List.range pfx_len).all (fun i => pfx.getD i 0 == l.char_at (l.cursor + i))

/-- The conversion `size_t glyph_index = x` of a `char` (64-bit `size_t`). -/
def size_t_of_char (x : Int) : Nat :=
  (x % 2 ^ 64).toNat

/-- The index into `atlas->metrics` that `lexer_chop_char` uses for the char `x`. -/
def glyph_index (GLYPH_METRICS_CAPACITY : Nat) (x : Int) : Nat :=
  if size_t_of_char x ≥ GLYPH_METRICS_CAPACITY then 63 else size_t_of_char x

/-- One iteration of the loop of `lexer_chop_char`. -/
def chop_step (GLYPH_METRICS_CAPACITY : Nat) (l : Lexer) : Option Lexer :=
  if l.cursor < l.content_len then
    let x := l.char_at l.cursor
    let l := { l with cursor := l.cursor + 1 }
    if x = 10 then
      some { l with line := l.line + 1, bol := l.cursor, x := 0 }
    else
      match l.atlas with
      | some atlas =>
        some { l with x := l.x + atlas.metrics (glyph_index GLYPH_METRICS_CAPACITY x) }
      | none => some l
  else none

def lexer_chop_char (GLYPH_METRICS_CAPACITY : Nat) (l : Lexer) : Nat → Option Lexer
  | 0 => some l
  | len + 1 =>
    match chop_step GLYPH_METRICS_CAPACITY l with
    | some l1 => lexer_chop_char GLYPH_METRICS_CAPACITY l1 len
    | none => none

/-- The loop `while (l->cursor < l->content_len && p(l->content[l->cursor]))
lexer_chop_char(l, 1);` run with a bound `fuel` on its iterations. -/
def lexer_chop_while (GLYPH_METRICS_CAPACITY : Nat) (p : Int → Bool) :
    Nat → Lexer → Option Lexer
  | 0, l => if l.cursor < l.content_len && p (l.char_at l.cursor) then none else some l
  | fuel + 1, l =>
    if l.cursor < l.content_len && p (l.char_at l.cursor) then
      match lexer_chop_char GLYPH_METRICS_CAPACITY l 1 with
      | some l1 => lexer_chop_while GLYPH_METRICS_CAPACITY p fuel l1
      | none => none
    else some l

def lexer_trim_left (GLYPH_METRICS_CAPACITY : Nat) (l : Lexer) : Option Lexer :=
  lexer_chop_while GLYPH_METRICS_CAPACITY isspace (l.content_len - l.cursor) l

def is_symbol_start (x : Int) : Bool :=
  isalpha x || x == 95

def is_symbol (x : Int) : Bool :=
  isalnum x || x == 95

/-- The statement `if (l->cursor < l->content_len) lexer_chop_char(l, 1);`. -/
def chop_if_more (GLYPH_METRICS_CAPACITY : Nat) (l : Lexer) : Option Lexer :=
  if l.cursor < l.content_len then lexer_chop_char GLYPH_METRICS_CAPACITY l 1 else some l

/-- The identifier loop of `lexer_next`: chops while `is_symbol`, adding one to
`token.text_len` per chopped byte. -/
def symbol_loop (GLYPH_METRICS_CAPACITY : Nat) : Nat → Lexer → Nat → Option (Lexer × Nat)
  | 0, l, text_len =>
    if l.cursor < l.content_len && is_symbol (l.char_at l.cursor) then none else some (l, text_len)
  | fuel + 1, l, text_len =>
    if l.cursor < l.content_len && is_symbol (l.char_at l.cursor) then
      match lexer_chop_char GLYPH_METRICS_CAPACITY l 1 with
      | some l1 => symbol_loop GLYPH_METRICS_CAPACITY fuel l1 (text_len + 1)
      | none => none
    else some (l, text_len)

/-- The test `len == token.text_len && memcmp(word, token.text, len) == 0`. -/
def word_matches (l : Lexer) (text text_len : Nat) (word : List Int) : Bool :=
  word.length == text_len && word == l.slice text word.length

/-- The `all_caps` loop of `lexer_next` over the token text. -/
def all_caps (l : Lexer) (text text_len : Nat) : Bool :=
  (l.slice text text_len).all
    (fun c => (65 ≤ c && c ≤ 90) || (48 ≤ c && c ≤ 57) || c == 95)

/-- The three classification steps applied to an identifier, in source order. -/
def classify_symbol (l : Lexer) (text text_len : Nat) : Token_Kind :=
  let kind := TOKEN_SYMBOL
  let kind := if keywords.any (word_matches l text text_len) then TOKEN_KEYWORD else kind
  let kind := if control_flow.any (word_matches l text text_len) then TOKEN_CONTROL_FLOW else kind
  if all_caps l text text_len && text_len > 1 then TOKEN_PREPROC else kind

/-- The binary32 value nearest to the natural number `n` (round to nearest,
ties to even): `n` itself below `2 ^ 24`, else `n` rounded to a multiple of the
unit in the last place of its 24-bit significand. Values of `2 ^ 128` and more,
which binary32 turns into infinity, are not modelled; a line counter of type
`size_t` times a font size does not reach them. -/
def float_of_nat (n : Nat) : Nat :=
  if n < 16777216 then n
  else
    let e := Nat.log2 n - 23
    let q := n / 2 ^ e
    let r := n % 2 ^ e
    let half := 2 ^ (e - 1)
    if r < half then q * 2 ^ e
    else if r = half ∧ q % 2 = 0 then q * 2 ^ e
    else (q + 1) * 2 ^ e

/-- The binary32 value nearest to the integer `z`. -/
def float_of_int (z : Int) : Int :=
  if z < 0 then -(float_of_nat z.natAbs : Int) else (float_of_nat z.natAbs : Int)

/-- The expression `-(float)l->line * FREE_GLYPH_FONT_SIZE` in binary32: the
line counter is converted to `float` and negated, the constant is converted to
`float`, and the product is rounded to `float`. -/
def vertical_slot (FREE_GLYPH_FONT_SIZE : Int) (line : Nat) : Int :=
  float_of_int (-(float_of_nat line : Int) * float_of_int FREE_GLYPH_FONT_SIZE)

/-- The part of `lexer_next` that follows `lexer_trim_left(l)`. -/
def lexer_dispatch (GLYPH_METRICS_CAPACITY : Nat) (FREE_GLYPH_FONT_SIZE : Int) (l : Lexer) :
    Option (Token × Lexer) :=
  let token : Token :=
    { kind := TOKEN_END, text := l.cursor, text_len := 0,
      position := { x := l.x, y := vertical_slot FREE_GLYPH_FONT_SIZE l.line } }
  if l.cursor ≥ l.content_len then some (token, l)
  else if l.char_at l.cursor = 34 then
    match lexer_chop_char GLYPH_METRICS_CAPACITY l 1 with
    | none => none
    | some l1 =>
      match lexer_chop_while GLYPH_METRICS_CAPACITY (fun c => c != 34 && c != 10)
          (l1.content_len - l1.cursor) l1 with
      | none => none
      | some l2 =>
        match chop_if_more GLYPH_METRICS_CAPACITY l2 with
        | none => none
        | some l3 =>
          some ({ token with kind := TOKEN_STRING, text_len := l3.cursor - token.text }, l3)
  else if l.char_at l.cursor = 35 then
    match lexer_chop_while GLYPH_METRICS_CAPACITY (fun c => c != 10)
        (l.content_len - l.cursor) l with
    | none => none
    | some l2 =>
      match chop_if_more GLYPH_METRICS_CAPACITY l2 with
      | none => none
      | some l3 =>
        some ({ token with kind := TOKEN_PREPROC, text_len := l3.cursor - token.text }, l3)
  else if lexer_starts_with l (cstr "//") then
    match lexer_chop_while GLYPH_METRICS_CAPACITY (fun c => c != 10)
        (l.content_len - l.cursor) l with
    | none => none
    | some l2 =>
      match chop_if_more GLYPH_METRICS_CAPACITY l2 with
      | none => none
      | some l3 =>
        some ({ token with kind := TOKEN_COMMENT, text_len := l3.cursor - token.text }, l3)
  else
    match literal_tokens.find? (fun lt => lexer_starts_with l lt.text) with
    | some lt =>
      match lexer_chop_char GLYPH_METRICS_CAPACITY l lt.text.length with
      | none => none
      | some l1 => some ({ token with kind := lt.kind, text_len := lt.text.length }, l1)
    | none =>
      if is_symbol_start (l.char_at l.cursor) then
        match symbol_loop GLYPH_METRICS_CAPACITY (l.content_len - l.cursor) l 0 with
        | none => none
        | some (l1, text_len) =>
          some ({ token with kind := classify_symbol l1 token.text text_len,
                             text_len := text_len }, l1)
      else
        match lexer_chop_char GLYPH_METRICS_CAPACITY l 1 with
        | none => none
        | some l1 => some ({ token with kind := TOKEN_INVALID, text_len := 1 }, l1)

def lexer_next (GLYPH_METRICS_CAPACITY : Nat) (FREE_GLYPH_FONT_SIZE : Int) (l : Lexer) :
    Option (Token × Lexer) :=
  match lexer_trim_left GLYPH_METRICS_CAPACITY l with
  | none => none
  | some l1 => lexer_dispatch GLYPH_METRICS_CAPACITY FREE_GLYPH_FONT_SIZE l1

/-! ## Repeated calls -/

/-- What a call of `lexer_next` shows to its caller: kind, text offset, text
length of the token, then cursor, line and bol of the scanner afterwards. -/
def observe (r : Option (Token × Lexer)) : Option (Token_Kind × Nat × Nat × Nat × Nat × Nat) :=
  r.map (fun p => (p.1.kind, p.1.text, p.1.text_len, p.2.cursor, p.2.line, p.2.bol))

/-- Calls `lexer_next` until it has returned a token of kind `TOKEN_END`, at
most `calls` times; the result lists, per call, the returned token and the
scanner state after the call. `none` when a call fails or `calls` calls do not
reach `TOKEN_END`. -/
def lexer_scan (GLYPH_METRICS_CAPACITY : Nat) (FREE_GLYPH_FONT_SIZE : Int) :
    Nat → Lexer → Option (List (Token × Lexer))
  | 0, _ => none
  | calls + 1, l =>
    match lexer_next GLYPH_METRICS_CAPACITY FREE_GLYPH_FONT_SIZE l with
    | none => none
    | some (token, l1) =>
      if token.kind = TOKEN_END then some [(token, l1)]
      else
        match lexer_scan GLYPH_METRICS_CAPACITY FREE_GLYPH_FONT_SIZE calls l1 with
        | none => none
        | some rest => some ((token, l1) :: rest)

/-- The result of one more call of `lexer_next` after `n` further calls, each
made on the state the previous one left. -/
def lexer_next_again (GLYPH_METRICS_CAPACITY : Nat) (FREE_GLYPH_FONT_SIZE : Int) :
    Nat → Lexer → Option (Token × Lexer)
  | 0, l => lexer_next GLYPH_METRICS_CAPACITY FREE_GLYPH_FONT_SIZE l
  | n + 1, l =>
    match lexer_next GLYPH_METRICS_CAPACITY FREE_GLYPH_FONT_SIZE l with
    | none => none
    | some (_, l1) => lexer_next_again GLYPH_METRICS_CAPACITY FREE_GLYPH_FONT_SIZE n l1

/-! ## Vocabulary of the statements -/

/-- The scanner `l1` works on the same buffer, with the same atlas, as `l`. -/
structure Frame (l l1 : Lexer) : Prop where
  content : l1.content = l.content
  content_len : l1.content_len = l.content_len
  atlas : l1.atlas = l.atlas

/-- Offset `k` holds the first non-whitespace byte at or after the cursor. -/
def first_nonspace_at (l : Lexer) (k : Nat) : Prop :=
  l.cursor ≤ k ∧ k < l.content_len ∧
    (∀ i, l.cursor ≤ i → i < k → isspace (l.char_at i) = true) ∧
    isspace (l.char_at k) = false

/-- Offset `n` is where the line that contains offset `k` ends: the offset of
the first newline at or after `k`, or `content_len` when there is none. -/
def line_end_at (l : Lexer) (k n : Nat) : Prop :=
  k ≤ n ∧ n ≤ l.content_len ∧ (∀ i, k ≤ i → i < n → l.char_at i ≠ 10) ∧
    (n < l.content_len → l.char_at n = 10)

/-- Offset `m` is where the body of a string that opens at offset `k` ends: the
first offset after `k` whose byte is a double quote or a newline, or
`content_len` when there is none. -/
def string_end_at (l : Lexer) (k m : Nat) : Prop :=
  k < m ∧ m ≤ l.content_len ∧
    (∀ i, k < i → i < m → l.char_at i ≠ 34 ∧ l.char_at i ≠ 10) ∧
    (m < l.content_len → l.char_at m = 34 ∨ l.char_at m = 10)

/-- Offset `m` is where the run of identifier bytes that starts at offset `k`
ends: the first offset at or after `k` whose byte is not an identifier byte, or
`content_len` when there is none. -/
def symbol_end_at (l : Lexer) (k m : Nat) : Prop :=
  k ≤ m ∧ m ≤ l.content_len ∧
    (∀ i, k ≤ i → i < m → is_symbol (l.char_at i) = true) ∧
    (m < l.content_len → is_symbol (l.char_at m) = false)

/-- The calls listed in the second argument (token returned, scanner state
afterwards), made one after another from cursor `c` on the buffer of `l0`, leave
no gap: each token starts at or after the previous cursor with only whitespace
in between, the cursor after the call is the end of the token's text, and after
the last call the cursor is `content_len`. -/
def covers (l0 : Lexer) : Nat → List (Token × Lexer) → Prop
  | c, [] => c = l0.content_len
  | c, p :: rest =>
    c ≤ p.1.text ∧ (∀ i, c ≤ i → i < p.1.text → isspace (l0.char_at i) = true) ∧
      p.2.cursor = p.1.text + p.1.text_len ∧ covers l0 p.2.cursor rest

/-- The concatenation, in order, of the spans `[previous cursor, new cursor)` of
the listed calls, the first of which starts at cursor `c`. -/
def span_bytes (l0 : Lexer) : Nat → List (Token × Lexer) → List Int
  | _, [] => []
  | c, p :: rest => l0.slice c (p.2.cursor - c) ++ span_bytes l0 p.2.cursor rest

/-- The test of the all-caps rule on one byte: `A`..`Z`, `0`..`9` or `_`. -/
def is_caps_byte (c : Int) : Prop :=
  (65 ≤ c ∧ c ≤ 90) ∨ (48 ≤ c ∧ c ≤ 57) ∨ c = 95

instance (c : Int) : Decidable (is_caps_byte c) := by
  unfold is_caps_byte; infer_instance

/-- The classification of an identifier `w` as the specification words it:
`TOKEN_PREPROC` when `w` is longer than one byte and all of its bytes are
`A`..`Z`, `0`..`9` or `_`; otherwise `TOKEN_CONTROL_FLOW` when `w` is an entry of
`control_flow`; otherwise `TOKEN_KEYWORD` when `w` is an entry of `keywords`;
otherwise `TOKEN_SYMBOL`. -/
def reference_kind (w : List Int) : Token_Kind :=
  if w.length > 1 ∧ ∀ c ∈ w, is_caps_byte c then TOKEN_PREPROC
  else if w ∈ control_flow then TOKEN_CONTROL_FLOW
  else if w ∈ keywords then TOKEN_KEYWORD
  else TOKEN_SYMBOL

/-! ## Concrete buffers -/

/-- The 18 bytes `#define X 1\nint y;`. -/
def define_buffer : List Int := cstr "#define X 1\nint y;"

/-- A scanner without atlas at the start of `define_buffer`. -/
def define_lexer : Lexer := lexer_new none define_buffer 18

/-- The 8 bytes: double quote, `abc`, newline, `def`. -/
def open_string_buffer : List Int := 34 :: cstr "abc\ndef"

/-- A scanner without atlas at the start of `open_string_buffer`. -/
def open_string_lexer : Lexer := lexer_new none open_string_buffer 8

/-- The 3 bytes space, newline, space. -/
def blank_buffer : List Int := cstr " \n "

/-- A scanner without atlas at the start of `blank_buffer`. -/
def blank_lexer : Lexer := lexer_new none blank_buffer 3

/-- The 5 bytes `while`. -/
def while_buffer : List Int := cstr "while"

/-- The 8 bytes `MAX_SIZE`. -/
def max_size_buffer : List Int := cstr "MAX_SIZE"

/-! ## More buffers and views of a scan -/

/-- The 4 bytes: double quote, `abc`. -/
def unterminated_buffer : List Int := 34 :: cstr "abc"

/-- The 6 bytes: double quote, `a`, backslash, double quote, `b`, double
quote. -/
def escaped_buffer : List Int := [34, 97, 92, 34, 98, 34]

/-- The 5 bytes `(`, `)`, opening brace, closing brace, `;`. -/
def punctuation_buffer : List Int := [40, 41, 123, 125, 59]

/-- The kind that the `literal_tokens` table gives to the byte `c`. -/
def literal_kind (c : Int) : Token_Kind :=
  if c = 40 then TOKEN_OPEN_PAREN
  else if c = 41 then TOKEN_CLOSE_PAREN
  else if c = 123 then TOKEN_OPEN_CURLY
  else if c = 125 then TOKEN_CLOSE_CURLY
  else if c = 59 then TOKEN_SEMICOLON
  else TOKEN_INVALID

/-- Kind and text length of every token of a scan, in order. -/
def scan_kinds (r : Option (List (Token × Lexer))) : Option (List (Token_Kind × Nat)) :=
  r.map (List.map (fun p => (p.1.kind, p.1.text_len)))

/-! ## Erasing the atlas -/

/-- The scanner state with the atlas taken away and the pen at 0. -/
def erase (l : Lexer) : Lexer :=
  { l with atlas := none, x := 0 }

/-- The token with its horizontal position set to 0. -/
def erase_token (t : Token) : Token :=
  { t with position := { x := 0, y := t.position.y } }

/-- The record of one call (token, state afterwards) without the atlas and the
horizontal positions. -/
def erase_call (p : Token × Lexer) : Token × Lexer :=
  (erase_token p.1, erase p.2)

/-- What a call shows apart from horizontal positions: kind, text offset, text
length and vertical position of the token, then cursor, line and bol of the
scanner afterwards. -/
def call_view (p : Token × Lexer) : Token_Kind × Nat × Nat × Int × Nat × Nat × Nat :=
  (p.1.kind, p.1.text, p.1.text_len, p.1.position.y, p.2.cursor, p.2.line, p.2.bol)

/-- A scanner with an atlas whose glyph `i` has the advance width `i + 1`, on
the two bytes `A` and 200. -/
def metrics_lexer : Lexer :=
  lexer_new (some { metrics := fun i => (i : Int) + 1 }) [65, 200] 2

/-! ## Positions as functions of the offset -/

/-- The number of newline bytes among the first `c` bytes of the buffer. -/
def count_newlines (content : List Int) : Nat → Nat
  | 0 => 0
  | c + 1 =>
    if content.getD c 0 = 10 then count_newlines content c + 1 else count_newlines content c

/-- One plus the offset of the last newline among the first `c` bytes of the
buffer, or 0 when there is none: the offset at which the line of offset `c`
starts. -/
def line_start (content : List Int) : Nat → Nat
  | 0 => 0
  | c + 1 => if content.getD c 0 = 10 then c + 1 else line_start content c

/-- The advance width the atlas gives to the char `x`, with the fallback to the
glyph of `?`. -/
def advance (GLYPH_METRICS_CAPACITY : Nat) (atlas : Free_Glyph_Atlas) (x : Int) : Int :=
  atlas.metrics (glyph_index GLYPH_METRICS_CAPACITY x)

/-- The sum of the advance widths of the bytes at the offsets `b`, ..., `e - 1`. -/
def width_sum (GLYPH_METRICS_CAPACITY : Nat) (atlas : Free_Glyph_Atlas) (content : List Int)
    (b e : Nat) : Int :=
  ((List.range (e - b)).map
    (fun i => advance GLYPH_METRICS_CAPACITY atlas (content.getD (b + i) 0))).sum

/-- The pen position that belongs to offset `c`: the advance widths of the
bytes from the start of the line of `c` up to `c`, summed from 0; 0 without
atlas. -/
def pen_at (GLYPH_METRICS_CAPACITY : Nat) (atlas : Option Free_Glyph_Atlas)
    (content : List Int) (c : Nat) : Int :=
  match atlas with
  | none => 0
  | some a => width_sum GLYPH_METRICS_CAPACITY a content (line_start content c) c

/-- The position bookkeeping of a scanner state agrees with its cursor: `line`
counts the newlines before the cursor, `bol` is the start of the line of the
cursor, `x` is the pen position of the cursor. -/
structure Bookkeeping (GLYPH_METRICS_CAPACITY : Nat) (l : Lexer) : Prop where
  line : l.line = count_newlines l.content l.cursor
  bol : l.bol = line_start l.content l.cursor
  x : l.x = pen_at GLYPH_METRICS_CAPACITY l.atlas l.content l.cursor

/-- An atlas whose glyph `i` has the advance width `i + 1`. -/
def ramp_atlas : Free_Glyph_Atlas := { metrics := fun i => (i : Int) + 1 }

/-! ## Views and tables for the last statements -/

/-- The bytes of the text of a token in the buffer `content`. -/
def token_text (content : List Int) (t : Token) : List Int :=
  (List.range t.text_len).map (fun i => content.getD (t.text + i) 0)

/-- Kind and text of a recorded call. -/
def kind_and_text (content : List Int) (p : Token × Lexer) : Token_Kind × List Int :=
  (p.1.kind, token_text content p.1)

/-- A colour as the source writes it: the call `vec4fs(x)` or the call
`hex_to_vec4f(hex)`; the two functions live in a header that is not part of the
sources at hand and are left uninterpreted. -/
inductive Vec4f where
  | vec4fs (x : Int)
  | hex_to_vec4f (hex : Nat)
  deriving DecidableEq

/-- The 13 token kinds. -/
def all_token_kinds : List Token_Kind :=
  [TOKEN_END, TOKEN_INVALID, TOKEN_PREPROC, TOKEN_SYMBOL, TOKEN_OPEN_PAREN, TOKEN_CLOSE_PAREN,
    TOKEN_OPEN_CURLY, TOKEN_CLOSE_CURLY, TOKEN_SEMICOLON, TOKEN_KEYWORD, TOKEN_CONTROL_FLOW,
    TOKEN_COMMENT, TOKEN_STRING]

/-- The `switch` of `token_kind_name`: each `case` label with the value returned
under it, in source order. -/
def token_kind_name_switch : List (Token_Kind × String) :=
  [(TOKEN_END, "end of content"),
    (TOKEN_INVALID, "invalid token"),
    (TOKEN_PREPROC, "preprocessor directive"),
    (TOKEN_SYMBOL, "symbol"),
    (TOKEN_OPEN_PAREN, "open paren"),
    (TOKEN_CLOSE_PAREN, "close paren"),
    (TOKEN_OPEN_CURLY, "open curly"),
    (TOKEN_CLOSE_CURLY, "close curly"),
    (TOKEN_SEMICOLON, "semicolon"),
    (TOKEN_KEYWORD, "keyword"),
    (TOKEN_CONTROL_FLOW, "control flow"),
    (TOKEN_COMMENT, "comment"),
    (TOKEN_STRING, "string")]

/-- The function `token_kind_name`: the value under the `case` label equal to
`kind`; `none` when no label is equal to it and control falls out of the
`switch` without a `return`. -/
def token_kind_name (kind : Token_Kind) : Option String :=
  List.lookup kind token_kind_name_switch

/-- The `switch` of `token_kind_color`: each `case` label with the value
returned under it (the first eight labels share one `return`), in source
order. -/
def token_kind_color_switch : List (Token_Kind × Vec4f) :=
  [(TOKEN_END, Vec4f.vec4fs 1),
    (TOKEN_INVALID, Vec4f.vec4fs 1),
    (TOKEN_SYMBOL, Vec4f.vec4fs 1),
    (TOKEN_OPEN_PAREN, Vec4f.vec4fs 1),
    (TOKEN_CLOSE_PAREN, Vec4f.vec4fs 1),
    (TOKEN_OPEN_CURLY, Vec4f.vec4fs 1),
    (TOKEN_CLOSE_CURLY, Vec4f.vec4fs 1),
    (TOKEN_SEMICOLON, Vec4f.vec4fs 1),
    (TOKEN_PREPROC, Vec4f.hex_to_vec4f 0x95A99FFF),
    (TOKEN_KEYWORD, Vec4f.hex_to_vec4f 0xFFDD33FF),
    (TOKEN_CONTROL_FLOW, Vec4f.hex_to_vec4f 0xCC8C3CFF),
    (TOKEN_COMMENT, Vec4f.hex_to_vec4f 0x95A99FFF),
    (TOKEN_STRING, Vec4f.hex_to_vec4f 0x73c936ff)]

/-- The function `token_kind_color`, read like `token_kind_name`. -/
def token_kind_color (kind : Token_Kind) : Option Vec4f :=
  List.lookup kind token_kind_color_switch

/-- The scanner states reachable from `l0` by calls of `lexer_next`. -/
inductive Reachable (GLYPH_METRICS_CAPACITY : Nat) (FREE_GLYPH_FONT_SIZE : Int) (l0 : Lexer) :
    Lexer → Prop where
  | start : Reachable GLYPH_METRICS_CAPACITY FREE_GLYPH_FONT_SIZE l0 l0
  | next (l : Lexer) (tok : Token) (l1 : Lexer) :
    Reachable GLYPH_METRICS_CAPACITY FREE_GLYPH_FONT_SIZE l0 l →
    lexer_next GLYPH_METRICS_CAPACITY FREE_GLYPH_FONT_SIZE l = some (tok, l1) →
    Reachable GLYPH_METRICS_CAPACITY FREE_GLYPH_FONT_SIZE l0 l1

/-- The 3 bytes `A`, newline, `B`. -/
def two_line_buffer : List Int := [65, 10, 66]

/-- The state after two calls of `lexer_next` on `two_line_buffer` with
`ramp_atlas`: cursor 3, line 1, bol 2, x 67. -/
def two_line_state : Lexer :=
  { atlas := some ramp_atlas, content := two_line_buffer, content_len := 3,
    line := 1, bol := 2, cursor := 3, x := 67 }

/-- The kinds of the tokens that hold no newline byte at all. -/
def newline_free_kinds : List Token_Kind :=
  [TOKEN_SYMBOL, TOKEN_KEYWORD, TOKEN_CONTROL_FLOW, TOKEN_INVALID, TOKEN_OPEN_PAREN,
    TOKEN_CLOSE_PAREN, TOKEN_OPEN_CURLY, TOKEN_CLOSE_CURLY, TOKEN_SEMICOLON]

/-! ## The scanner with bounds-checked reads

The same functions once more, every read of `content` going through
`Lexer.read`, which yields `none` for an offset that is not below `content_len`;
a function yields `none` as soon as one of its reads does (or an `assert` fails,
or a loop runs out of iterations). Where the source reads the byte at the cursor
again while the state has not changed, the read is made once. -/

/-- The read `l->content[i]`, refused when `i` is not below `content_len`. -/
def Lexer.read (l : Lexer) (i : Nat) : Option Int :=
  if i < l.content_len then some (l.char_at i) else none

/-- The `for` loop of `lexer_starts_with` over the indices still to compare. -/
def starts_with_loop_checked (l : Lexer) (pfx : List Int) : List Nat → Option Bool
  | [] => some true
  | i :: rest =>
    match l.read (l.cursor + i) with
    | none => none
    | some c => if pfx.getD i 0 != c then some false else starts_with_loop_checked l pfx rest

def lexer_starts_with_checked (l : Lexer) (pfx : List Int) : Option Bool :=
  let pfx_len := pfx.length
  if pfx_len = 0 then some true
  else if l.cursor + pfx_len - 1 ≥ l.content_len then some false
  else starts_with_loop_checked l pfx (List.range pfx_len)

/-- One iteration of the loop of `lexer_chop_char`: the `assert`, then the read
of the byte at the cursor. -/
def chop_step_checked (GLYPH_METRICS_CAPACITY : Nat) (l : Lexer) : Option Lexer :=
  if l.cursor < l.content_len then
    match l.read l.cursor with
    | none => none
    | some x =>
      let l := { l with cursor := l.cursor + 1 }
      if x = 10 then
        some { l with line := l.line + 1, bol := l.cursor, x := 0 }
      else
        match l.atlas with
        | some atlas =>
          some { l with x := l.x + atlas.metrics (glyph_index GLYPH_METRICS_CAPACITY x) }
        | none => some l
  else none

def lexer_chop_char_checked (GLYPH_METRICS_CAPACITY : Nat) (l : Lexer) : Nat → Option Lexer
  | 0 => some l
  | len + 1 =>
    match chop_step_checked GLYPH_METRICS_CAPACITY l with
    | some l1 => lexer_chop_char_checked GLYPH_METRICS_CAPACITY l1 len
    | none => none

/-- The loop test `l->cursor < l->content_len && p(l->content[l->cursor])`: the
byte is read only when the cursor is below `content_len`. -/
def loop_test_checked (l : Lexer) (p : Int → Bool) : Option Bool :=
  if l.cursor < l.content_len then
    match l.read l.cursor with
    | none => none
    | some c => some (p c)
  else some false

def lexer_chop_while_checked (GLYPH_METRICS_CAPACITY : Nat) (p : Int → Bool) :
    Nat → Lexer → Option Lexer
  | 0, l =>
    match loop_test_checked l p with
    | none => none
    | some true => none
    | some false => some l
  | fuel + 1, l =>
    match loop_test_checked l p with
    | none => none
    | some true =>
      match lexer_chop_char_checked GLYPH_METRICS_CAPACITY l 1 with
      | some l1 => lexer_chop_while_checked GLYPH_METRICS_CAPACITY p fuel l1
      | none => none
    | some false => some l

def lexer_trim_left_checked (GLYPH_METRICS_CAPACITY : Nat) (l : Lexer) : Option Lexer :=
  lexer_chop_while_checked GLYPH_METRICS_CAPACITY isspace (l.content_len - l.cursor) l

def chop_if_more_checked (GLYPH_METRICS_CAPACITY : Nat) (l : Lexer) : Option Lexer :=
  if l.cursor < l.content_len then lexer_chop_char_checked GLYPH_METRICS_CAPACITY l 1
  else some l

def symbol_loop_checked (GLYPH_METRICS_CAPACITY : Nat) :
    Nat → Lexer → Nat → Option (Lexer × Nat)
  | 0, l, text_len =>
    match loop_test_checked l is_symbol with
    | none => none
    | some true => none
    | some false => some (l, text_len)
  | fuel + 1, l, text_len =>
    match loop_test_checked l is_symbol with
    | none => none
    | some true =>
      match lexer_chop_char_checked GLYPH_METRICS_CAPACITY l 1 with
      | some l1 => symbol_loop_checked GLYPH_METRICS_CAPACITY fuel l1 (text_len + 1)
      | none => none
    | some false => some (l, text_len)

/-- The reads of the `len` bytes from offset `off` on, in order. -/
def read_slice (l : Lexer) (off : Nat) : Nat → Option (List Int)
  | 0 => some []
  | len + 1 =>
    match read_slice l off len with
    | none => none
    | some bytes =>
      match l.read (off + len) with
      | none => none
      | some c => some (bytes ++ [c])

/-- The test `len == token.text_len && memcmp(word, token.text, len) == 0`:
`memcmp` reads the text only when the lengths are equal. -/
def word_matches_checked (l : Lexer) (text text_len : Nat) (word : List Int) : Option Bool :=
  if word.length == text_len then
    match read_slice l text word.length with
    | none => none
    | some bytes => some (word == bytes)
  else some false

/-- A table loop of `lexer_next`: the words are tested in order up to the first
match. -/
def table_any_checked (l : Lexer) (text text_len : Nat) : List (List Int) → Option Bool
  | [] => some false
  | word :: rest =>
    match word_matches_checked l text text_len word with
    | none => none
    | some true => some true
    | some false => table_any_checked l text text_len rest

def all_caps_checked (l : Lexer) (text text_len : Nat) : Option Bool :=
  match read_slice l text text_len with
  | none => none
  | some bytes =>
    some (bytes.all (fun c => (65 ≤ c && c ≤ 90) || (48 ≤ c && c ≤ 57) || c == 95))

def classify_symbol_checked (l : Lexer) (text text_len : Nat) : Option Token_Kind :=
  match table_any_checked l text text_len keywords with
  | none => none
  | some is_keyword =>
    match table_any_checked l text text_len control_flow with
    | none => none
    | some is_control_flow =>
      match all_caps_checked l text text_len with
      | none => none
      | some caps =>
        let kind := TOKEN_SYMBOL
        let kind := if is_keyword then TOKEN_KEYWORD else kind
        let kind := if is_control_flow then TOKEN_CONTROL_FLOW else kind
        some (if caps && text_len > 1 then TOKEN_PREPROC else kind)

/-- The literal loop of `lexer_next`: the first entry of the table the buffer
starts with at the cursor. -/
def literal_find_checked (l : Lexer) : List Literal_Token → Option (Option Literal_Token)
  | [] => some none
  | lt :: rest =>
    match lexer_starts_with_checked l lt.text with
    | none => none
    | some true => some (some lt)
    | some false => literal_find_checked l rest

/-- The three statements that end a string, directive or comment token. -/
def line_tail_checked (GLYPH_METRICS_CAPACITY : Nat) (p : Int → Bool) (kind : Token_Kind)
    (token : Token) (l : Lexer) : Option (Token × Lexer) :=
  match lexer_chop_while_checked GLYPH_METRICS_CAPACITY p (l.content_len - l.cursor) l with
  | none => none
  | some l2 =>
    match chop_if_more_checked GLYPH_METRICS_CAPACITY l2 with
    | none => none
    | some l3 => some ({ token with kind := kind, text_len := l3.cursor - token.text }, l3)

def lexer_dispatch_checked (GLYPH_METRICS_CAPACITY : Nat) (FREE_GLYPH_FONT_SIZE : Int)
    (l : Lexer) : Option (Token × Lexer) :=
  let token : Token :=
    { kind := TOKEN_END, text := l.cursor, text_len := 0,
      position := { x := l.x, y := vertical_slot FREE_GLYPH_FONT_SIZE l.line } }
  if l.cursor ≥ l.content_len then some (token, l)
  else
    match l.read l.cursor with
    | none => none
    | some c =>
      if c = 34 then
        match lexer_chop_char_checked GLYPH_METRICS_CAPACITY l 1 with
        | none => none
        | some l1 =>
          line_tail_checked GLYPH_METRICS_CAPACITY (fun c => c != 34 && c != 10) TOKEN_STRING
            token l1
      else if c = 35 then
        line_tail_checked GLYPH_METRICS_CAPACITY (fun c => c != 10) TOKEN_PREPROC token l
      else
        match lexer_starts_with_checked l (cstr "//") with
        | none => none
        | some true =>
          line_tail_checked GLYPH_METRICS_CAPACITY (fun c => c != 10) TOKEN_COMMENT token l
        | some false =>
          match literal_find_checked l literal_tokens with
          | none => none
          | some (some lt) =>
            match lexer_chop_char_checked GLYPH_METRICS_CAPACITY l lt.text.length with
            | none => none
            | some l1 => some ({ token with kind := lt.kind, text_len := lt.text.length }, l1)
          | some none =>
            if is_symbol_start c then
              match symbol_loop_checked GLYPH_METRICS_CAPACITY (l.content_len - l.cursor) l 0
                with
              | none => none
              | some (l1, text_len) =>
                match classify_symbol_checked l1 token.text text_len with
                | none => none
                | some kind => some ({ token with kind := kind, text_len := text_len }, l1)
            else
              match lexer_chop_char_checked GLYPH_METRICS_CAPACITY l 1 with
              | none => none
              | some l1 => some ({ token with kind := TOKEN_INVALID, text_len := 1 }, l1)

def lexer_next_checked (GLYPH_METRICS_CAPACITY : Nat) (FREE_GLYPH_FONT_SIZE : Int)
    (l : Lexer) : Option (Token × Lexer) :=
  match lexer_trim_left_checked GLYPH_METRICS_CAPACITY l with
  | none => none
  | some l1 => lexer_dispatch_checked GLYPH_METRICS_CAPACITY FREE_GLYPH_FONT_SIZE l1

/-! ## Exact slots and a buffer of many lines -/

/-- The computation of the vertical slot of `line` is exact: the line counter,
the constant and their product are binary32 values, so none of the three
conversions to `float` rounds. -/
def slot_is_exact (FREE_GLYPH_FONT_SIZE : Int) (line : Nat) : Prop :=
  float_of_nat line = line ∧ float_of_int FREE_GLYPH_FONT_SIZE = FREE_GLYPH_FONT_SIZE ∧
    float_of_int ((line : Int) * FREE_GLYPH_FONT_SIZE) = (line : Int) * FREE_GLYPH_FONT_SIZE

instance (fs : Int) (line : Nat) : Decidable (slot_is_exact fs line) := by
  unfold slot_is_exact; infer_instance

/-- A buffer of `lines` newlines followed by the bytes of ` A`, a newline and
`A`: two identifiers on the lines `lines` and `lines + 1`, the first one after
a space. -/
def deep_buffer (lines : Nat) : List Int := List.replicate lines 10 ++ [32, 65, 10, 65]

/-! ## Basic facts about the primitives -/

theorem Frame.rfl_of (l : Lexer) : Frame l l := ⟨rfl, rfl, rfl⟩

theorem Frame.trans_of {a b c : Lexer} (h1 : Frame a b) (h2 : Frame b c) : Frame a c :=
  ⟨h2.content.trans h1.content, h2.content_len.trans h1.content_len,
    h2.atlas.trans h1.atlas⟩

theorem Frame.char_at_eq {a b : Lexer} (h : Frame a b) (i : Nat) : b.char_at i = a.char_at i := by
  simp [Lexer.char_at, h.content]

theorem Frame.slice_eq {a b : Lexer} (h : Frame a b) (off len : Nat) :
    b.slice off len = a.slice off len := by
  simp [Lexer.slice, h.char_at_eq]

/-- A single chop inside the buffer succeeds and moves the cursor by one; it
moves to the next line exactly when the chopped byte is a newline. -/
theorem chop_step_spec (cap : Nat) (l : Lexer) (h : l.cursor < l.content_len) :
    ∃ l1, chop_step cap l = some l1 ∧ Frame l l1 ∧ l1.cursor = l.cursor + 1 ∧
      (l.char_at l.cursor = 10 → l1.line = l.line + 1 ∧ l1.bol = l.cursor + 1 ∧ l1.x = 0) ∧
      (l.char_at l.cursor ≠ 10 → l1.line = l.line ∧ l1.bol = l.bol) := by
  unfold chop_step
  by_cases hx : l.char_at l.cursor = 10
  · rw [if_pos h]
    simp only [hx, if_true]
    exact ⟨_, rfl, ⟨rfl, rfl, rfl⟩, rfl, fun _ => ⟨rfl, rfl, rfl⟩, fun hne => absurd rfl hne⟩
  · rw [if_pos h]
    simp only [hx, if_false]
    cases ha : l.atlas with
    | none =>
      exact ⟨_, rfl, ⟨rfl, rfl, ha.symm⟩, rfl, fun he => he.elim, fun _ => ⟨rfl, rfl⟩⟩
    | some a =>
      exact ⟨_, rfl, ⟨rfl, rfl, ha.symm⟩, rfl, fun he => he.elim, fun _ => ⟨rfl, rfl⟩⟩

theorem lexer_chop_char_one (cap : Nat) (l : Lexer) :
    lexer_chop_char cap l 1 = chop_step cap l := by
  unfold lexer_chop_char
  cases chop_step cap l <;> simp [lexer_chop_char]

/-- The chopping loop, given as many iterations as bytes remain, succeeds. It
stops at the first offset that is outside the buffer or whose byte fails `p`,
having chopped only bytes that satisfy `p`. -/
theorem chop_while_spec (cap : Nat) (p : Int → Bool) :
    ∀ (fuel : Nat) (l : Lexer), l.content_len - l.cursor ≤ fuel →
      ∃ l1, lexer_chop_while cap p fuel l = some l1 ∧ Frame l l1 ∧ l.cursor ≤ l1.cursor ∧
        (l.cursor ≤ l.content_len → l1.cursor ≤ l.content_len) ∧
        (l.content_len ≤ l.cursor → l1 = l) ∧
        (∀ i, l.cursor ≤ i → i < l1.cursor → p (l.char_at i) = true) ∧
        (l1.cursor < l.content_len → p (l.char_at l1.cursor) = false) ∧
        ((∀ c, p c = true → c ≠ 10) → l1.line = l.line ∧ l1.bol = l.bol) := by
  intro fuel
  induction fuel with
  | zero =>
    intro l hf
    have hle : l.content_len ≤ l.cursor := by omega
    have hc : ¬ (l.cursor < l.content_len) := by omega
    refine ⟨l, ?_, Frame.rfl_of l, le_refl _, fun h => h, fun _ => rfl, ?_, ?_, fun _ => ⟨rfl, rfl⟩⟩
    · simp [lexer_chop_while, hc]
    · intro i h1 h2; omega
    · intro h; omega
  | succ fuel ih =>
    intro l hf
    by_cases hc : l.cursor < l.content_len
    · cases hp : p (l.char_at l.cursor) with
      | false =>
        refine ⟨l, ?_, Frame.rfl_of l, le_refl _, fun h => h, fun _ => rfl, ?_, ?_,
          fun _ => ⟨rfl, rfl⟩⟩
        · simp [lexer_chop_while, hp]
        · intro i h1 h2; omega
        · intro _; exact hp
      | true =>
        obtain ⟨l1, h1, hfr1, hcur1, hnl, hnn⟩ := chop_step_spec cap l hc
        have hf1 : l1.content_len - l1.cursor ≤ fuel := by
          rw [hfr1.content_len, hcur1]; omega
        obtain ⟨l2, h2, hfr2, hcur2, hle2, _, hall2, hstop2, hline2⟩ := ih l1 hf1
        refine ⟨l2, ?_, hfr1.trans_of hfr2, by omega, ?_, ?_, ?_, ?_, ?_⟩
        · simp [lexer_chop_while, hc, hp, lexer_chop_char_one, h1, h2]
        · intro _
          have := hle2 (by rw [hfr1.content_len, hcur1]; omega)
          rwa [hfr1.content_len] at this
        · intro h; omega
        · intro i hi1 hi2
          by_cases hi : i = l.cursor
          · rw [hi]; exact hp
          · have := hall2 i (by omega) hi2
            rwa [hfr1.char_at_eq] at this
        · intro h
          have := hstop2 (by rw [hfr1.content_len]; exact h)
          rwa [hfr1.char_at_eq] at this
        · intro hpn
          have hne := hpn _ hp
          obtain ⟨e1, e2⟩ := hline2 hpn
          obtain ⟨e3, e4⟩ := hnn hne
          exact ⟨e1.trans e3, e2.trans e4⟩
    · have hle : l.content_len ≤ l.cursor := by omega
      refine ⟨l, ?_, Frame.rfl_of l, le_refl _, fun h => h, fun _ => rfl, ?_, ?_,
        fun _ => ⟨rfl, rfl⟩⟩
      · simp [lexer_chop_while, hc]
      · intro i h1 h2; omega
      · intro h; omega

/-- The cursor at which the chopping loop stops is determined by the buffer. -/
theorem chop_while_cursor (cap : Nat) (p : Int → Bool) (l l1 : Lexer) (n : Nat)
    (h : lexer_chop_while cap p (l.content_len - l.cursor) l = some l1)
    (hn1 : l.cursor ≤ n) (hn2 : n ≤ l.content_len)
    (hall : ∀ i, l.cursor ≤ i → i < n → p (l.char_at i) = true)
    (hstop : n < l.content_len → p (l.char_at n) = false) : l1.cursor = n := by
  obtain ⟨l2, h2, _, hcur, hle, _, hall2, hstop2, _⟩ :=
    chop_while_spec cap p (l.content_len - l.cursor) l (le_refl _)
  rw [h] at h2
  cases h2
  have hle1 := hle (by omega)
  rcases Nat.lt_trichotomy l1.cursor n with hlt | heq | hgt
  · have a := hall l1.cursor hcur hlt
    have b := hstop2 (by omega)
    rw [a] at b; cases b
  · exact heq
  · have a := hall2 n hn1 hgt
    have b := hstop (by omega)
    rw [a] at b; cases b

/-- The identifier loop is the chopping loop for `is_symbol`, with `text_len`
counting the chopped bytes. -/
theorem symbol_loop_eq (cap : Nat) :
    ∀ (fuel : Nat) (l : Lexer) (n : Nat), l.content_len - l.cursor ≤ fuel →
      ∃ l1, lexer_chop_while cap is_symbol fuel l = some l1 ∧
        symbol_loop cap fuel l n = some (l1, n + (l1.cursor - l.cursor)) := by
  intro fuel
  induction fuel with
  | zero =>
    intro l n hf
    have hc : ¬ (l.cursor < l.content_len) := by omega
    exact ⟨l, by simp [lexer_chop_while, hc], by simp [symbol_loop, hc]⟩
  | succ fuel ih =>
    intro l n hf
    by_cases hc : l.cursor < l.content_len
    · cases hp : is_symbol (l.char_at l.cursor) with
      | false => exact ⟨l, by simp [lexer_chop_while, hp], by simp [symbol_loop, hp]⟩
      | true =>
        obtain ⟨l1, h1, hfr1, hcur1, _, _⟩ := chop_step_spec cap l hc
        have hf1 : l1.content_len - l1.cursor ≤ fuel := by
          rw [hfr1.content_len, hcur1]; omega
        obtain ⟨l2, h2, h3⟩ := ih l1 (n + 1) hf1
        obtain ⟨l3, h4, _, hcur3, _⟩ := chop_while_spec cap is_symbol fuel l1 hf1
        rw [h2] at h4; cases h4
        refine ⟨l2, ?_, ?_⟩
        · simp [lexer_chop_while, hc, hp, lexer_chop_char_one, h1, h2]
        · simp only [symbol_loop, hc, hp, lexer_chop_char_one, h1, h3, decide_True,
            Bool.and_self, if_true]
          congr 2
          omega
    · exact ⟨l, by simp [lexer_chop_while, hc], by simp [symbol_loop, hc]⟩

theorem starts_with_one (l : Lexer) (c : Int) :
    lexer_starts_with l [c] = true ↔ l.cursor < l.content_len ∧ l.char_at l.cursor = c := by
  unfold lexer_starts_with
  simp [List.range_succ, List.range_zero]
  intro _
  exact eq_comm

theorem starts_with_comment (l : Lexer) :
    lexer_starts_with l (cstr "//") = true ↔
      l.cursor + 1 < l.content_len ∧ l.char_at l.cursor = 47 ∧ l.char_at (l.cursor + 1) = 47 := by
  unfold lexer_starts_with
  have : cstr "//" = [47, 47] := by decide
  rw [this]
  simp [List.range_succ, List.range_zero]
  intro _
  constructor <;> (rintro ⟨a, b⟩; exact ⟨a.symm, b.symm⟩)

theorem literal_find_some (l : Lexer) (lt : Literal_Token)
    (h : literal_tokens.find? (fun t => lexer_starts_with l t.text) = some lt) :
    l.cursor < l.content_len ∧ lt.text = [l.char_at l.cursor] ∧
      ((l.char_at l.cursor = 40 ∧ lt.kind = TOKEN_OPEN_PAREN) ∨
       (l.char_at l.cursor = 41 ∧ lt.kind = TOKEN_CLOSE_PAREN) ∨
       (l.char_at l.cursor = 123 ∧ lt.kind = TOKEN_OPEN_CURLY) ∨
       (l.char_at l.cursor = 125 ∧ lt.kind = TOKEN_CLOSE_CURLY) ∨
       (l.char_at l.cursor = 59 ∧ lt.kind = TOKEN_SEMICOLON)) := by
  have hmem := List.mem_of_find?_eq_some h
  have hp := List.find?_some h
  have hl : literal_tokens = [⟨TOKEN_OPEN_PAREN, [40]⟩, ⟨TOKEN_CLOSE_PAREN, [41]⟩,
      ⟨TOKEN_OPEN_CURLY, [123]⟩, ⟨TOKEN_CLOSE_CURLY, [125]⟩, ⟨TOKEN_SEMICOLON, [59]⟩] := by
    decide
  rw [hl] at hmem
  simp only [List.mem_cons, List.mem_singleton, List.not_mem_nil, or_false] at hmem
  rcases hmem with rfl | rfl | rfl | rfl | rfl <;>
    · have := (starts_with_one l _).1 hp
      simp [this.1, this.2]

theorem literal_find_none (l : Lexer)
    (h : literal_tokens.find? (fun t => lexer_starts_with l t.text) = none)
    (hc : l.cursor < l.content_len) :
    l.char_at l.cursor ≠ 40 ∧ l.char_at l.cursor ≠ 41 ∧ l.char_at l.cursor ≠ 123 ∧
      l.char_at l.cursor ≠ 125 ∧ l.char_at l.cursor ≠ 59 := by
  have hl : literal_tokens = [⟨TOKEN_OPEN_PAREN, [40]⟩, ⟨TOKEN_CLOSE_PAREN, [41]⟩,
      ⟨TOKEN_OPEN_CURLY, [123]⟩, ⟨TOKEN_CLOSE_CURLY, [125]⟩, ⟨TOKEN_SEMICOLON, [59]⟩] := by
    decide
  rw [hl] at h
  simp only [List.find?_eq_none, List.mem_cons, List.mem_singleton, List.not_mem_nil,
    or_false, Bool.not_eq_true] at h
  refine ⟨?_, ?_, ?_, ?_, ?_⟩ <;> intro he
  · have := h ⟨TOKEN_OPEN_PAREN, [40]⟩ (by simp)
    rw [← Bool.not_eq_true, starts_with_one] at this; exact this ⟨hc, he⟩
  · have := h ⟨TOKEN_CLOSE_PAREN, [41]⟩ (by simp)
    rw [← Bool.not_eq_true, starts_with_one] at this; exact this ⟨hc, he⟩
  · have := h ⟨TOKEN_OPEN_CURLY, [123]⟩ (by simp)
    rw [← Bool.not_eq_true, starts_with_one] at this; exact this ⟨hc, he⟩
  · have := h ⟨TOKEN_CLOSE_CURLY, [125]⟩ (by simp)
    rw [← Bool.not_eq_true, starts_with_one] at this; exact this ⟨hc, he⟩
  · have := h ⟨TOKEN_SEMICOLON, [59]⟩ (by simp)
    rw [← Bool.not_eq_true, starts_with_one] at this; exact this ⟨hc, he⟩

theorem chop_if_more_spec (cap : Nat) (l : Lexer) :
    ∃ l1, chop_if_more cap l = some l1 ∧ Frame l l1 ∧
      (l.cursor < l.content_len → l1.cursor = l.cursor + 1 ∧
        (l.char_at l.cursor = 10 → l1.line = l.line + 1 ∧ l1.bol = l.cursor + 1 ∧ l1.x = 0) ∧
        (l.char_at l.cursor ≠ 10 → l1.line = l.line ∧ l1.bol = l.bol)) ∧
      (l.content_len ≤ l.cursor → l1 = l) := by
  unfold chop_if_more
  by_cases hc : l.cursor < l.content_len
  · obtain ⟨l1, h1, hfr, hcur, hnl, hnn⟩ := chop_step_spec cap l hc
    rw [if_pos hc, lexer_chop_char_one]
    exact ⟨l1, h1, hfr, fun _ => ⟨hcur, hnl, hnn⟩, fun h => absurd hc (by omega)⟩
  · rw [if_neg hc]
    exact ⟨l, rfl, Frame.rfl_of l, fun h => absurd h hc, fun _ => rfl⟩

/-- Every offset inside the buffer has a line end. -/
theorem exists_line_end (l : Lexer) (k : Nat) (hk : k ≤ l.content_len) :
    ∃ n, line_end_at l k n := by
  obtain ⟨l1, _, hfr, hcur, hle, _, hall, hstop, _⟩ :=
    chop_while_spec 0 (fun c => c != 10) (l.content_len - k)
      { l with cursor := k } (le_refl _)
  refine ⟨l1.cursor, hcur, hle hk, ?_, ?_⟩
  · intro i h1 h2
    have := hall i h1 h2
    simpa [Lexer.char_at] using this
  · intro h
    have := hstop h
    simpa [Lexer.char_at] using this

/-- The two statements shared by the directive and the comment branch: chop up
to the end of the line, then chop the newline when there is one. -/
theorem line_chop_spec (cap : Nat) (l : Lexer) (n : Nat) (hn : line_end_at l l.cursor n) :
    ∃ l2 l3, lexer_chop_while cap (fun c => c != 10) (l.content_len - l.cursor) l = some l2 ∧
      chop_if_more cap l2 = some l3 ∧ Frame l l3 ∧
      l3.cursor = (if n < l.content_len then n + 1 else n) ∧
      (n < l.content_len → l3.line = l.line + 1 ∧ l3.bol = n + 1 ∧ l3.x = 0) ∧
      (n = l.content_len → l3.line = l.line ∧ l3.bol = l.bol) := by
  obtain ⟨hn1, hn2, hn3, hn4⟩ := hn
  obtain ⟨l2, h2, hfr2, _, _, _, _, _, hline2⟩ :=
    chop_while_spec cap (fun c => c != 10) (l.content_len - l.cursor) l (le_refl _)
  have hcur2 : l2.cursor = n :=
    chop_while_cursor cap _ l l2 n h2 hn1 hn2
      (fun i a b => by simpa using hn3 i a b) (fun a => by simpa using hn4 a)
  obtain ⟨e1, e2⟩ := hline2 (fun c hc => by simpa using hc)
  obtain ⟨l3, h3, hfr3, hmore, hstay⟩ := chop_if_more_spec cap l2
  refine ⟨l2, l3, h2, h3, hfr2.trans_of hfr3, ?_, ?_, ?_⟩
  · by_cases hlt : n < l.content_len
    · rw [if_pos hlt]
      have := (hmore (by rw [hcur2, hfr2.content_len]; exact hlt)).1
      omega
    · rw [if_neg hlt]
      have := hstay (by rw [hcur2, hfr2.content_len]; omega)
      rw [this, hcur2]
  · intro hlt
    obtain ⟨_, hnl, _⟩ := hmore (by rw [hcur2, hfr2.content_len]; exact hlt)
    have h10 : l2.char_at l2.cursor = 10 := by rw [hfr2.char_at_eq, hcur2]; exact hn4 hlt
    obtain ⟨a, b, c⟩ := hnl h10
    exact ⟨by omega, by omega, c⟩
  · intro heq
    have := hstay (by rw [hcur2, hfr2.content_len]; omega)
    rw [this]
    exact ⟨e1, e2⟩

/-- At or past the end of the buffer the result is the zero-length token of
kind `TOKEN_END`, and the scanner is left as it was. -/
theorem dispatch_end (cap : Nat) (fs : Int) (l : Lexer) (h : l.content_len ≤ l.cursor) :
    lexer_dispatch cap fs l =
      some (⟨TOKEN_END, l.cursor, 0, ⟨l.x, vertical_slot fs l.line⟩⟩, l) := by
  unfold lexer_dispatch
  simp only [ge_iff_le, h, if_true]

/-- The directive branch. -/
theorem dispatch_preproc (cap : Nat) (fs : Int) (l : Lexer) (n : Nat)
    (hc : l.cursor < l.content_len) (hx : l.char_at l.cursor = 35)
    (hn : line_end_at l l.cursor n) :
    ∃ l3, lexer_dispatch cap fs l =
        some (⟨TOKEN_PREPROC, l.cursor, l3.cursor - l.cursor,
          ⟨l.x, vertical_slot fs l.line⟩⟩, l3) ∧ Frame l l3 ∧
      l3.cursor = (if n < l.content_len then n + 1 else n) ∧
      (n < l.content_len → l3.line = l.line + 1 ∧ l3.bol = n + 1 ∧ l3.x = 0) ∧
      (n = l.content_len → l3.line = l.line ∧ l3.bol = l.bol) := by
  obtain ⟨l2, l3, h2, h3, hfr, hcur, ha, hb⟩ := line_chop_spec cap l n hn
  refine ⟨l3, ?_, hfr, hcur, ha, hb⟩
  unfold lexer_dispatch
  have hge : ¬ (l.cursor ≥ l.content_len) := by omega
  simp only [hge, if_false, hx, h2, h3]
  simp

/-- The comment branch. -/
theorem dispatch_comment (cap : Nat) (fs : Int) (l : Lexer) (n : Nat)
    (hc : l.cursor + 1 < l.content_len) (hx : l.char_at l.cursor = 47)
    (hy : l.char_at (l.cursor + 1) = 47) (hn : line_end_at l l.cursor n) :
    ∃ l3, lexer_dispatch cap fs l =
        some (⟨TOKEN_COMMENT, l.cursor, l3.cursor - l.cursor,
          ⟨l.x, vertical_slot fs l.line⟩⟩, l3) ∧ Frame l l3 ∧
      l3.cursor = (if n < l.content_len then n + 1 else n) ∧
      (n < l.content_len → l3.line = l.line + 1 ∧ l3.bol = n + 1 ∧ l3.x = 0) ∧
      (n = l.content_len → l3.line = l.line ∧ l3.bol = l.bol) := by
  obtain ⟨l2, l3, h2, h3, hfr, hcur, ha, hb⟩ := line_chop_spec cap l n hn
  refine ⟨l3, ?_, hfr, hcur, ha, hb⟩
  unfold lexer_dispatch
  have hge : ¬ (l.cursor ≥ l.content_len) := by omega
  have hsw : lexer_starts_with l (cstr "//") = true := (starts_with_comment l).2 ⟨hc, hx, hy⟩
  simp only [hge, if_false, hx, h2, h3, hsw]
  simp

/-- Every string opened inside the buffer has an end of its body. -/
theorem exists_string_end (l : Lexer) (k : Nat) (hk : k < l.content_len) :
    ∃ m, string_end_at l k m := by
  obtain ⟨l1, _, hfr, hcur, hle, _, hall, hstop, _⟩ :=
    chop_while_spec 0 (fun c => c != 34 && c != 10) (l.content_len - (k + 1))
      { l with cursor := k + 1 } (le_refl _)
  have hcur1 : k + 1 ≤ l1.cursor := hcur
  refine ⟨l1.cursor, by omega, hle hk, ?_, ?_⟩
  · intro i h1 h2
    have := hall i h1 h2
    simpa [Lexer.char_at] using this
  · intro h
    have := hstop h
    simp only [Lexer.char_at, Bool.and_eq_false_iff, bne_eq_false_iff_eq] at this
    exact this

/-- Every offset inside the buffer has an end of its identifier run. -/
theorem exists_symbol_end (l : Lexer) (k : Nat) (hk : k ≤ l.content_len) :
    ∃ m, symbol_end_at l k m := by
  obtain ⟨l1, _, hfr, hcur, hle, _, hall, hstop, _⟩ :=
    chop_while_spec 0 is_symbol (l.content_len - k) { l with cursor := k } (le_refl _)
  exact ⟨l1.cursor, hcur, hle hk, fun i h1 h2 => hall i h1 h2, fun h => hstop h⟩

/-- The string branch: the opening quote, the body, then one more byte (the
closing quote or the newline) when the buffer has one. -/
theorem dispatch_string (cap : Nat) (fs : Int) (l : Lexer) (m : Nat)
    (hc : l.cursor < l.content_len) (hx : l.char_at l.cursor = 34)
    (hm : string_end_at l l.cursor m) :
    ∃ l3, lexer_dispatch cap fs l =
        some (⟨TOKEN_STRING, l.cursor, l3.cursor - l.cursor,
          ⟨l.x, vertical_slot fs l.line⟩⟩, l3) ∧ Frame l l3 ∧
      l3.cursor = (if m < l.content_len then m + 1 else m) ∧
      (m < l.content_len → l.char_at m = 10 →
        l3.line = l.line + 1 ∧ l3.bol = m + 1 ∧ l3.x = 0) ∧
      ((m = l.content_len ∨ l.char_at m ≠ 10) → l3.line = l.line ∧ l3.bol = l.bol) := by
  obtain ⟨hm1, hm2, hm3, hm4⟩ := hm
  obtain ⟨l1, h1, hfr1, hcur1, _, hnn1⟩ := chop_step_spec cap l hc
  obtain ⟨e1, e2⟩ := hnn1 (by rw [hx]; decide)
  obtain ⟨l2, h2, hfr2, _, _, _, _, _, hline2⟩ :=
    chop_while_spec cap (fun c => c != 34 && c != 10) (l1.content_len - l1.cursor) l1 (le_refl _)
  have hcur2 : l2.cursor = m := by
    refine chop_while_cursor cap _ l1 l2 m h2 (by omega) (by rw [hfr1.content_len]; exact hm2)
      ?_ ?_
    · intro i a b
      have := hm3 i (by omega) b
      rw [hfr1.char_at_eq]
      simpa using this
    · intro a
      have := hm4 (by rw [hfr1.content_len] at a; exact a)
      rw [hfr1.char_at_eq]
      simpa only [Bool.and_eq_false_iff, bne_eq_false_iff_eq] using this
  obtain ⟨e3, e4⟩ := hline2 (fun c hc => by
    simp only [Bool.and_eq_true, bne_iff_ne] at hc
    exact hc.2)
  obtain ⟨l3, h3, hfr3, hmore, hstay⟩ := chop_if_more_spec cap l2
  have hfr12 := hfr1.trans_of hfr2
  refine ⟨l3, ?_, hfr12.trans_of hfr3, ?_, ?_, ?_⟩
  · unfold lexer_dispatch
    have hge : ¬ (l.cursor ≥ l.content_len) := by omega
    simp only [hge, if_false, hx, lexer_chop_char_one, h1, h2, h3]
    simp
  · by_cases hlt : m < l.content_len
    · rw [if_pos hlt]
      have := (hmore (by rw [hcur2, hfr12.content_len]; exact hlt)).1
      omega
    · rw [if_neg hlt]
      have := hstay (by rw [hcur2, hfr12.content_len]; omega)
      rw [this, hcur2]
  · intro hlt h10
    obtain ⟨_, hnl, _⟩ := hmore (by rw [hcur2, hfr12.content_len]; exact hlt)
    have h10b : l2.char_at l2.cursor = 10 := by rw [hfr12.char_at_eq, hcur2]; exact h10
    obtain ⟨a, b, c⟩ := hnl h10b
    exact ⟨by omega, by omega, c⟩
  · intro h
    by_cases hlt : m < l.content_len
    · have hne : l.char_at m ≠ 10 := by
        rcases h with h | h
        · omega
        · exact h
      obtain ⟨_, _, hnn⟩ := hmore (by rw [hcur2, hfr12.content_len]; exact hlt)
      have hneb : l2.char_at l2.cursor ≠ 10 := by rw [hfr12.char_at_eq, hcur2]; exact hne
      obtain ⟨a, b⟩ := hnn hneb
      exact ⟨by omega, by omega⟩
    · have := hstay (by rw [hcur2, hfr12.content_len]; omega)
      rw [this]
      exact ⟨by omega, by omega⟩

/-- What `lexer_trim_left` does: it succeeds, chops only whitespace, and stops
at the first byte that is not whitespace or at the end of the buffer. -/
theorem trim_left_spec (cap : Nat) (l : Lexer) :
    ∃ lt, lexer_trim_left cap l = some lt ∧ Frame l lt ∧ l.cursor ≤ lt.cursor ∧
      (l.cursor ≤ l.content_len → lt.cursor ≤ l.content_len) ∧
      (l.content_len ≤ l.cursor → lt = l) ∧
      (∀ i, l.cursor ≤ i → i < lt.cursor → isspace (l.char_at i) = true) ∧
      (lt.cursor < l.content_len → isspace (l.char_at lt.cursor) = false) := by
  obtain ⟨lt, h, hfr, a, b, c, d, e, _⟩ :=
    chop_while_spec cap isspace (l.content_len - l.cursor) l (le_refl _)
  exact ⟨lt, h, hfr, a, b, c, d, e⟩

theorem trim_left_first_nonspace (cap : Nat) (l : Lexer) (k : Nat)
    (hk : first_nonspace_at l k) :
    ∃ lt, lexer_trim_left cap l = some lt ∧ Frame l lt ∧ lt.cursor = k := by
  obtain ⟨lt, h, hfr, _⟩ := trim_left_spec cap l
  obtain ⟨h1, h2, h3, h4⟩ := hk
  exact ⟨lt, h, hfr, chop_while_cursor cap isspace l lt k h h1 (by omega) h3 (fun _ => h4)⟩

theorem lexer_next_of_trim (cap : Nat) (fs : Int) (l lt : Lexer)
    (h : lexer_trim_left cap l = some lt) :
    lexer_next cap fs l = lexer_dispatch cap fs lt := by
  simp [lexer_next, h]

theorem Frame.line_end_at {a b : Lexer} (h : Frame a b) {k n : Nat}
    (hn : line_end_at a k n) : line_end_at b k n := by
  obtain ⟨h1, h2, h3, h4⟩ := hn
  refine ⟨h1, by rw [h.content_len]; exact h2, ?_, ?_⟩
  · intro i a1 a2; rw [h.char_at_eq]; exact h3 i a1 a2
  · intro a1; rw [h.char_at_eq]; exact h4 (by rw [h.content_len] at a1; exact a1)

theorem Frame.string_end_at {a b : Lexer} (h : Frame a b) {k m : Nat}
    (hm : string_end_at a k m) : string_end_at b k m := by
  obtain ⟨h1, h2, h3, h4⟩ := hm
  refine ⟨h1, by rw [h.content_len]; exact h2, ?_, ?_⟩
  · intro i a1 a2; rw [h.char_at_eq]; exact h3 i a1 a2
  · intro a1; rw [h.char_at_eq]; exact h4 (by rw [h.content_len] at a1; exact a1)

theorem Frame.symbol_end_at {a b : Lexer} (h : Frame a b) {k m : Nat}
    (hm : symbol_end_at a k m) : symbol_end_at b k m := by
  obtain ⟨h1, h2, h3, h4⟩ := hm
  refine ⟨h1, by rw [h.content_len]; exact h2, ?_, ?_⟩
  · intro i a1 a2; rw [h.char_at_eq]; exact h3 i a1 a2
  · intro a1; rw [h.char_at_eq]; exact h4 (by rw [h.content_len] at a1; exact a1)

/-! ## Directive and comment tokens -/

/-- C1, as the code has it: on `#define X 1\nint y;` the first token is the
directive with the newline as its twelfth byte (`text_len` is 12, not 11, and the
text holds a newline byte); the cursor afterwards is 12. -/
theorem directive_text_holds_newline :
    (∃ tok l1, lexer_next 128 64 define_lexer = some (tok, l1) ∧
      tok.kind = TOKEN_PREPROC ∧ tok.text = 0 ∧ tok.text_len = 12 ∧ l1.cursor = 12 ∧
      define_lexer.slice tok.text tok.text_len = cstr "#define X 1\n" ∧
      (10 : Int) ∈ define_lexer.slice tok.text tok.text_len) ∧
    ¬ (∃ tok l1, lexer_next 128 64 define_lexer = some (tok, l1) ∧ tok.text_len = 11) := by
  have h : lexer_next 128 64 define_lexer =
      some (⟨TOKEN_PREPROC, 0, 12, ⟨0, 0⟩⟩, ⟨none, define_buffer, 18, 1, 12, 12, 0⟩) := by
    rfl
  refine ⟨⟨_, _, h, rfl, rfl, rfl, rfl, by decide, by decide⟩, ?_⟩
  rintro ⟨tok, l1, h2, h3⟩
  rw [h] at h2
  cases h2
  exact absurd h3 (by decide)

/-- C1, amended: when the first non-whitespace byte at or after the cursor is
`#` (resp. the two bytes `//` lie there inside the buffer), `lexer_next` returns
a `TOKEN_PREPROC` (resp. `TOKEN_COMMENT`) token whose text starts at that byte
and runs through the next newline inclusive, or to the end of the buffer when
there is no newline. The newline, when present, is the last byte of the text and
the only newline in it, and the cursor is left one past it. -/
theorem line_token_runs_through_newline (cap : Nat) (fs : Int) (l : Lexer) (k n : Nat)
    (hk : first_nonspace_at l k)
    (hstart : l.char_at k = 35 ∨
      (k + 1 < l.content_len ∧ l.char_at k = 47 ∧ l.char_at (k + 1) = 47))
    (hn : line_end_at l k n) :
    ∃ tok l1, lexer_next cap fs l = some (tok, l1) ∧
      tok.kind = (if l.char_at k = 35 then TOKEN_PREPROC else TOKEN_COMMENT) ∧
      tok.text = k ∧
      tok.text_len = (if n < l.content_len then n + 1 - k else n - k) ∧
      l1.cursor = tok.text + tok.text_len ∧
      l1.cursor = (if n < l.content_len then n + 1 else n) ∧
      (∀ i, k ≤ i → i + 1 < k + tok.text_len → l.char_at i ≠ 10) ∧
      (n < l.content_len → l.char_at (k + tok.text_len - 1) = 10) := by
  obtain ⟨lt, ht, hfr, hcur⟩ := trim_left_first_nonspace cap l k hk
  have hk2 : k < l.content_len := hk.2.1
  have hn' : line_end_at lt lt.cursor n := by rw [hcur]; exact hfr.line_end_at hn
  obtain ⟨hn1, hn2, hn3, hn4⟩ := hn
  have hlen : ∀ c : Nat, c = (if n < l.content_len then n + 1 else n) →
      c - k = (if n < l.content_len then n + 1 - k else n - k) ∧
      k + (c - k) = c ∧
      (∀ i, k ≤ i → i + 1 < k + (c - k) → l.char_at i ≠ 10) ∧
      (n < l.content_len → l.char_at (k + (c - k) - 1) = 10) := by
    intro c hc
    by_cases hlt : n < l.content_len
    · rw [if_pos hlt] at hc
      rw [if_pos hlt]
      refine ⟨by omega, by omega, fun i a b => hn3 i a (by omega), fun _ => ?_⟩
      have : k + (c - k) - 1 = n := by omega
      rw [this]; exact hn4 hlt
    · rw [if_neg hlt] at hc
      rw [if_neg hlt]
      exact ⟨by omega, by omega, fun i a b => hn3 i a (by omega), fun h => absurd h hlt⟩
  rw [lexer_next_of_trim cap fs l lt ht]
  rcases hstart with h35 | ⟨hc2, h47, h47b⟩
  · obtain ⟨l3, hd, hfr3, hcur3, _, _⟩ :=
      dispatch_preproc cap fs lt n (by rw [hcur, hfr.content_len]; exact hk2)
        (by rw [hfr.char_at_eq, hcur]; exact h35) hn'
    rw [hfr.content_len] at hcur3
    obtain ⟨a, b, c, d⟩ := hlen l3.cursor hcur3
    refine ⟨_, l3, hd, ?_, hcur, ?_, ?_, hcur3, ?_, ?_⟩
    · simp [h35]
    · simpa [hcur] using a
    · simp only [hcur]; omega
    · simpa [hcur] using c
    · simpa [hcur] using d
  · obtain ⟨l3, hd, hfr3, hcur3, _, _⟩ :=
      dispatch_comment cap fs lt n (by rw [hcur, hfr.content_len]; exact hc2)
        (by rw [hfr.char_at_eq, hcur]; exact h47)
        (by rw [hfr.char_at_eq, hcur]; exact h47b) hn'
    rw [hfr.content_len] at hcur3
    obtain ⟨a, b, c, d⟩ := hlen l3.cursor hcur3
    refine ⟨_, l3, hd, ?_, hcur, ?_, ?_, hcur3, ?_, ?_⟩
    · simp [h47]
    · simpa [hcur] using a
    · simp only [hcur]; omega
    · simpa [hcur] using c
    · simpa [hcur] using d

/-- The amended C1 on `#define X 1\nint y;`: the directive token spans the 12
bytes through the newline and the cursor afterwards is 12. -/
theorem line_token_runs_through_newline_witness :
    first_nonspace_at define_lexer 0 ∧ line_end_at define_lexer 0 11 ∧
      ∃ tok l1, lexer_next 128 64 define_lexer = some (tok, l1) ∧
        tok.kind = TOKEN_PREPROC ∧ tok.text = 0 ∧ tok.text_len = 12 ∧
        l1.cursor = tok.text + tok.text_len ∧ l1.cursor = 12 ∧
        (∀ i, 0 ≤ i → i + 1 < 0 + tok.text_len → define_lexer.char_at i ≠ 10) ∧
        (11 < define_lexer.content_len →
          define_lexer.char_at (0 + tok.text_len - 1) = 10) :=
  have h1 : first_nonspace_at define_lexer 0 :=
    ⟨le_refl _, by decide, fun i a b => absurd b (Nat.not_lt_zero i), by decide⟩
  have h2 : line_end_at define_lexer 0 11 :=
    ⟨by decide, by decide, fun i _ b => by interval_cases i <;> decide, fun _ => by decide⟩
  ⟨h1, h2, line_token_runs_through_newline 128 64 define_lexer 0 11 h1 (Or.inl (by decide)) h2⟩

/-! ## String tokens cut short by a newline -/

/-- C2, as the code has it: on the buffer double quote, `abc`, newline, `def`
the string token has `text_len` 5 (not 4): the newline at offset 4 is its last
byte, the cursor afterwards is 5 (past the newline) and the line counter went
from 0 to 1. -/
theorem open_string_holds_newline :
    (∃ tok l1, lexer_next 128 64 open_string_lexer = some (tok, l1) ∧
      tok.kind = TOKEN_STRING ∧ tok.text = 0 ∧ tok.text_len = 5 ∧
      open_string_lexer.char_at 4 = 10 ∧ l1.cursor = 5 ∧
      open_string_lexer.line = 0 ∧ l1.line = 1) ∧
    ¬ (∃ tok l1, lexer_next 128 64 open_string_lexer = some (tok, l1) ∧
      tok.text_len = 4 ∧ l1.cursor = 4 ∧ l1.line = open_string_lexer.line) := by
  have h : lexer_next 128 64 open_string_lexer =
      some (⟨TOKEN_STRING, 0, 5, ⟨0, 0⟩⟩, ⟨none, open_string_buffer, 8, 1, 5, 5, 0⟩) := by
    rfl
  refine ⟨⟨_, _, h, rfl, rfl, rfl, by decide, rfl, rfl, rfl⟩, ?_⟩
  rintro ⟨tok, l1, h2, h3, _, _⟩
  rw [h] at h2
  cases h2
  exact absurd h3 (by decide)

/-- C2, amended: when the first non-whitespace byte at or after the cursor is a
double quote and a newline occurs after it before any further double quote,
`lexer_next` returns a `TOKEN_STRING` token whose text runs from the opening
quote through that newline inclusive: the newline is chopped as the last byte of
the token, the cursor is left one past it, and line, bol and x are those of a
fresh line (line is one more than after the leading whitespace was skipped). -/
theorem open_string_runs_through_newline (cap : Nat) (fs : Int) (l : Lexer) (k m : Nat)
    (hk : first_nonspace_at l k) (hq : l.char_at k = 34)
    (hm1 : k < m) (hm2 : m < l.content_len)
    (hbody : ∀ i, k < i → i < m → l.char_at i ≠ 34 ∧ l.char_at i ≠ 10)
    (hnl : l.char_at m = 10) :
    ∃ tok l1 lt, lexer_trim_left cap l = some lt ∧ lexer_next cap fs l = some (tok, l1) ∧
      tok.kind = TOKEN_STRING ∧ tok.text = k ∧ tok.text_len = m + 1 - k ∧
      l.char_at (tok.text + tok.text_len - 1) = 10 ∧
      l1.cursor = m + 1 ∧ l1.line = lt.line + 1 ∧ l1.bol = m + 1 ∧ l1.x = 0 := by
  obtain ⟨lt, ht, hfr, hcur⟩ := trim_left_first_nonspace cap l k hk
  have hk2 : k < l.content_len := hk.2.1
  have hm : string_end_at lt lt.cursor m := by
    rw [hcur]
    exact hfr.string_end_at ⟨hm1, le_of_lt hm2, hbody, fun _ => Or.inr hnl⟩
  obtain ⟨l3, hd, hfr3, hcur3, hline3, _⟩ :=
    dispatch_string cap fs lt m (by rw [hcur, hfr.content_len]; exact hk2)
      (by rw [hfr.char_at_eq, hcur]; exact hq) hm
  rw [hfr.content_len, if_pos hm2] at hcur3
  obtain ⟨a, b, c⟩ := hline3 (by rw [hfr.content_len]; exact hm2)
    (by rw [hfr.char_at_eq]; exact hnl)
  rw [← lexer_next_of_trim cap fs l lt ht] at hd
  refine ⟨_, l3, lt, ht, hd, rfl, hcur, ?_, ?_, hcur3, a, b, c⟩
  · simp only [hcur, hcur3]
  · simp only [hcur, hcur3]
    have : k + (m + 1 - k) - 1 = m := by omega
    rw [this]; exact hnl

/-- The amended C2 on the buffer double quote, `abc`, newline, `def`. -/
theorem open_string_runs_through_newline_witness :
    first_nonspace_at open_string_lexer 0 ∧
      ∃ tok l1 lt, lexer_trim_left 128 open_string_lexer = some lt ∧
        lexer_next 128 64 open_string_lexer = some (tok, l1) ∧
        tok.kind = TOKEN_STRING ∧ tok.text = 0 ∧ tok.text_len = 5 ∧
        open_string_lexer.char_at (tok.text + tok.text_len - 1) = 10 ∧
        l1.cursor = 5 ∧ l1.line = lt.line + 1 ∧ l1.bol = 5 ∧ l1.x = 0 :=
  have h1 : first_nonspace_at open_string_lexer 0 :=
    ⟨le_refl _, by decide, fun i a b => absurd b (Nat.not_lt_zero i), by decide⟩
  ⟨h1, open_string_runs_through_newline 128 64 open_string_lexer 0 4 h1 (by decide)
    (by decide) (by decide) (fun i a b => by interval_cases i <;> decide) (by decide)⟩

/-! ## The remaining branches of `lexer_next` -/

/-- Which entry of `literal_tokens` the literal loop finds, by the byte at the
cursor. -/
theorem literal_find_eq (l : Lexer) (hc : l.cursor < l.content_len) :
    literal_tokens.find? (fun t => lexer_starts_with l t.text) =
      if l.char_at l.cursor = 40 then some ⟨TOKEN_OPEN_PAREN, [40]⟩
      else if l.char_at l.cursor = 41 then some ⟨TOKEN_CLOSE_PAREN, [41]⟩
      else if l.char_at l.cursor = 123 then some ⟨TOKEN_OPEN_CURLY, [123]⟩
      else if l.char_at l.cursor = 125 then some ⟨TOKEN_CLOSE_CURLY, [125]⟩
      else if l.char_at l.cursor = 59 then some ⟨TOKEN_SEMICOLON, [59]⟩
      else none := by
  have hl : literal_tokens = [⟨TOKEN_OPEN_PAREN, [40]⟩, ⟨TOKEN_CLOSE_PAREN, [41]⟩,
      ⟨TOKEN_OPEN_CURLY, [123]⟩, ⟨TOKEN_CLOSE_CURLY, [125]⟩, ⟨TOKEN_SEMICOLON, [59]⟩] := by
    decide
  have key : ∀ c, lexer_starts_with l [c] = decide (l.char_at l.cursor = c) := by
    intro c
    rw [Bool.eq_iff_iff, starts_with_one]
    simp [hc]
  rw [hl]
  simp only [List.find?, key]
  split_ifs <;> simp_all

theorem symbol_start_is_symbol (c : Int) (h : is_symbol_start c = true) :
    is_symbol c = true := by
  simp only [is_symbol_start, is_symbol, isalnum, Bool.or_eq_true] at *
  rcases h with h | h
  · exact Or.inl (Or.inl h)
  · exact Or.inr h

theorem symbol_char_bounds (c : Int) (h : is_symbol c = true) :
    (48 ≤ c ∧ c ≤ 57) ∨ (65 ≤ c ∧ c ≤ 90) ∨ c = 95 ∨ (97 ≤ c ∧ c ≤ 122) := by
  simp only [is_symbol, isalnum, isalpha, Bool.or_eq_true, Bool.and_eq_true,
    decide_eq_true_eq, beq_iff_eq] at h
  omega

theorem classify_symbol_frame {a b : Lexer} (h : Frame a b) (text text_len : Nat) :
    classify_symbol b text text_len = classify_symbol a text text_len := by
  have hw : word_matches b text text_len = word_matches a text text_len := by
    funext w
    simp [word_matches, h.slice_eq]
  simp [classify_symbol, all_caps, h.slice_eq, hw]

/-- The literal branch. -/
theorem dispatch_literal (cap : Nat) (fs : Int) (l : Lexer) (lt : Literal_Token)
    (hc : l.cursor < l.content_len)
    (hfind : literal_tokens.find? (fun t => lexer_starts_with l t.text) = some lt) :
    ∃ l1, lexer_dispatch cap fs l =
        some (⟨lt.kind, l.cursor, 1, ⟨l.x, vertical_slot fs l.line⟩⟩, l1) ∧ Frame l l1 ∧
      l1.cursor = l.cursor + 1 ∧ l1.line = l.line ∧ l1.bol = l.bol ∧
      lt.kind ≠ TOKEN_END := by
  obtain ⟨_, htext, hkind⟩ := literal_find_some l lt hfind
  obtain ⟨l1, h1, hfr1, hcur1, _, hnn1⟩ := chop_step_spec cap l hc
  have hge : ¬ (l.cursor ≥ l.content_len) := by omega
  have hx : l.char_at l.cursor ≠ 34 ∧ l.char_at l.cursor ≠ 35 ∧ l.char_at l.cursor ≠ 47 ∧
      l.char_at l.cursor ≠ 10 ∧ lt.kind ≠ TOKEN_END := by
    rcases hkind with h | h | h | h | h <;> (rw [h.1, h.2]; decide)
  have hsw : lexer_starts_with l (cstr "//") = false := by
    rw [← Bool.not_eq_true, starts_with_comment]
    intro h; exact hx.2.2.1 h.2.1
  obtain ⟨e1, e2⟩ := hnn1 hx.2.2.2.1
  have hlen : lt.text.length = 1 := by rw [htext]; rfl
  refine ⟨l1, ?_, hfr1, hcur1, e1, e2, hx.2.2.2.2⟩
  unfold lexer_dispatch
  simp only [hge, if_false, hx.1, hx.2.1, hsw, hfind, hlen, lexer_chop_char_one, h1]
  simp

/-- The identifier branch. -/
theorem dispatch_symbol (cap : Nat) (fs : Int) (l : Lexer) (m : Nat)
    (hc : l.cursor < l.content_len) (hs : is_symbol_start (l.char_at l.cursor) = true)
    (hm : symbol_end_at l l.cursor m) :
    ∃ l1, lexer_dispatch cap fs l =
        some (⟨classify_symbol l l.cursor (m - l.cursor), l.cursor, m - l.cursor,
          ⟨l.x, vertical_slot fs l.line⟩⟩, l1) ∧ Frame l l1 ∧
      l1.cursor = m ∧ l.cursor < m ∧ l1.line = l.line ∧ l1.bol = l.bol := by
  obtain ⟨hm1, hm2, hm3, hm4⟩ := hm
  have hsym := symbol_start_is_symbol _ hs
  have hb := symbol_char_bounds _ hsym
  have hlt : l.cursor < m := by
    rcases Nat.lt_or_ge l.cursor m with h | h
    · exact h
    · have : m = l.cursor := by omega
      have := hm4 (by omega)
      rw [‹m = l.cursor›, hsym] at this; cases this
  obtain ⟨l2, h2, h3⟩ := symbol_loop_eq cap (l.content_len - l.cursor) l 0 (le_refl _)
  obtain ⟨l2', h2', hfr2, _, _, _, _, _, hline2⟩ :=
    chop_while_spec cap is_symbol (l.content_len - l.cursor) l (le_refl _)
  rw [h2] at h2'; cases h2'
  have hcur2 : l2.cursor = m := chop_while_cursor cap is_symbol l l2 m h2 hm1 hm2 hm3 hm4
  obtain ⟨e1, e2⟩ := hline2 (fun c hc => by
    have := symbol_char_bounds c hc
    omega)
  have hge : ¬ (l.cursor ≥ l.content_len) := by omega
  have h34 : l.char_at l.cursor ≠ 34 := by omega
  have h35 : l.char_at l.cursor ≠ 35 := by omega
  have hsw : lexer_starts_with l (cstr "//") = false := by
    rw [← Bool.not_eq_true, starts_with_comment]
    intro h; omega
  have hfind : literal_tokens.find? (fun t => lexer_starts_with l t.text) = none := by
    rw [literal_find_eq l hc]
    have a1 : l.char_at l.cursor ≠ 40 := by omega
    have a2 : l.char_at l.cursor ≠ 41 := by omega
    have a3 : l.char_at l.cursor ≠ 123 := by omega
    have a4 : l.char_at l.cursor ≠ 125 := by omega
    have a5 : l.char_at l.cursor ≠ 59 := by omega
    simp only [a1, a2, a3, a4, a5, if_false]
  refine ⟨l2, ?_, hfr2, hcur2, hlt, e1, e2⟩
  unfold lexer_dispatch
  simp only [hge, if_false, h34, h35, hsw, hfind, hs, if_true, h3, hcur2,
    classify_symbol_frame hfr2]
  simp

/-- The fallback branch. -/
theorem dispatch_invalid (cap : Nat) (fs : Int) (l : Lexer)
    (hc : l.cursor < l.content_len)
    (h34 : l.char_at l.cursor ≠ 34) (h35 : l.char_at l.cursor ≠ 35)
    (hsw : lexer_starts_with l (cstr "//") = false)
    (hfind : literal_tokens.find? (fun t => lexer_starts_with l t.text) = none)
    (hs : is_symbol_start (l.char_at l.cursor) = false) :
    ∃ l1, lexer_dispatch cap fs l =
        some (⟨TOKEN_INVALID, l.cursor, 1, ⟨l.x, vertical_slot fs l.line⟩⟩, l1) ∧ Frame l l1 ∧
      l1.cursor = l.cursor + 1 := by
  obtain ⟨l1, h1, hfr1, hcur1, _, _⟩ := chop_step_spec cap l hc
  have hge : ¬ (l.cursor ≥ l.content_len) := by omega
  refine ⟨l1, ?_, hfr1, hcur1⟩
  unfold lexer_dispatch
  simp only [hge, if_false, h34, h35, hsw, hfind, hs, lexer_chop_char_one, h1]
  simp

/-! ## Every call: result, cursor and progress -/

/-- What the part of `lexer_next` after the whitespace does, whatever the
branch: it succeeds, the token starts at the cursor with the position of the
state, and the cursor moves by the length of the text; at or past the end the
token is `TOKEN_END` of length 0, inside the buffer it is not `TOKEN_END`, has at
least one byte and stays inside the buffer. -/
theorem dispatch_spec (cap : Nat) (fs : Int) (l : Lexer) :
    ∃ tok l1, lexer_dispatch cap fs l = some (tok, l1) ∧ Frame l l1 ∧
      tok.text = l.cursor ∧ tok.position = ⟨l.x, vertical_slot fs l.line⟩ ∧
      l1.cursor = l.cursor + tok.text_len ∧
      (l.content_len ≤ l.cursor → tok.kind = TOKEN_END ∧ tok.text_len = 0 ∧ l1 = l) ∧
      (l.cursor < l.content_len →
        tok.kind ≠ TOKEN_END ∧ 1 ≤ tok.text_len ∧ l1.cursor ≤ l.content_len) := by
  by_cases hc : l.cursor < l.content_len
  · have hnot : ¬ (l.content_len ≤ l.cursor) := by omega
    by_cases h34 : l.char_at l.cursor = 34
    · obtain ⟨m, hm⟩ := exists_string_end l l.cursor hc
      obtain ⟨l3, hd, hfr, hcur, _, _⟩ := dispatch_string cap fs l m hc h34 hm
      obtain ⟨hm1, hm2, _, _⟩ := hm
      have hb : l.cursor < l3.cursor ∧ l3.cursor ≤ l.content_len := by
        rw [hcur]; split_ifs <;> omega
      refine ⟨_, l3, hd, hfr, rfl, rfl, ?_, fun h => absurd h hnot, fun _ => ⟨?_, ?_, hb.2⟩⟩
      · simp only; omega
      · simp
      · simp only; omega
    by_cases h35 : l.char_at l.cursor = 35
    · obtain ⟨n, hn⟩ := exists_line_end l l.cursor (le_of_lt hc)
      obtain ⟨l3, hd, hfr, hcur, _, _⟩ := dispatch_preproc cap fs l n hc h35 hn
      obtain ⟨hn1, hn2, _, _⟩ := hn
      have hb : l.cursor < l3.cursor ∧ l3.cursor ≤ l.content_len := by
        rw [hcur]; split_ifs <;> omega
      refine ⟨_, l3, hd, hfr, rfl, rfl, ?_, fun h => absurd h hnot, fun _ => ⟨?_, ?_, hb.2⟩⟩
      · simp only; omega
      · simp
      · simp only; omega
    cases hsw : lexer_starts_with l (cstr "//") with
    | true =>
      obtain ⟨hc2, h47, h47b⟩ := (starts_with_comment l).1 hsw
      obtain ⟨n, hn⟩ := exists_line_end l l.cursor (le_of_lt hc)
      obtain ⟨l3, hd, hfr, hcur, _, _⟩ := dispatch_comment cap fs l n hc2 h47 h47b hn
      obtain ⟨hn1, hn2, _, _⟩ := hn
      have hb : l.cursor < l3.cursor ∧ l3.cursor ≤ l.content_len := by
        rw [hcur]; split_ifs <;> omega
      refine ⟨_, l3, hd, hfr, rfl, rfl, ?_, fun h => absurd h hnot, fun _ => ⟨?_, ?_, hb.2⟩⟩
      · simp only; omega
      · simp
      · simp only; omega
    | false =>
      cases hfind : literal_tokens.find? (fun t => lexer_starts_with l t.text) with
      | some lt =>
        obtain ⟨l1, hd, hfr, hcur, _, _, hk⟩ := dispatch_literal cap fs l lt hc hfind
        exact ⟨_, l1, hd, hfr, rfl, rfl, hcur, fun h => absurd h hnot,
          fun _ => ⟨hk, le_refl _, by omega⟩⟩
      | none =>
        cases hs : is_symbol_start (l.char_at l.cursor) with
        | true =>
          obtain ⟨m, hm⟩ := exists_symbol_end l l.cursor (le_of_lt hc)
          obtain ⟨l1, hd, hfr, hcur, hlt, _, _⟩ := dispatch_symbol cap fs l m hc hs hm
          obtain ⟨_, hm2, _, _⟩ := hm
          refine ⟨_, l1, hd, hfr, rfl, rfl, ?_, fun h => absurd h hnot,
            fun _ => ⟨?_, ?_, by omega⟩⟩
          · simp only; omega
          · simp only [classify_symbol]
            split_ifs <;> simp
          · simp only; omega
        | false =>
          obtain ⟨l1, hd, hfr, hcur⟩ := dispatch_invalid cap fs l hc h34 h35 hsw hfind hs
          exact ⟨_, l1, hd, hfr, rfl, rfl, hcur, fun h => absurd h hnot,
            fun _ => ⟨by simp, le_refl _, by omega⟩⟩
  · have hle : l.content_len ≤ l.cursor := by omega
    exact ⟨_, l, dispatch_end cap fs l hle, Frame.rfl_of l, rfl, rfl, rfl,
      fun _ => ⟨rfl, rfl, rfl⟩, fun h => absurd h hc⟩

/-- What every call of `lexer_next` does, in terms of the state `lt` that
`lexer_trim_left` leaves. -/
theorem lexer_next_spec (cap : Nat) (fs : Int) (l : Lexer) :
    ∃ tok l1 lt, lexer_trim_left cap l = some lt ∧ lexer_next cap fs l = some (tok, l1) ∧
      Frame l l1 ∧ l.cursor ≤ lt.cursor ∧
      (l.cursor ≤ l.content_len → lt.cursor ≤ l.content_len) ∧
      (l.content_len ≤ l.cursor → lt = l) ∧
      (∀ i, l.cursor ≤ i → i < lt.cursor → isspace (l.char_at i) = true) ∧
      (lt.cursor < l.content_len → isspace (l.char_at lt.cursor) = false) ∧
      tok.text = lt.cursor ∧ tok.position = ⟨lt.x, vertical_slot fs lt.line⟩ ∧
      l1.cursor = tok.text + tok.text_len ∧
      (l.content_len ≤ lt.cursor → tok.kind = TOKEN_END ∧ tok.text_len = 0 ∧ l1 = lt) ∧
      (lt.cursor < l.content_len →
        tok.kind ≠ TOKEN_END ∧ 1 ≤ tok.text_len ∧ l1.cursor ≤ l.content_len) := by
  obtain ⟨lt, ht, hfr, a, b, c, d, e⟩ := trim_left_spec cap l
  obtain ⟨tok, l1, hd, hfr1, f, g, h, i, j⟩ := dispatch_spec cap fs lt
  rw [hfr.content_len] at i j
  rw [← lexer_next_of_trim cap fs l lt ht] at hd
  exact ⟨tok, l1, lt, ht, hd, hfr.trans_of hfr1, a, b, c, d, e, f, g, by rw [f]; exact h, i, j⟩

/-- C3: for every scanner state with `cursor ≤ content_len`, `lexer_next`
returns a token whose text starts where the skipping of whitespace stopped, and
afterwards the cursor equals the offset of the text plus `text_len`, for every
kind of token; the bytes between the old cursor and the text are whitespace and
the text lies inside the buffer. -/
theorem cursor_is_end_of_text (cap : Nat) (fs : Int) (l : Lexer)
    (h : l.cursor ≤ l.content_len) :
    ∃ tok l1 lt, lexer_trim_left cap l = some lt ∧ lexer_next cap fs l = some (tok, l1) ∧
      l1.cursor = tok.text + tok.text_len ∧ tok.text = lt.cursor ∧ l.cursor ≤ tok.text ∧
      (∀ i, l.cursor ≤ i → i < tok.text → isspace (l.char_at i) = true) ∧
      tok.text + tok.text_len ≤ l.content_len ∧
      l1.content = l.content ∧ l1.content_len = l.content_len := by
  obtain ⟨tok, l1, lt, ht, hn, hfr, a, b, c, d, e, f, g, hcur, i, j⟩ := lexer_next_spec cap fs l
  refine ⟨tok, l1, lt, ht, hn, hcur, f, by omega, by rw [f]; exact d, ?_, hfr.content,
    hfr.content_len⟩
  have hb := b h
  by_cases hlt : lt.cursor < l.content_len
  · have := (j hlt).2.2
    omega
  · have := (i (by omega)).2.1
    omega

/-- C3 at the start of `#define X 1\nint y;`. -/
theorem cursor_is_end_of_text_witness :
    define_lexer.cursor ≤ define_lexer.content_len ∧
      ∃ tok l1 lt, lexer_trim_left 128 define_lexer = some lt ∧
        lexer_next 128 64 define_lexer = some (tok, l1) ∧
        l1.cursor = tok.text + tok.text_len ∧ tok.text = lt.cursor ∧
        define_lexer.cursor ≤ tok.text ∧
        (∀ i, define_lexer.cursor ≤ i → i < tok.text →
          isspace (define_lexer.char_at i) = true) ∧
        tok.text + tok.text_len ≤ define_lexer.content_len ∧
        l1.content = define_lexer.content ∧ l1.content_len = define_lexer.content_len :=
  ⟨by decide, cursor_is_end_of_text 128 64 define_lexer (by decide)⟩

/-- C4: for every scanner state with `cursor ≤ content_len`, `lexer_next`
succeeds and leaves a cursor that is not smaller than before and not larger
than `content_len`; when `cursor < content_len` the cursor strictly grows. -/
theorem cursor_progress (cap : Nat) (fs : Int) (l : Lexer) (h : l.cursor ≤ l.content_len) :
    ∃ tok l1, lexer_next cap fs l = some (tok, l1) ∧ l1.content_len = l.content_len ∧
      l.cursor ≤ l1.cursor ∧ l1.cursor ≤ l.content_len ∧
      (l.cursor < l.content_len → l.cursor < l1.cursor) := by
  obtain ⟨tok, l1, lt, ht, hn, hfr, a, b, c, d, e, f, g, hcur, i, j⟩ := lexer_next_spec cap fs l
  have hb := b h
  by_cases hlt : lt.cursor < l.content_len
  · obtain ⟨_, j2, j3⟩ := j hlt
    exact ⟨tok, l1, hn, hfr.content_len, by omega, j3, fun _ => by omega⟩
  · obtain ⟨_, i2, _⟩ := i (by omega)
    exact ⟨tok, l1, hn, hfr.content_len, by omega, by omega, fun _ => by omega⟩

/-- C4 at the start of `#define X 1\nint y;`. -/
theorem cursor_progress_witness :
    define_lexer.cursor ≤ define_lexer.content_len ∧
      ∃ tok l1, lexer_next 128 64 define_lexer = some (tok, l1) ∧
        l1.content_len = define_lexer.content_len ∧
        define_lexer.cursor ≤ l1.cursor ∧ l1.cursor ≤ define_lexer.content_len ∧
        (define_lexer.cursor < define_lexer.content_len → define_lexer.cursor < l1.cursor) :=
  ⟨by decide, cursor_progress 128 64 define_lexer (by decide)⟩

/-- A token of kind `TOKEN_END` comes only from a state whose whitespace-trimmed
cursor is at or past the end of the buffer; the call then returns the trimmed
state. -/
theorem end_token_inv (cap : Nat) (fs : Int) (l : Lexer) (tok : Token) (l1 : Lexer)
    (hn : lexer_next cap fs l = some (tok, l1)) (hk : tok.kind = TOKEN_END) :
    l1.content_len ≤ l1.cursor ∧ tok.text_len = 0 ∧
      tok = ⟨TOKEN_END, l1.cursor, 0, ⟨l1.x, vertical_slot fs l1.line⟩⟩ ∧ Frame l l1 := by
  obtain ⟨tok', l1', lt, ht, hn', hfr, a, b, c, d, e, f, g, hcur, i, j⟩ :=
    lexer_next_spec cap fs l
  rw [hn] at hn'
  cases hn'
  by_cases hlt : lt.cursor < l.content_len
  · exact absurd hk (j hlt).1
  · obtain ⟨i1, i2, i3⟩ := i (by omega)
    subst i3
    refine ⟨by rw [hfr.content_len]; omega, i2, ?_, hfr⟩
    cases tok
    simp only at i1 i2 f g
    simp [i1, i2, f, g]

/-- C6: once a call of `lexer_next` has returned a token of kind `TOKEN_END`,
every later call on the resulting state returns the same token again (kind
`TOKEN_END`, `text_len` 0, same position) and leaves the scanner state as it is. -/
theorem end_is_idempotent (cap : Nat) (fs : Int) (l : Lexer) (tok : Token) (l1 : Lexer)
    (hn : lexer_next cap fs l = some (tok, l1)) (hk : tok.kind = TOKEN_END) :
    tok.text_len = 0 ∧ ∀ n, lexer_next_again cap fs n l1 = some (tok, l1) := by
  obtain ⟨hle, hlen, htok, _⟩ := end_token_inv cap fs l tok l1 hn hk
  have hstep : lexer_next cap fs l1 = some (tok, l1) := by
    obtain ⟨lt, ht, _, _, _, hsame, _⟩ := trim_left_spec cap l1
    have := hsame hle
    subst this
    rw [lexer_next_of_trim cap fs _ _ ht, dispatch_end cap fs _ hle, htok]
  refine ⟨hlen, fun n => ?_⟩
  induction n with
  | zero => exact hstep
  | succ n ih => simp only [lexer_next_again, hstep, ih]

/-- C6 on the buffer space, newline, space: the first call returns `TOKEN_END`
with the cursor at 3 on line 1, and so does every later call. -/
theorem end_is_idempotent_witness :
    ∃ tok l1, lexer_next 128 64 blank_lexer = some (tok, l1) ∧ tok.kind = TOKEN_END ∧
      l1.cursor = 3 ∧ l1.line = 1 ∧
      tok.text_len = 0 ∧ ∀ n, lexer_next_again 128 64 n l1 = some (tok, l1) :=
  ⟨⟨TOKEN_END, 3, 0, ⟨0, -64⟩⟩, ⟨none, blank_buffer, 3, 1, 2, 3, 0⟩, by rfl, rfl, rfl, rfl,
    end_is_idempotent 128 64 blank_lexer ⟨TOKEN_END, 3, 0, ⟨0, -64⟩⟩
      ⟨none, blank_buffer, 3, 1, 2, 3, 0⟩ (by rfl) rfl⟩

/-! ## Whole scans -/

theorem slice_append (l : Lexer) (off a b : Nat) :
    l.slice off (a + b) = l.slice off a ++ l.slice (off + a) b := by
  simp [Lexer.slice, List.range_add, List.map_append, List.map_map, Function.comp_def,
    Nat.add_assoc]

theorem slice_eq_take (l : Lexer) (n : Nat) (h : n ≤ l.content.length) :
    l.slice 0 n = l.content.take n := by
  apply List.ext_getElem
  · simp [Lexer.slice, h]
  · intro i h1 h2
    simp only [Lexer.slice, List.length_map, List.length_range] at h1
    simp [Lexer.slice, Lexer.char_at, List.getD_eq_getElem?_getD,
      List.getElem?_eq_getElem (lt_of_lt_of_le h1 h)]

theorem covers_frame {a b : Lexer} (h : Frame a b) :
    ∀ (toks : List (Token × Lexer)) (c : Nat), covers b c toks → covers a c toks := by
  intro toks
  induction toks with
  | nil => intro c hc; simp only [covers] at *; rw [← h.content_len]; exact hc
  | cons p rest ih =>
    intro c hc
    obtain ⟨h1, h2, h3, h4⟩ := hc
    exact ⟨h1, fun i a1 a2 => by rw [← h.char_at_eq]; exact h2 i a1 a2, h3, ih _ h4⟩

/-- A gap-free list of calls spans exactly the rest of the buffer. -/
theorem span_bytes_of_covers (l0 : Lexer) :
    ∀ (toks : List (Token × Lexer)) (c : Nat), toks ≠ [] → covers l0 c toks →
      c ≤ l0.content_len ∧ span_bytes l0 c toks = l0.slice c (l0.content_len - c) := by
  intro toks
  induction toks with
  | nil => intro c hne; exact absurd rfl hne
  | cons p rest ih =>
    intro c _ hc
    obtain ⟨h1, _, h3, h4⟩ := hc
    cases rest with
    | nil =>
      simp only [covers] at h4
      refine ⟨by omega, ?_⟩
      simp [span_bytes, h4]
    | cons q rest2 =>
      obtain ⟨hle, hsp⟩ := ih p.2.cursor (by simp) h4
      refine ⟨by omega, ?_⟩
      have hsplit : l0.content_len - c = (p.2.cursor - c) + (l0.content_len - p.2.cursor) := by
        omega
      have hoff : c + (p.2.cursor - c) = p.2.cursor := by omega
      rw [span_bytes, hsp, hsplit, slice_append, hoff]

/-- A scan of a state inside the buffer, given more calls than bytes remain,
ends with `TOKEN_END`, after at most one token per remaining byte, and leaves no
gap. -/
theorem scan_spec (cap : Nat) (fs : Int) :
    ∀ (calls : Nat) (l : Lexer), l.cursor ≤ l.content_len →
      l.content_len - l.cursor < calls →
      ∃ front last, lexer_scan cap fs calls l = some (front ++ [last]) ∧
        front.length ≤ l.content_len - l.cursor ∧
        (∀ p ∈ front, p.1.kind ≠ TOKEN_END) ∧
        last.1.kind = TOKEN_END ∧ last.1.text_len = 0 ∧ last.2.cursor = l.content_len ∧
        covers l l.cursor (front ++ [last]) := by
  intro calls
  induction calls with
  | zero => intro l _ h; omega
  | succ calls ih =>
    intro l hle hcalls
    obtain ⟨tok, l1, lt, ht, hn, hfr, a, b, c, d, e, f, g, hcur, i, j⟩ :=
      lexer_next_spec cap fs l
    have hb := b hle
    by_cases hlt : lt.cursor < l.content_len
    · obtain ⟨j1, j2, j3⟩ := j hlt
      have hle1 : l1.cursor ≤ l1.content_len := by rw [hfr.content_len]; exact j3
      have hcalls1 : l1.content_len - l1.cursor < calls := by
        rw [hfr.content_len]; omega
      obtain ⟨front, last, hs, hlen, hfront, hk, hz, hcl, hcov⟩ := ih l1 hle1 hcalls1
      refine ⟨(tok, l1) :: front, last, ?_, ?_, ?_, hk, hz, ?_, ?_⟩
      · simp only [lexer_scan, hn, j1, if_false, hs, List.cons_append]
      · rw [hfr.content_len] at hlen
        simp only [List.length_cons]
        omega
      · intro p hp
        rcases List.mem_cons.1 hp with rfl | hp
        · exact j1
        · exact hfront p hp
      · rw [hcl, hfr.content_len]
      · refine ⟨by rw [f]; exact a, fun x a1 a2 => d x a1 (by rw [← f]; exact a2), hcur, ?_⟩
        exact covers_frame hfr _ _ hcov
    · obtain ⟨i1, i2, i3⟩ := i (by omega)
      subst i3
      refine ⟨[], (tok, l1), ?_, Nat.zero_le _, fun p hp => absurd hp (List.not_mem_nil p), i1,
        i2, by simp only; omega, ?_⟩
      · simp only [lexer_scan, hn, i1, if_true, List.nil_append]
      · refine ⟨by rw [f]; exact a, fun x a1 a2 => d x a1 (by rw [← f]; exact a2), hcur, ?_⟩
        simp only [covers]
        omega

/-- C5: calling `lexer_next` from `lexer_new` until `TOKEN_END` is returned: in
each call the bytes between the previous cursor and the start of the token are
whitespace and the token's text runs from its start to the new cursor; so the
spans `[previous cursor, new cursor)` of the calls, concatenated in order, are
the buffer exactly, and the cursor is `content_len` when `TOKEN_END` is
returned. -/
theorem scan_covers_buffer (cap : Nat) (fs : Int) (atlas : Option Free_Glyph_Atlas)
    (content : List Int) (n : Nat) :
    ∃ front last, lexer_scan cap fs (n + 1) (lexer_new atlas content n) = some (front ++ [last]) ∧
      (∀ p ∈ front, p.1.kind ≠ TOKEN_END) ∧ last.1.kind = TOKEN_END ∧ last.2.cursor = n ∧
      covers (lexer_new atlas content n) 0 (front ++ [last]) ∧
      span_bytes (lexer_new atlas content n) 0 (front ++ [last]) =
        (lexer_new atlas content n).slice 0 n ∧
      (n ≤ content.length →
        span_bytes (lexer_new atlas content n) 0 (front ++ [last]) = content.take n) := by
  obtain ⟨front, last, hs, _, hfront, hk, _, hcl, hcov⟩ :=
    scan_spec cap fs (n + 1) (lexer_new atlas content n) (Nat.zero_le _)
      (by simp [lexer_new])
  have hsp := (span_bytes_of_covers (lexer_new atlas content n) (front ++ [last]) 0
    (by simp) hcov).2
  have hsp2 : span_bytes (lexer_new atlas content n) 0 (front ++ [last]) =
      (lexer_new atlas content n).slice 0 n := hsp
  refine ⟨front, last, hs, hfront, hk, hcl, hcov, hsp2, fun hle => ?_⟩
  rw [hsp2]
  exact slice_eq_take (lexer_new atlas content n) n hle

/-- C7: the scanner is total and a scan ends. `lexer_trim_left`, the chopping
loops and the identifier loop of `lexer_next` (run with as many iterations as
bytes remain) and `lexer_next` itself return a result in every state; and for a
buffer of length `n` the scan started with `lexer_new` returns at most `n`
tokens that are not `TOKEN_END` and then `TOKEN_END`, within `n + 1` calls. -/
theorem scan_terminates (cap : Nat) (fs : Int) (atlas : Option Free_Glyph_Atlas)
    (content : List Int) (n : Nat) :
    (∀ l : Lexer, ∃ lt, lexer_trim_left cap l = some lt) ∧
      (∀ (p : Int → Bool) (l : Lexer),
        ∃ l1, lexer_chop_while cap p (l.content_len - l.cursor) l = some l1) ∧
      (∀ (l : Lexer) (k : Nat), ∃ r, symbol_loop cap (l.content_len - l.cursor) l k = some r) ∧
      (∀ l : Lexer, ∃ r, lexer_next cap fs l = some r) ∧
      ∃ front last,
        lexer_scan cap fs (n + 1) (lexer_new atlas content n) = some (front ++ [last]) ∧
        front.length ≤ n ∧ (∀ p ∈ front, p.1.kind ≠ TOKEN_END) ∧
        last.1.kind = TOKEN_END ∧ (front ++ [last]).length ≤ n + 1 := by
  refine ⟨fun l => ?_, fun p l => ?_, fun l k => ?_, fun l => ?_, ?_⟩
  · obtain ⟨lt, h, _⟩ := trim_left_spec cap l
    exact ⟨lt, h⟩
  · obtain ⟨l1, h, _⟩ := chop_while_spec cap p (l.content_len - l.cursor) l (le_refl _)
    exact ⟨l1, h⟩
  · obtain ⟨l1, _, h⟩ := symbol_loop_eq cap (l.content_len - l.cursor) l k (le_refl _)
    exact ⟨_, h⟩
  · obtain ⟨tok, l1, _, _, h, _⟩ := lexer_next_spec cap fs l
    exact ⟨_, h⟩
  · obtain ⟨front, last, hs, hlen, hfront, hk, _⟩ :=
      scan_spec cap fs (n + 1) (lexer_new atlas content n) (Nat.zero_le _)
        (by simp [lexer_new])
    have hlen2 : front.length ≤ n := by simpa [lexer_new] using hlen
    exact ⟨front, last, hs, hlen2, hfront, hk, by simp; exact hlen2⟩

/-! ## Identifiers -/

theorem slice_length (l : Lexer) (off len : Nat) : (l.slice off len).length = len := by
  simp [Lexer.slice]

theorem word_matches_iff (l : Lexer) (text text_len : Nat) (w : List Int) :
    word_matches l text text_len w = true ↔ w = l.slice text text_len := by
  simp only [word_matches, Bool.and_eq_true, beq_iff_eq]
  constructor
  · rintro ⟨h1, h2⟩
    rw [h1] at h2
    exact h2
  · intro h
    have hl : w.length = text_len := by rw [h, slice_length]
    exact ⟨hl, by rw [hl]; exact h⟩

theorem any_word_matches_iff (l : Lexer) (text text_len : Nat) (table : List (List Int)) :
    table.any (word_matches l text text_len) = true ↔ l.slice text text_len ∈ table := by
  simp only [List.any_eq_true, word_matches_iff]
  constructor
  · rintro ⟨w, hw, rfl⟩; exact hw
  · intro h; exact ⟨_, h, rfl⟩

theorem all_caps_iff (l : Lexer) (text text_len : Nat) :
    all_caps l text text_len = true ↔ ∀ c ∈ l.slice text text_len, is_caps_byte c := by
  simp only [all_caps, List.all_eq_true, is_caps_byte, Bool.or_eq_true, Bool.and_eq_true,
    decide_eq_true_eq, beq_iff_eq]
  constructor
  · intro h c hc
    rcases h c hc with (h | h) | h
    · exact Or.inl h
    · exact Or.inr (Or.inl h)
    · exact Or.inr (Or.inr h)
  · intro h c hc
    rcases h c hc with h | h | h
    · exact Or.inl (Or.inl h)
    · exact Or.inl (Or.inr h)
    · exact Or.inr h

/-- The three steps of the source, run in source order, compute the
classification that the specification words as a priority list. -/
theorem classify_symbol_eq_reference (l : Lexer) (text text_len : Nat) :
    classify_symbol l text text_len = reference_kind (l.slice text text_len) := by
  unfold classify_symbol reference_kind
  rw [slice_length]
  by_cases hcaps : all_caps l text text_len = true
  · by_cases hlen : text_len > 1
    · have : text_len > 1 ∧ ∀ c ∈ l.slice text text_len, is_caps_byte c :=
        ⟨hlen, (all_caps_iff l text text_len).1 hcaps⟩
      rw [if_pos this]
      simp [hcaps, hlen]
    · have : ¬ (text_len > 1 ∧ ∀ c ∈ l.slice text text_len, is_caps_byte c) :=
        fun h => hlen h.1
      rw [if_neg this]
      simp only [hcaps, Bool.true_and, decide_eq_true_eq, hlen, if_false,
        any_word_matches_iff]
  · have : ¬ (text_len > 1 ∧ ∀ c ∈ l.slice text text_len, is_caps_byte c) :=
      fun h => hcaps ((all_caps_iff l text text_len).2 h.2)
    rw [if_neg this]
    simp only [hcaps, Bool.false_and, if_false, any_word_matches_iff]
    by_cases hcf : l.slice text text_len ∈ control_flow
    · simp [hcf]
    · simp [hcf]

/-- The identifier branch seen from `lexer_next`: when the first non-whitespace
byte at or after the cursor starts an identifier whose run of identifier bytes
ends at `m`, the token is that run, classified by `classify_symbol`. -/
theorem lexer_next_symbol (cap : Nat) (fs : Int) (l : Lexer) (k m : Nat)
    (hk : first_nonspace_at l k) (hs : is_symbol_start (l.char_at k) = true)
    (hm : symbol_end_at l k m) :
    ∃ tok l1, lexer_next cap fs l = some (tok, l1) ∧ tok.text = k ∧ tok.text_len = m - k ∧
      k < m ∧ l1.cursor = m ∧ tok.kind = reference_kind (l.slice k (m - k)) := by
  obtain ⟨lt, ht, hfr, hcur⟩ := trim_left_first_nonspace cap l k hk
  have hk2 : k < l.content_len := hk.2.1
  have hm' : symbol_end_at lt lt.cursor m := by rw [hcur]; exact hfr.symbol_end_at hm
  obtain ⟨l1, hd, _, hcur1, hlt, _, _⟩ :=
    dispatch_symbol cap fs lt m (by rw [hcur, hfr.content_len]; exact hk2)
      (by rw [hfr.char_at_eq, hcur]; exact hs) hm'
  rw [← lexer_next_of_trim cap fs l lt ht] at hd
  refine ⟨_, l1, hd, hcur, by simp only [hcur], by omega, hcur1, ?_⟩
  simp only [hcur]
  rw [classify_symbol_frame hfr, classify_symbol_eq_reference]

theorem symbol_not_space (c : Int) (h : is_symbol c = true) : isspace c = false := by
  have hb := symbol_char_bounds c h
  rw [← Bool.not_eq_true]
  simp only [isspace, Bool.or_eq_true, Bool.and_eq_true, decide_eq_true_eq, beq_iff_eq]
  omega

theorem new_char_at (atlas : Option Free_Glyph_Atlas) (w : List Int) (n i : Nat)
    (h : i < w.length) : (lexer_new atlas w n).char_at i = w.get ⟨i, h⟩ := by
  simp [lexer_new, Lexer.char_at, List.getD_eq_getElem?_getD, List.getElem?_eq_getElem h]

theorem new_slice_all (atlas : Option Free_Glyph_Atlas) (w : List Int) :
    (lexer_new atlas w w.length).slice 0 w.length = w := by
  have h := slice_eq_take (lexer_new atlas w w.length) w.length (by simp [lexer_new])
  rw [h]
  simp [lexer_new]

/-- A buffer that consists of one identifier is lexed as one token, spanning
the buffer, with the kind of the classification. -/
theorem lexer_next_whole_word (cap : Nat) (fs : Int) (atlas : Option Free_Glyph_Atlas)
    (w : List Int) (hs : is_symbol_start (w.getD 0 0) = true)
    (hall : ∀ c ∈ w, is_symbol c = true) (hne : w ≠ []) :
    ∃ tok l1, lexer_next cap fs (lexer_new atlas w w.length) = some (tok, l1) ∧
      tok.text = 0 ∧ tok.text_len = w.length ∧ l1.cursor = w.length ∧
      tok.kind = reference_kind w := by
  have hpos : 0 < w.length := List.length_pos.2 hne
  have h0 : (lexer_new atlas w w.length).char_at 0 = w.getD 0 0 := rfl
  have hk : first_nonspace_at (lexer_new atlas w w.length) 0 :=
    ⟨Nat.zero_le _, hpos, fun i _ b => absurd b (Nat.not_lt_zero i), by
      rw [h0]; exact symbol_not_space _ (symbol_start_is_symbol _ hs)⟩
  have hm : symbol_end_at (lexer_new atlas w w.length) 0 w.length :=
    ⟨Nat.zero_le _, le_refl _, fun i _ b => by
      rw [new_char_at atlas w w.length i b]
      exact hall _ (List.get_mem w i b), fun b => absurd b (lt_irrefl _)⟩
  obtain ⟨tok, l1, hn, a, b, _, c, d⟩ :=
    lexer_next_symbol cap fs (lexer_new atlas w w.length) 0 w.length hk (by rw [h0]; exact hs) hm
  refine ⟨tok, l1, hn, a, by simpa using b, c, ?_⟩
  rw [d, Nat.sub_zero, new_slice_all]

theorem only_while_in_both_tables :
    ∀ w ∈ keywords, w ∈ control_flow → w = cstr "while" := by
  decide

theorem table_words_not_caps :
    ∀ w ∈ keywords ++ control_flow, ¬ ∀ c ∈ w, is_caps_byte c := by
  decide

theorem table_words_longer_than_one :
    ∀ w ∈ keywords ++ control_flow, w.length ≠ 1 := by
  decide

theorem slice_getD (l : Lexer) (off len i : Nat) (h : i < len) :
    (l.slice off len).getD i 0 = l.char_at (off + i) := by
  simp [Lexer.slice, List.getD_eq_getElem?_getD, List.getElem?_map, List.getElem?_range h]

theorem getD_mem (w : List Int) (i : Nat) (h : i < w.length) : w.getD i 0 ∈ w := by
  rw [List.getD_eq_getElem _ _ h]
  exact List.getElem_mem h

/-- An identifier `w` that lies at the first non-whitespace offset `k` and is
followed by the end of the buffer or by a byte that is not an identifier byte is
returned as one token with the kind of the classification. -/
theorem lexer_next_word (cap : Nat) (fs : Int) (l : Lexer) (k : Nat) (w : List Int)
    (hk : first_nonspace_at l k) (hw : l.slice k w.length = w) (hne : w ≠ [])
    (hs : is_symbol_start (w.getD 0 0) = true) (hall : ∀ c ∈ w, is_symbol c = true)
    (hin : k + w.length ≤ l.content_len)
    (hdelim : k + w.length < l.content_len → is_symbol (l.char_at (k + w.length)) = false) :
    ∃ tok l1, lexer_next cap fs l = some (tok, l1) ∧ tok.text = k ∧
      tok.text_len = w.length ∧ l1.cursor = k + w.length ∧ tok.kind = reference_kind w := by
  have hpos : 0 < w.length := List.length_pos.2 hne
  have hchar : ∀ i, i < w.length → l.char_at (k + i) = w.getD i 0 := by
    intro i hi
    rw [← slice_getD l k w.length i hi, hw]
  have hm : symbol_end_at l k (k + w.length) := by
    refine ⟨by omega, hin, fun i a b => ?_, hdelim⟩
    have hi : i - k < w.length := by omega
    have := hchar (i - k) hi
    rw [show k + (i - k) = i by omega] at this
    rw [this]
    exact hall _ (getD_mem w _ hi)
  have hs' : is_symbol_start (l.char_at k) = true := by
    have := hchar 0 hpos
    rw [Nat.add_zero] at this
    rw [this]; exact hs
  obtain ⟨tok, l1, hn, a, b, _, c, d⟩ := lexer_next_symbol cap fs l k (k + w.length) hk hs' hm
  have hsub : k + w.length - k = w.length := by omega
  rw [hsub] at b d
  rw [hw] at d
  exact ⟨tok, l1, hn, a, b, c, d⟩

theorem shared_words_classify :
    ∀ w ∈ keywords, w ∈ control_flow →
      w ≠ [] ∧ is_symbol_start (w.getD 0 0) = true ∧ (∀ c ∈ w, is_symbol c = true) ∧
        reference_kind w = TOKEN_CONTROL_FLOW := by
  decide

/-- C8: an identifier that occurs in both the `keywords` and the `control_flow`
table is classified `TOKEN_CONTROL_FLOW`, never `TOKEN_KEYWORD`; the one such
word is `while`: lexing it, followed by the end of the buffer or by a byte that
is not an identifier byte, returns a `TOKEN_CONTROL_FLOW` token whose text is the
word. -/
theorem shared_word_is_control_flow (cap : Nat) (fs : Int) (l : Lexer) (k : Nat)
    (w : List Int) (hkw : w ∈ keywords) (hcf : w ∈ control_flow)
    (hk : first_nonspace_at l k) (hw : l.slice k w.length = w)
    (hin : k + w.length ≤ l.content_len)
    (hdelim : k + w.length < l.content_len → is_symbol (l.char_at (k + w.length)) = false) :
    w = cstr "while" ∧
      ∃ tok l1, lexer_next cap fs l = some (tok, l1) ∧ tok.kind = TOKEN_CONTROL_FLOW ∧
        tok.kind ≠ TOKEN_KEYWORD ∧ tok.text = k ∧ tok.text_len = w.length ∧
        l.slice tok.text tok.text_len = w ∧ l1.cursor = k + w.length := by
  obtain ⟨hne, hs, hall, hkind⟩ := shared_words_classify w hkw hcf
  obtain ⟨tok, l1, hn, a, b, c, d⟩ := lexer_next_word cap fs l k w hk hw hne hs hall hin hdelim
  rw [hkind] at d
  refine ⟨only_while_in_both_tables w hkw hcf, tok, l1, hn, d, by rw [d]; decide, a, b, ?_, c⟩
  rw [a, b]; exact hw

/-- C8 on the buffer `while`. -/
theorem shared_word_is_control_flow_witness :
    while_buffer ∈ keywords ∧ while_buffer ∈ control_flow ∧
      while_buffer = cstr "while" ∧
      ∃ tok l1, lexer_next 128 64 (lexer_new none while_buffer 5) = some (tok, l1) ∧
        tok.kind = TOKEN_CONTROL_FLOW ∧ tok.kind ≠ TOKEN_KEYWORD ∧ tok.text = 0 ∧
        tok.text_len = 5 ∧
        (lexer_new none while_buffer 5).slice tok.text tok.text_len = while_buffer ∧
        l1.cursor = 5 :=
  ⟨by decide, by decide,
    shared_word_is_control_flow 128 64 (lexer_new none while_buffer 5) 0 while_buffer
      (by decide) (by decide)
      ⟨le_refl _, by decide, fun i _ b => absurd b (Nat.not_lt_zero i), by decide⟩
      (by decide) (by decide) (fun h => absurd h (by decide))⟩

/-- C9: an identifier longer than one byte all of whose bytes are `A`..`Z`,
`0`..`9` or `_` is returned as `TOKEN_PREPROC`, and it is in neither table; an
identifier of exactly one byte is returned as `TOKEN_SYMBOL`. So the buffer
`MAX_SIZE` gives `TOKEN_PREPROC` and the buffer `X` gives `TOKEN_SYMBOL`. -/
theorem caps_heuristic (cap : Nat) (fs : Int) (l : Lexer) (k m : Nat)
    (hk : first_nonspace_at l k) (hs : is_symbol_start (l.char_at k) = true)
    (hm : symbol_end_at l k m) :
    (∃ tok l1, lexer_next cap fs l = some (tok, l1) ∧ tok.text = k ∧ tok.text_len = m - k ∧
      (1 < tok.text_len → (∀ i, k ≤ i → i < m → is_caps_byte (l.char_at i)) →
        tok.kind = TOKEN_PREPROC ∧ l.slice k (m - k) ∉ keywords ∧
          l.slice k (m - k) ∉ control_flow) ∧
      (tok.text_len = 1 → tok.kind = TOKEN_SYMBOL)) ∧
    (∃ tok l1, lexer_next cap fs (lexer_new none max_size_buffer 8) = some (tok, l1) ∧
      tok.kind = TOKEN_PREPROC ∧ tok.text_len = 8) ∧
    (∃ tok l1, lexer_next cap fs (lexer_new none [88] 1) = some (tok, l1) ∧
      tok.kind = TOKEN_SYMBOL ∧ tok.text_len = 1) := by
  refine ⟨?_, ?_, ?_⟩
  · obtain ⟨tok, l1, hn, a, b, hlt, c, d⟩ := lexer_next_symbol cap fs l k m hk hs hm
    refine ⟨tok, l1, hn, a, b, fun hlen hcaps => ?_, fun hlen => ?_⟩
    · have hall : ∀ c ∈ l.slice k (m - k), is_caps_byte c := by
        intro c hc
        simp only [Lexer.slice, List.mem_map, List.mem_range] at hc
        obtain ⟨i, hi, rfl⟩ := hc
        exact hcaps (k + i) (by omega) (by omega)
      refine ⟨?_, fun hmem => ?_, fun hmem => ?_⟩
      · rw [d, reference_kind, slice_length, if_pos ⟨by omega, hall⟩]
      · exact table_words_not_caps _ (List.mem_append_left _ hmem) hall
      · exact table_words_not_caps _ (List.mem_append_right _ hmem) hall
    · have h1 : (l.slice k (m - k)).length = 1 := by rw [slice_length]; omega
      have hnk : l.slice k (m - k) ∉ keywords := fun hmem =>
        table_words_longer_than_one _ (List.mem_append_left _ hmem) h1
      have hnc : l.slice k (m - k) ∉ control_flow := fun hmem =>
        table_words_longer_than_one _ (List.mem_append_right _ hmem) h1
      rw [d, reference_kind, if_neg (by rw [h1]; omega), if_neg hnc, if_neg hnk]
  · obtain ⟨tok, l1, hn, _, b, _, d⟩ :=
      lexer_next_whole_word cap fs none max_size_buffer (by decide) (by decide) (by decide)
    exact ⟨tok, l1, hn, by rw [d]; decide, b⟩
  · obtain ⟨tok, l1, hn, _, b, _, d⟩ :=
      lexer_next_whole_word cap fs none [88] (by decide) (by decide) (by decide)
    exact ⟨tok, l1, hn, by rw [d]; decide, b⟩

/-- C9 on the buffer `MAX_SIZE`. -/
theorem caps_heuristic_witness :
    first_nonspace_at (lexer_new none max_size_buffer 8) 0 ∧
      symbol_end_at (lexer_new none max_size_buffer 8) 0 8 ∧
      ∃ tok l1, lexer_next 128 64 (lexer_new none max_size_buffer 8) = some (tok, l1) ∧
        tok.text = 0 ∧ tok.text_len = 8 - 0 ∧
        (1 < tok.text_len →
          (∀ i, 0 ≤ i → i < 8 → is_caps_byte ((lexer_new none max_size_buffer 8).char_at i)) →
          tok.kind = TOKEN_PREPROC ∧
            (lexer_new none max_size_buffer 8).slice 0 (8 - 0) ∉ keywords ∧
            (lexer_new none max_size_buffer 8).slice 0 (8 - 0) ∉ control_flow) ∧
        (tok.text_len = 1 → tok.kind = TOKEN_SYMBOL) :=
  have h1 : first_nonspace_at (lexer_new none max_size_buffer 8) 0 :=
    ⟨le_refl _, by decide, fun i _ b => absurd b (Nat.not_lt_zero i), by decide⟩
  have h2 : symbol_end_at (lexer_new none max_size_buffer 8) 0 8 :=
    ⟨by decide, by decide, fun i _ b => by interval_cases i <;> decide,
      fun h => absurd h (by decide)⟩
  ⟨h1, h2, (caps_heuristic 128 64 (lexer_new none max_size_buffer 8) 0 8 h1 (by decide) h2).1⟩

/-- C10: for every identifier returned by the identifier branch of `lexer_next`
the kind is the reference classification of its text: `TOKEN_PREPROC` for more
than one byte, all in `A`..`Z`, `0`..`9`, `_`; otherwise `TOKEN_CONTROL_FLOW` for
an entry of `control_flow`; otherwise `TOKEN_KEYWORD` for an entry of
`keywords`; otherwise `TOKEN_SYMBOL`. So the buffers `in`, `integer` and `While`
give `TOKEN_SYMBOL`. -/
theorem identifier_kind_is_reference (cap : Nat) (fs : Int) (l : Lexer) (k m : Nat)
    (hk : first_nonspace_at l k) (hs : is_symbol_start (l.char_at k) = true)
    (hm : symbol_end_at l k m) :
    (∃ tok l1, lexer_next cap fs l = some (tok, l1) ∧ tok.text = k ∧ tok.text_len = m - k ∧
      l1.cursor = m ∧ tok.kind = reference_kind (l.slice tok.text tok.text_len)) ∧
    (∃ tok l1, lexer_next cap fs (lexer_new none (cstr "in") 2) = some (tok, l1) ∧
      tok.kind = TOKEN_SYMBOL ∧ tok.text_len = 2) ∧
    (∃ tok l1, lexer_next cap fs (lexer_new none (cstr "integer") 7) = some (tok, l1) ∧
      tok.kind = TOKEN_SYMBOL ∧ tok.text_len = 7) ∧
    (∃ tok l1, lexer_next cap fs (lexer_new none (cstr "While") 5) = some (tok, l1) ∧
      tok.kind = TOKEN_SYMBOL ∧ tok.text_len = 5) := by
  refine ⟨?_, ?_, ?_, ?_⟩
  · obtain ⟨tok, l1, hn, a, b, _, c, d⟩ := lexer_next_symbol cap fs l k m hk hs hm
    exact ⟨tok, l1, hn, a, b, c, by rw [a, b]; exact d⟩
  · obtain ⟨tok, l1, hn, _, b, _, d⟩ :=
      lexer_next_whole_word cap fs none (cstr "in") (by decide) (by decide) (by decide)
    exact ⟨tok, l1, hn, by rw [d]; decide, b⟩
  · obtain ⟨tok, l1, hn, _, b, _, d⟩ :=
      lexer_next_whole_word cap fs none (cstr "integer") (by decide) (by decide) (by decide)
    exact ⟨tok, l1, hn, by rw [d]; decide, b⟩
  · obtain ⟨tok, l1, hn, _, b, _, d⟩ :=
      lexer_next_whole_word cap fs none (cstr "While") (by decide) (by decide) (by decide)
    exact ⟨tok, l1, hn, by rw [d]; decide, b⟩

/-- C10 on `#define X 1\nint y;` with the cursor at offset 12, where the
identifier `int` starts: the token is `int`, of kind `TOKEN_KEYWORD`. -/
theorem identifier_kind_is_reference_witness :
    first_nonspace_at { define_lexer with cursor := 12 } 12 ∧
      symbol_end_at { define_lexer with cursor := 12 } 12 15 ∧
      reference_kind (cstr "int") = TOKEN_KEYWORD ∧
      { define_lexer with cursor := 12 }.slice 12 3 = cstr "int" ∧
      ∃ tok l1, lexer_next 128 64 { define_lexer with cursor := 12 } = some (tok, l1) ∧
        tok.text = 12 ∧ tok.text_len = 15 - 12 ∧ l1.cursor = 15 ∧
        tok.kind = reference_kind
          ({ define_lexer with cursor := 12 }.slice tok.text tok.text_len) :=
  have h1 : first_nonspace_at { define_lexer with cursor := 12 } 12 :=
    ⟨le_refl _, by decide, fun i a b => absurd a (Nat.not_le.2 b), by decide⟩
  have h2 : symbol_end_at { define_lexer with cursor := 12 } 12 15 :=
    ⟨by decide, by decide, fun i a b => by interval_cases i <;> decide, fun _ => by decide⟩
  ⟨h1, h2, by decide, by decide,
    (identifier_kind_is_reference 128 64 { define_lexer with cursor := 12 } 12 15 h1
      (by decide) h2).1⟩

/-! ## Strings that end at the buffer end or at a closing quote -/

/-- At the end of the buffer the next call returns `TOKEN_END`. -/
theorem lexer_next_at_end (cap : Nat) (fs : Int) (l : Lexer)
    (h : l.content_len ≤ l.cursor) :
    lexer_next cap fs l = some (⟨TOKEN_END, l.cursor, 0, ⟨l.x, vertical_slot fs l.line⟩⟩, l) := by
  obtain ⟨lt, ht, _, _, _, hsame, _⟩ := trim_left_spec cap l
  have := hsame h
  subst this
  rw [lexer_next_of_trim cap fs _ _ ht, dispatch_end cap fs _ h]

/-- C11: when the first non-whitespace byte at or after the cursor is a double
quote and neither a further double quote nor a newline occurs before the end of
the buffer, `lexer_next` returns one `TOKEN_STRING` token that spans from the
opening quote to the end of the buffer, with the cursor at `content_len` and no
closing quote in the text after the opening one; the following call returns
`TOKEN_END`. -/
theorem unterminated_string_spans_to_end (cap : Nat) (fs : Int) (l : Lexer) (k : Nat)
    (hk : first_nonspace_at l k) (hq : l.char_at k = 34)
    (hbody : ∀ i, k < i → i < l.content_len → l.char_at i ≠ 34 ∧ l.char_at i ≠ 10) :
    ∃ tok l1, lexer_next cap fs l = some (tok, l1) ∧ tok.kind = TOKEN_STRING ∧
      tok.text = k ∧ tok.text_len = l.content_len - k ∧
      tok.text + tok.text_len = l.content_len ∧
      l1.cursor = l.content_len ∧ l1.content_len = l.content_len ∧
      (∀ i, tok.text < i → i < tok.text + tok.text_len → l.char_at i ≠ 34) ∧
      ∃ tok2 l2, lexer_next cap fs l1 = some (tok2, l2) ∧ tok2.kind = TOKEN_END ∧
        tok2.text_len = 0 := by
  obtain ⟨lt, ht, hfr, hcur⟩ := trim_left_first_nonspace cap l k hk
  have hk2 : k < l.content_len := hk.2.1
  have hm : string_end_at lt lt.cursor l.content_len := by
    rw [hcur]
    exact hfr.string_end_at ⟨hk2, le_refl _, hbody, fun h => absurd h (lt_irrefl _)⟩
  obtain ⟨l3, hd, hfr3, hcur3, _, _⟩ :=
    dispatch_string cap fs lt l.content_len (by rw [hcur, hfr.content_len]; exact hk2)
      (by rw [hfr.char_at_eq, hcur]; exact hq) hm
  rw [hfr.content_len, if_neg (lt_irrefl _)] at hcur3
  rw [← lexer_next_of_trim cap fs l lt ht] at hd
  have hfr13 := hfr.trans_of hfr3
  have hend := lexer_next_at_end cap fs l3 (by rw [hfr13.content_len, hcur3])
  refine ⟨_, l3, hd, rfl, hcur, by simp only [hcur, hcur3], by simp only [hcur, hcur3]; omega,
    hcur3, hfr13.content_len, ?_, _, l3, hend, rfl, rfl⟩
  intro i a b
  simp only [hcur, hcur3] at a b
  exact (hbody i a (by omega)).1

/-- C11 on the buffer double quote, `abc`: one string token of `text_len` 4. -/
theorem unterminated_string_spans_to_end_witness :
    first_nonspace_at (lexer_new none unterminated_buffer 4) 0 ∧
      ∃ tok l1, lexer_next 128 64 (lexer_new none unterminated_buffer 4) = some (tok, l1) ∧
        tok.kind = TOKEN_STRING ∧ tok.text = 0 ∧ tok.text_len = 4 - 0 ∧
        tok.text + tok.text_len = 4 ∧ l1.cursor = 4 ∧ l1.content_len = 4 ∧
        (∀ i, tok.text < i → i < tok.text + tok.text_len →
          (lexer_new none unterminated_buffer 4).char_at i ≠ 34) ∧
        ∃ tok2 l2, lexer_next 128 64 l1 = some (tok2, l2) ∧ tok2.kind = TOKEN_END ∧
          tok2.text_len = 0 :=
  have h1 : first_nonspace_at (lexer_new none unterminated_buffer 4) 0 :=
    ⟨le_refl _, by decide, fun i _ b => absurd b (Nat.not_lt_zero i), by decide⟩
  ⟨h1, unterminated_string_spans_to_end 128 64 (lexer_new none unterminated_buffer 4) 0 h1
    (by decide) (fun i a b => by
      have hb : i < 4 := b
      interval_cases i <;> decide)⟩

/-- C12: when the first non-whitespace byte at or after the cursor is a double
quote and a further double quote occurs after it before any newline,
`lexer_next` returns a `TOKEN_STRING` token whose text runs from the opening
quote through the first such quote inclusive, whatever the bytes in between (a
backslash is a byte like any other); the line is not left. -/
theorem string_ends_at_first_quote (cap : Nat) (fs : Int) (l : Lexer) (k m : Nat)
    (hk : first_nonspace_at l k) (hq : l.char_at k = 34)
    (hm1 : k < m) (hm2 : m < l.content_len)
    (hbody : ∀ i, k < i → i < m → l.char_at i ≠ 34 ∧ l.char_at i ≠ 10)
    (hclose : l.char_at m = 34) :
    ∃ tok l1 lt, lexer_trim_left cap l = some lt ∧ lexer_next cap fs l = some (tok, l1) ∧
      tok.kind = TOKEN_STRING ∧ tok.text = k ∧ tok.text_len = m + 1 - k ∧
      l.char_at (tok.text + tok.text_len - 1) = 34 ∧
      l1.cursor = m + 1 ∧ l1.line = lt.line ∧ l1.bol = lt.bol := by
  obtain ⟨lt, ht, hfr, hcur⟩ := trim_left_first_nonspace cap l k hk
  have hk2 : k < l.content_len := hk.2.1
  have hm : string_end_at lt lt.cursor m := by
    rw [hcur]
    exact hfr.string_end_at ⟨hm1, le_of_lt hm2, hbody, fun _ => Or.inl hclose⟩
  obtain ⟨l3, hd, hfr3, hcur3, _, hline3⟩ :=
    dispatch_string cap fs lt m (by rw [hcur, hfr.content_len]; exact hk2)
      (by rw [hfr.char_at_eq, hcur]; exact hq) hm
  rw [hfr.content_len, if_pos hm2] at hcur3
  obtain ⟨a, b⟩ := hline3 (Or.inr (by rw [hfr.char_at_eq, hclose]; decide))
  rw [← lexer_next_of_trim cap fs l lt ht] at hd
  refine ⟨_, l3, lt, ht, hd, rfl, hcur, ?_, ?_, hcur3, a, b⟩
  · simp only [hcur, hcur3]
  · simp only [hcur, hcur3]
    have : k + (m + 1 - k) - 1 = m := by omega
    rw [this]; exact hclose

/-- C12 on the 6 bytes double quote, `a`, backslash, double quote, `b`, double
quote: the token has `text_len` 4 and ends at the quote after the backslash. -/
theorem string_ends_at_first_quote_witness :
    first_nonspace_at (lexer_new none escaped_buffer 6) 0 ∧
      (lexer_new none escaped_buffer 6).char_at 2 = 92 ∧
      ∃ tok l1 lt, lexer_trim_left 128 (lexer_new none escaped_buffer 6) = some lt ∧
        lexer_next 128 64 (lexer_new none escaped_buffer 6) = some (tok, l1) ∧
        tok.kind = TOKEN_STRING ∧ tok.text = 0 ∧ tok.text_len = 4 ∧
        (lexer_new none escaped_buffer 6).char_at (tok.text + tok.text_len - 1) = 34 ∧
        l1.cursor = 4 ∧ l1.line = lt.line ∧ l1.bol = lt.bol :=
  have h1 : first_nonspace_at (lexer_new none escaped_buffer 6) 0 :=
    ⟨le_refl _, by decide, fun i _ b => absurd b (Nat.not_lt_zero i), by decide⟩
  ⟨h1, by decide,
    string_ends_at_first_quote 128 64 (lexer_new none escaped_buffer 6) 0 3 h1 (by decide)
      (by decide) (by decide) (fun i a b => by interval_cases i <;> decide) (by decide)⟩

/-! ## Punctuation and unrecognised bytes -/

/-- The literal branch seen from `lexer_next`. -/
theorem lexer_next_literal (cap : Nat) (fs : Int) (l : Lexer) (k : Nat)
    (hk : first_nonspace_at l k)
    (hlit : l.char_at k = 40 ∨ l.char_at k = 41 ∨ l.char_at k = 123 ∨ l.char_at k = 125 ∨
      l.char_at k = 59) :
    ∃ tok l1 lt, lexer_trim_left cap l = some lt ∧ lexer_next cap fs l = some (tok, l1) ∧
      tok.kind = literal_kind (l.char_at k) ∧ tok.text = k ∧ tok.text_len = 1 ∧
      l1.cursor = k + 1 ∧ l1.line = lt.line ∧ l1.bol = lt.bol := by
  obtain ⟨lt, ht, hfr, hcur⟩ := trim_left_first_nonspace cap l k hk
  have hk2 : lt.cursor < lt.content_len := by rw [hcur, hfr.content_len]; exact hk.2.1
  have hc : lt.char_at lt.cursor = l.char_at k := by rw [hfr.char_at_eq, hcur]
  have hfind := literal_find_eq lt hk2
  rw [hc] at hfind
  have hex : ∃ t, literal_tokens.find? (fun t => lexer_starts_with lt t.text) = some t ∧
      t.kind = literal_kind (l.char_at k) := by
    rw [hfind]
    unfold literal_kind
    rcases hlit with h | h | h | h | h <;> rw [h] <;> exact ⟨_, rfl, rfl⟩
  obtain ⟨t, ht2, hkind⟩ := hex
  obtain ⟨l1, hd, _, hcur1, e1, e2, _⟩ := dispatch_literal cap fs lt t hk2 ht2
  rw [← lexer_next_of_trim cap fs l lt ht] at hd
  exact ⟨_, l1, lt, ht, hd, hkind, hcur, rfl, by rw [hcur1, hcur], e1, e2⟩

/-- C13: when the first non-whitespace byte at or after the cursor is one of
`(`, `)`, an opening brace, a closing brace or `;`, `lexer_next` returns the
token of the corresponding kind with `text_len` 1 and moves the cursor by that
one byte; the scan of the five bytes in this order gives `TOKEN_OPEN_PAREN`,
`TOKEN_CLOSE_PAREN`, `TOKEN_OPEN_CURLY`, `TOKEN_CLOSE_CURLY`, `TOKEN_SEMICOLON`,
each of length 1, then `TOKEN_END`, and nothing else. -/
theorem punctuation_tokens (cap : Nat) (fs : Int) (l : Lexer) (k : Nat)
    (hk : first_nonspace_at l k)
    (hlit : l.char_at k = 40 ∨ l.char_at k = 41 ∨ l.char_at k = 123 ∨ l.char_at k = 125 ∨
      l.char_at k = 59) :
    (∃ tok l1, lexer_next cap fs l = some (tok, l1) ∧ tok.text = k ∧ tok.text_len = 1 ∧
      l1.cursor = k + 1 ∧
      (l.char_at k = 40 → tok.kind = TOKEN_OPEN_PAREN) ∧
      (l.char_at k = 41 → tok.kind = TOKEN_CLOSE_PAREN) ∧
      (l.char_at k = 123 → tok.kind = TOKEN_OPEN_CURLY) ∧
      (l.char_at k = 125 → tok.kind = TOKEN_CLOSE_CURLY) ∧
      (l.char_at k = 59 → tok.kind = TOKEN_SEMICOLON)) ∧
    scan_kinds (lexer_scan cap fs 6 (lexer_new none punctuation_buffer 5)) =
      some [(TOKEN_OPEN_PAREN, 1), (TOKEN_CLOSE_PAREN, 1), (TOKEN_OPEN_CURLY, 1),
        (TOKEN_CLOSE_CURLY, 1), (TOKEN_SEMICOLON, 1), (TOKEN_END, 0)] := by
  refine ⟨?_, by rfl⟩
  obtain ⟨tok, l1, lt, _, hn, hkind, a, b, c, _, _⟩ := lexer_next_literal cap fs l k hk hlit
  refine ⟨tok, l1, hn, a, b, c, ?_, ?_, ?_, ?_, ?_⟩ <;> intro h <;> rw [hkind, h] <;> rfl

/-- C13 on the five punctuation bytes, at the opening brace (offset 2). -/
theorem punctuation_tokens_witness :
    first_nonspace_at { lexer_new none punctuation_buffer 5 with cursor := 2 } 2 ∧
      ∃ tok l1,
        lexer_next 128 64 { lexer_new none punctuation_buffer 5 with cursor := 2 } =
          some (tok, l1) ∧
        tok.text = 2 ∧ tok.text_len = 1 ∧ l1.cursor = 2 + 1 ∧ tok.kind = TOKEN_OPEN_CURLY :=
  have h1 : first_nonspace_at { lexer_new none punctuation_buffer 5 with cursor := 2 } 2 :=
    ⟨le_refl _, by decide, fun i a b => absurd a (Nat.not_le.2 b), by decide⟩
  match (punctuation_tokens 128 64 { lexer_new none punctuation_buffer 5 with cursor := 2 } 2
      h1 (by decide)).1 with
  | ⟨tok, l1, hn, a, b, c, _, _, d, _, _⟩ => ⟨h1, tok, l1, hn, a, b, c, d (by decide)⟩

/-- The fallback branch seen from `lexer_next`. -/
theorem lexer_next_invalid (cap : Nat) (fs : Int) (l : Lexer) (k : Nat)
    (hk : first_nonspace_at l k)
    (h34 : l.char_at k ≠ 34) (h35 : l.char_at k ≠ 35)
    (hcom : ¬ (k + 1 < l.content_len ∧ l.char_at k = 47 ∧ l.char_at (k + 1) = 47))
    (hlit : l.char_at k ≠ 40 ∧ l.char_at k ≠ 41 ∧ l.char_at k ≠ 123 ∧ l.char_at k ≠ 125 ∧
      l.char_at k ≠ 59)
    (hsym : is_symbol_start (l.char_at k) = false) :
    ∃ tok l1, lexer_next cap fs l = some (tok, l1) ∧ tok.kind = TOKEN_INVALID ∧
      tok.text = k ∧ tok.text_len = 1 ∧ l1.cursor = k + 1 := by
  obtain ⟨lt, ht, hfr, hcur⟩ := trim_left_first_nonspace cap l k hk
  have hk2 : lt.cursor < lt.content_len := by rw [hcur, hfr.content_len]; exact hk.2.1
  have hc : lt.char_at lt.cursor = l.char_at k := by rw [hfr.char_at_eq, hcur]
  have hsw : lexer_starts_with lt (cstr "//") = false := by
    rw [← Bool.not_eq_true, starts_with_comment]
    rintro ⟨a, b, c⟩
    rw [hfr.char_at_eq, hcur] at b c
    rw [hcur, hfr.content_len] at a
    exact hcom ⟨a, b, c⟩
  have hfind : literal_tokens.find? (fun t => lexer_starts_with lt t.text) = none := by
    rw [literal_find_eq lt hk2, hc]
    simp only [hlit.1, hlit.2.1, hlit.2.2.1, hlit.2.2.2.1, hlit.2.2.2.2, if_false]
  obtain ⟨l1, hd, _, hcur1⟩ :=
    dispatch_invalid cap fs lt hk2 (by rw [hc]; exact h34) (by rw [hc]; exact h35) hsw hfind
      (by rw [hc]; exact hsym)
  rw [← lexer_next_of_trim cap fs l lt ht] at hd
  exact ⟨_, l1, hd, rfl, hcur, rfl, by rw [hcur1, hcur]⟩

/-- C14: when the first non-whitespace byte at or after the cursor is no double
quote, no `#`, does not begin the two bytes `//` inside the buffer, is none of
the five punctuation bytes and is neither a letter nor an underscore,
`lexer_next` returns a `TOKEN_INVALID` token with `text_len` 1 and the cursor one
byte past it; so for the one-byte buffers `7`, `+` and `/` and for `/` followed by
a space. No scanner state makes `lexer_next` fail. -/
theorem unrecognised_byte_is_invalid (cap : Nat) (fs : Int) (l : Lexer) (k : Nat)
    (hk : first_nonspace_at l k)
    (h34 : l.char_at k ≠ 34) (h35 : l.char_at k ≠ 35)
    (hcom : ¬ (k + 1 < l.content_len ∧ l.char_at k = 47 ∧ l.char_at (k + 1) = 47))
    (hlit : l.char_at k ≠ 40 ∧ l.char_at k ≠ 41 ∧ l.char_at k ≠ 123 ∧ l.char_at k ≠ 125 ∧
      l.char_at k ≠ 59)
    (hsym : is_symbol_start (l.char_at k) = false) :
    (∃ tok l1, lexer_next cap fs l = some (tok, l1) ∧ tok.kind = TOKEN_INVALID ∧
      tok.text = k ∧ tok.text_len = 1 ∧ l1.cursor = k + 1) ∧
    (∀ s : Lexer, ∃ r, lexer_next cap fs s = some r) ∧
    scan_kinds (lexer_scan cap fs 2 (lexer_new none [55] 1)) =
      some [(TOKEN_INVALID, 1), (TOKEN_END, 0)] ∧
    scan_kinds (lexer_scan cap fs 2 (lexer_new none [43] 1)) =
      some [(TOKEN_INVALID, 1), (TOKEN_END, 0)] ∧
    scan_kinds (lexer_scan cap fs 2 (lexer_new none [47] 1)) =
      some [(TOKEN_INVALID, 1), (TOKEN_END, 0)] ∧
    scan_kinds (lexer_scan cap fs 3 (lexer_new none [47, 32] 2)) =
      some [(TOKEN_INVALID, 1), (TOKEN_END, 0)] := by
  refine ⟨lexer_next_invalid cap fs l k hk h34 h35 hcom hlit hsym, fun s => ?_, by rfl, by rfl,
    by rfl, by rfl⟩
  obtain ⟨tok, l1, _, _, h, _⟩ := lexer_next_spec cap fs s
  exact ⟨_, h⟩

/-- C14 on the one-byte buffer `/`: the slash is the last byte of the buffer. -/
theorem unrecognised_byte_is_invalid_witness :
    first_nonspace_at (lexer_new none [47] 1) 0 ∧
      ∃ tok l1, lexer_next 128 64 (lexer_new none [47] 1) = some (tok, l1) ∧
        tok.kind = TOKEN_INVALID ∧ tok.text = 0 ∧ tok.text_len = 1 ∧ l1.cursor = 0 + 1 :=
  have h1 : first_nonspace_at (lexer_new none [47] 1) 0 :=
    ⟨le_refl _, by decide, fun i _ b => absurd b (Nat.not_lt_zero i), by decide⟩
  ⟨h1, (unrecognised_byte_is_invalid 128 64 (lexer_new none [47] 1) 0 h1 (by decide)
    (by decide) (fun h => absurd h.1 (by decide)) (by decide) (by decide)).1⟩

/-! ## End of input and identifier runs -/

/-- C19: for every scanner state with `cursor ≤ content_len`, `lexer_next`
returns a token of kind `TOKEN_END` exactly when every byte from the cursor to
the end of the buffer is whitespace (none at all included), and the token has
`text_len` 0 exactly when its kind is `TOKEN_END`. -/
theorem end_iff_only_whitespace (cap : Nat) (fs : Int) (l : Lexer)
    (h : l.cursor ≤ l.content_len) :
    ∃ tok l1, lexer_next cap fs l = some (tok, l1) ∧
      (tok.kind = TOKEN_END ↔
        ∀ i, l.cursor ≤ i → i < l.content_len → isspace (l.char_at i) = true) ∧
      (tok.text_len = 0 ↔ tok.kind = TOKEN_END) ∧
      (tok.kind ≠ TOKEN_END → 1 ≤ tok.text_len) := by
  obtain ⟨tok, l1, lt, ht, hn, hfr, a, b, c, d, e, f, g, hcur, i, j⟩ := lexer_next_spec cap fs l
  have hb := b h
  refine ⟨tok, l1, hn, ?_, ?_, ?_⟩
  · by_cases hlt : lt.cursor < l.content_len
    · obtain ⟨j1, _, _⟩ := j hlt
      constructor
      · intro hk; exact absurd hk j1
      · intro hall
        have h1 := hall lt.cursor a hlt
        rw [e hlt] at h1
        cases h1
    · obtain ⟨i1, _, _⟩ := i (by omega)
      constructor
      · intro _ x x1 x2
        exact d x x1 (by omega)
      · intro _; exact i1
  · by_cases hlt : lt.cursor < l.content_len
    · obtain ⟨j1, j2, _⟩ := j hlt
      constructor
      · intro hz; omega
      · intro hk; exact absurd hk j1
    · obtain ⟨i1, i2, _⟩ := i (by omega)
      exact ⟨fun _ => i1, fun _ => i2⟩
  · intro hk
    by_cases hlt : lt.cursor < l.content_len
    · exact (j hlt).2.1
    · exact absurd (i (by omega)).1 hk

/-- C19 on the buffer space, newline, space, which holds only whitespace. -/
theorem end_iff_only_whitespace_witness :
    blank_lexer.cursor ≤ blank_lexer.content_len ∧
      ∃ tok l1, lexer_next 128 64 blank_lexer = some (tok, l1) ∧
        (tok.kind = TOKEN_END ↔
          ∀ i, blank_lexer.cursor ≤ i → i < blank_lexer.content_len →
            isspace (blank_lexer.char_at i) = true) ∧
        (tok.text_len = 0 ↔ tok.kind = TOKEN_END) ∧
        (tok.kind ≠ TOKEN_END → 1 ≤ tok.text_len) :=
  ⟨by decide, end_iff_only_whitespace 128 64 blank_lexer (by decide)⟩

theorem reference_kind_cases (w : List Int) :
    reference_kind w = TOKEN_SYMBOL ∨ reference_kind w = TOKEN_KEYWORD ∨
      reference_kind w = TOKEN_CONTROL_FLOW ∨ reference_kind w = TOKEN_PREPROC := by
  unfold reference_kind
  split_ifs <;> simp

/-- C20: when the first non-whitespace byte at or after the cursor is a letter
or an underscore, the text of the returned token is the maximal run of
identifier bytes that starts there: its first byte is a letter or `_`, each of
its bytes is alphanumeric or `_`, and afterwards the cursor is `content_len` or
at a byte that is not an identifier byte; the kind is one of `TOKEN_SYMBOL`,
`TOKEN_KEYWORD`, `TOKEN_CONTROL_FLOW`, `TOKEN_PREPROC`. -/
theorem identifier_is_maximal_run (cap : Nat) (fs : Int) (l : Lexer) (k : Nat)
    (hk : first_nonspace_at l k) (hs : is_symbol_start (l.char_at k) = true) :
    ∃ tok l1, lexer_next cap fs l = some (tok, l1) ∧ tok.text = k ∧ 1 ≤ tok.text_len ∧
      l1.cursor = tok.text + tok.text_len ∧ l1.cursor ≤ l.content_len ∧
      is_symbol_start (l.char_at tok.text) = true ∧
      (∀ i, tok.text ≤ i → i < tok.text + tok.text_len → is_symbol (l.char_at i) = true) ∧
      (l1.cursor = l.content_len ∨ is_symbol (l.char_at l1.cursor) = false) ∧
      (tok.kind = TOKEN_SYMBOL ∨ tok.kind = TOKEN_KEYWORD ∨ tok.kind = TOKEN_CONTROL_FLOW ∨
        tok.kind = TOKEN_PREPROC) := by
  obtain ⟨m, hm⟩ := exists_symbol_end l k (le_of_lt hk.2.1)
  obtain ⟨tok, l1, hn, a, b, hlt, c, d⟩ := lexer_next_symbol cap fs l k m hk hs hm
  obtain ⟨_, hm2, hm3, hm4⟩ := hm
  refine ⟨tok, l1, hn, a, by omega, by omega, by omega, by rw [a]; exact hs, ?_, ?_, ?_⟩
  · intro i x1 x2
    exact hm3 i (by omega) (by omega)
  · rcases Nat.lt_or_ge m l.content_len with h | h
    · exact Or.inr (by rw [c]; exact hm4 h)
    · exact Or.inl (by omega)
  · rw [d]; exact reference_kind_cases _

/-- C20 on `#define X 1\nint y;` with the cursor at offset 12, where `int`
starts. -/
theorem identifier_is_maximal_run_witness :
    first_nonspace_at { define_lexer with cursor := 12 } 12 ∧
      ∃ tok l1, lexer_next 128 64 { define_lexer with cursor := 12 } = some (tok, l1) ∧
        tok.text = 12 ∧ 1 ≤ tok.text_len ∧ l1.cursor = tok.text + tok.text_len ∧
        l1.cursor ≤ 18 ∧
        is_symbol_start ({ define_lexer with cursor := 12 }.char_at tok.text) = true ∧
        (∀ i, tok.text ≤ i → i < tok.text + tok.text_len →
          is_symbol ({ define_lexer with cursor := 12 }.char_at i) = true) ∧
        (l1.cursor = 18 ∨ is_symbol ({ define_lexer with cursor := 12 }.char_at l1.cursor)
          = false) ∧
        (tok.kind = TOKEN_SYMBOL ∨ tok.kind = TOKEN_KEYWORD ∨
          tok.kind = TOKEN_CONTROL_FLOW ∨ tok.kind = TOKEN_PREPROC) :=
  have h1 : first_nonspace_at { define_lexer with cursor := 12 } 12 :=
    ⟨le_refl _, by decide, fun i a b => absurd a (Nat.not_le.2 b), by decide⟩
  ⟨h1, identifier_is_maximal_run 128 64 { define_lexer with cursor := 12 } 12 h1 (by decide)⟩

/-! ## The atlas does not influence the scan -/

theorem chop_step_erase (cap cap2 : Nat) (l : Lexer) :
    chop_step cap2 (erase l) = (chop_step cap l).map erase := by
  unfold chop_step erase
  by_cases hc : l.cursor < l.content_len
  · by_cases hx : l.char_at l.cursor = 10
    · have hx2 : Lexer.char_at { l with atlas := none, x := 0 } l.cursor = 10 := hx
      simp [hc, hx, hx2]
    · have hx2 : ¬ Lexer.char_at { l with atlas := none, x := 0 } l.cursor = 10 := hx
      cases ha : l.atlas <;> simp [hc, hx, hx2, ha]
  · simp [hc]

theorem chop_char_erase (cap cap2 : Nat) :
    ∀ (n : Nat) (l : Lexer),
      lexer_chop_char cap2 (erase l) n = (lexer_chop_char cap l n).map erase := by
  intro n
  induction n with
  | zero => intro l; simp [lexer_chop_char]
  | succ n ih =>
    intro l
    simp only [lexer_chop_char, chop_step_erase cap cap2 l]
    cases h : chop_step cap l with
    | none => simp
    | some l1 => simp [ih l1]

theorem chop_while_erase (cap cap2 : Nat) (p : Int → Bool) :
    ∀ (fuel : Nat) (l : Lexer),
      lexer_chop_while cap2 p fuel (erase l) = (lexer_chop_while cap p fuel l).map erase := by
  intro fuel
  induction fuel with
  | zero =>
    intro l
    have h1 : (erase l).cursor = l.cursor := rfl
    have h2 : (erase l).content_len = l.content_len := rfl
    have h3 : (erase l).char_at l.cursor = l.char_at l.cursor := rfl
    simp only [lexer_chop_while, h1, h2, h3]
    split_ifs <;> simp
  | succ fuel ih =>
    intro l
    have h1 : (erase l).cursor = l.cursor := rfl
    have h2 : (erase l).content_len = l.content_len := rfl
    have h3 : (erase l).char_at l.cursor = l.char_at l.cursor := rfl
    simp only [lexer_chop_while, h1, h2, h3, chop_char_erase cap cap2 1 l]
    split_ifs
    · cases h : lexer_chop_char cap l 1 with
      | none => simp
      | some l1 => simp [ih l1]
    · simp

theorem symbol_loop_erase (cap cap2 : Nat) :
    ∀ (fuel : Nat) (l : Lexer) (k : Nat),
      symbol_loop cap2 fuel (erase l) k =
        (symbol_loop cap fuel l k).map (fun r => (erase r.1, r.2)) := by
  intro fuel
  induction fuel with
  | zero =>
    intro l k
    have h1 : (erase l).cursor = l.cursor := rfl
    have h2 : (erase l).content_len = l.content_len := rfl
    have h3 : (erase l).char_at l.cursor = l.char_at l.cursor := rfl
    simp only [symbol_loop, h1, h2, h3]
    split_ifs <;> simp
  | succ fuel ih =>
    intro l k
    have h1 : (erase l).cursor = l.cursor := rfl
    have h2 : (erase l).content_len = l.content_len := rfl
    have h3 : (erase l).char_at l.cursor = l.char_at l.cursor := rfl
    simp only [symbol_loop, h1, h2, h3, chop_char_erase cap cap2 1 l]
    split_ifs
    · cases h : lexer_chop_char cap l 1 with
      | none => simp
      | some l1 => simp [ih l1]
    · simp

theorem chop_if_more_erase (cap cap2 : Nat) (l : Lexer) :
    chop_if_more cap2 (erase l) = (chop_if_more cap l).map erase := by
  have h1 : (erase l).cursor = l.cursor := rfl
  have h2 : (erase l).content_len = l.content_len := rfl
  simp only [chop_if_more, h1, h2, chop_char_erase cap cap2 1 l]
  split_ifs <;> simp

theorem trim_left_erase (cap cap2 : Nat) (l : Lexer) :
    lexer_trim_left cap2 (erase l) = (lexer_trim_left cap l).map erase := by
  unfold lexer_trim_left
  exact chop_while_erase cap cap2 isspace _ l

theorem erase_token_mk (k : Token_Kind) (t n : Nat) (x y : Int) :
    erase_token ⟨k, t, n, ⟨x, y⟩⟩ = ⟨k, t, n, ⟨0, y⟩⟩ := rfl

theorem classify_symbol_erase (l : Lexer) (text text_len : Nat) :
    classify_symbol (erase l) text text_len = classify_symbol l text text_len := rfl

/-- The three statements of a string, directive or comment token after the
test of the first byte commute with `erase`. -/
theorem line_tail_erase (cap cap2 : Nat) (p : Int → Bool) (k : Token_Kind) (t : Nat)
    (y : Int) (x : Int) (l : Lexer) :
    (match lexer_chop_while cap2 p (l.content_len - l.cursor) (erase l) with
      | none => none
      | some l2 =>
        match chop_if_more cap2 l2 with
        | none => none
        | some l3 => some ((⟨k, t, l3.cursor - t, ⟨0, y⟩⟩ : Token), l3)) =
    (match lexer_chop_while cap p (l.content_len - l.cursor) l with
      | none => none
      | some l2 =>
        match chop_if_more cap l2 with
        | none => none
        | some l3 => some ((⟨k, t, l3.cursor - t, ⟨x, y⟩⟩ : Token), l3)).map erase_call := by
  rw [chop_while_erase cap cap2 p _ l]
  cases lexer_chop_while cap p (l.content_len - l.cursor) l with
  | none => rfl
  | some l2 =>
    simp only [Option.map_some']
    rw [chop_if_more_erase cap cap2 l2]
    cases chop_if_more cap l2 with
    | none => rfl
    | some l3 => rfl

/-- The part of `lexer_next` after the whitespace commutes with `erase`. -/
theorem dispatch_erase (cap cap2 : Nat) (fs : Int) (l : Lexer) :
    lexer_dispatch cap2 fs (erase l) = (lexer_dispatch cap fs l).map erase_call := by
  have h1 : (erase l).cursor = l.cursor := rfl
  have h2 : (erase l).content_len = l.content_len := rfl
  have h3 : ∀ i, (erase l).char_at i = l.char_at i := fun _ => rfl
  have h4 : (erase l).line = l.line := rfl
  have h5 : (erase l).x = 0 := rfl
  have hsw : ∀ p, lexer_starts_with (erase l) p = lexer_starts_with l p := fun _ => rfl
  unfold lexer_dispatch
  simp only [h1, h2, h3, h4, h5, hsw]
  by_cases c0 : l.cursor ≥ l.content_len
  · rw [if_pos c0, if_pos c0]
    rfl
  rw [if_neg c0, if_neg c0]
  by_cases c1 : l.char_at l.cursor = 34
  · rw [if_pos c1, if_pos c1, chop_char_erase cap cap2 1 l]
    cases lexer_chop_char cap l 1 with
    | none => rfl
    | some l1 =>
      simp only [Option.map_some']
      exact line_tail_erase cap cap2 _ TOKEN_STRING l.cursor _ l.x l1
  rw [if_neg c1, if_neg c1]
  by_cases c2 : l.char_at l.cursor = 35
  · rw [if_pos c2, if_pos c2]
    exact line_tail_erase cap cap2 _ TOKEN_PREPROC l.cursor _ l.x l
  rw [if_neg c2, if_neg c2]
  by_cases c3 : lexer_starts_with l (cstr "//") = true
  · rw [if_pos c3, if_pos c3]
    exact line_tail_erase cap cap2 _ TOKEN_COMMENT l.cursor _ l.x l
  rw [if_neg c3, if_neg c3]
  cases literal_tokens.find? (fun lt => lexer_starts_with l lt.text) with
  | some lt =>
    simp only [chop_char_erase cap cap2 _ l]
    cases lexer_chop_char cap l lt.text.length with
    | none => rfl
    | some l1 => rfl
  | none =>
    simp only []
    by_cases c4 : is_symbol_start (l.char_at l.cursor) = true
    · rw [if_pos c4, if_pos c4, symbol_loop_erase cap cap2 _ l]
      cases symbol_loop cap (l.content_len - l.cursor) l 0 with
      | none => rfl
      | some r => rfl
    · rw [if_neg c4, if_neg c4, chop_char_erase cap cap2 1 l]
      cases lexer_chop_char cap l 1 with
      | none => rfl
      | some l1 => rfl

theorem lexer_next_erase (cap cap2 : Nat) (fs : Int) (l : Lexer) :
    lexer_next cap2 fs (erase l) = (lexer_next cap fs l).map erase_call := by
  unfold lexer_next
  rw [trim_left_erase cap cap2 l]
  cases lexer_trim_left cap l with
  | none => rfl
  | some lt => exact dispatch_erase cap cap2 fs lt

theorem lexer_scan_erase (cap cap2 : Nat) (fs : Int) :
    ∀ (calls : Nat) (l : Lexer),
      lexer_scan cap2 fs calls (erase l) =
        (lexer_scan cap fs calls l).map (List.map erase_call) := by
  intro calls
  induction calls with
  | zero => intro l; rfl
  | succ calls ih =>
    intro l
    simp only [lexer_scan, lexer_next_erase cap cap2 fs l]
    cases lexer_next cap fs l with
    | none => rfl
    | some r =>
      obtain ⟨tok, l1⟩ := r
      have hk : (erase_token tok).kind = tok.kind := rfl
      simp only [Option.map_some', erase_call, hk]
      by_cases he : tok.kind = TOKEN_END
      · simp [he, erase_call]
      · simp only [he, if_false, ih l1]
        cases lexer_scan cap fs calls l1 with
        | none => rfl
        | some rest => simp [erase_call]

theorem call_view_erase (p : Token × Lexer) : call_view (erase_call p) = call_view p := rfl

/-- C16: the atlas does not influence classification. For every buffer, the
scan without atlas and the scan with any atlas give, call by call, the same
token kinds, text offsets, text lengths and vertical positions and the same
cursor, line and bol; the same holds for a single call in any state. Without
atlas the pen `x` of the scanner is 0 after every call and the `position.x` of
every token is 0. With one more call than the buffer has bytes the scan
completes. -/
theorem atlas_noninterference (cap cap2 : Nat) (fs : Int) (atlas : Option Free_Glyph_Atlas)
    (content : List Int) (n calls : Nat) :
    (lexer_scan cap2 fs calls (lexer_new none content n)).map (List.map call_view) =
        (lexer_scan cap fs calls (lexer_new atlas content n)).map (List.map call_view) ∧
      (∀ toks, lexer_scan cap2 fs calls (lexer_new none content n) = some toks →
        ∀ p ∈ toks, p.1.position.x = 0 ∧ p.2.x = 0 ∧ p.2.atlas = none) ∧
      (∀ l : Lexer, (lexer_next cap2 fs (erase l)).map call_view =
        (lexer_next cap fs l).map call_view) ∧
      (∃ toks, lexer_scan cap fs (n + 1) (lexer_new atlas content n) = some toks) := by
  have hnew : lexer_new none content n = erase (lexer_new atlas content n) := rfl
  have hscan := lexer_scan_erase cap cap2 fs calls (lexer_new atlas content n)
  rw [← hnew] at hscan
  refine ⟨?_, ?_, ?_, ?_⟩
  · rw [hscan]
    cases lexer_scan cap fs calls (lexer_new atlas content n) with
    | none => rfl
    | some toks =>
      simp only [Option.map_some', List.map_map]
      congr 1
  · intro toks h p hp
    rw [hscan] at h
    cases hs : lexer_scan cap fs calls (lexer_new atlas content n) with
    | none => rw [hs] at h; cases h
    | some full =>
      rw [hs] at h
      simp only [Option.map_some', Option.some.injEq] at h
      rw [← h] at hp
      obtain ⟨q, _, rfl⟩ := List.mem_map.1 hp
      exact ⟨rfl, rfl, rfl⟩
  · intro l
    rw [lexer_next_erase cap cap2 fs l]
    cases lexer_next cap fs l with
    | none => rfl
    | some r => rfl
  · obtain ⟨front, last, hs, _⟩ :=
      scan_spec cap fs (n + 1) (lexer_new atlas content n) (Nat.zero_le _)
        (by simp [lexer_new])
    exact ⟨_, hs⟩

/-! ## The advance width of a chopped byte -/

theorem glyph_index_lt (cap : Nat) (x : Int) (hcap : 63 < cap) : glyph_index cap x < cap := by
  unfold glyph_index
  split_ifs with h
  · exact hcap
  · omega

/-- C17: in `lexer_chop_char` with an atlas, for a chopped byte that is no
newline the advance added to `x` is `metrics[c]` when the code `c` of the byte
(the `char` converted to `size_t`) is below `GLYPH_METRICS_CAPACITY`, and
`metrics['?']` otherwise; a negative `char` (a byte from `0x80` on where `char`
is signed) always takes the fallback, and so does a `char` from 128 to 255
(where `char` is unsigned) when the capacity is at most 128. With a capacity
above `'?'` (63) the index of the lookup is below the capacity. -/
theorem advance_uses_fallback (cap : Nat) (l : Lexer) (a : Free_Glyph_Atlas)
    (hc : l.cursor < l.content_len) (ha : l.atlas = some a)
    (hx : l.char_at l.cursor ≠ 10) (hcap : 63 < cap) :
    ∃ l1, lexer_chop_char cap l 1 = some l1 ∧
      l1.x = l.x + a.metrics (glyph_index cap (l.char_at l.cursor)) ∧
      glyph_index cap (l.char_at l.cursor) < cap ∧
      (size_t_of_char (l.char_at l.cursor) < cap →
        glyph_index cap (l.char_at l.cursor) = size_t_of_char (l.char_at l.cursor)) ∧
      (cap ≤ size_t_of_char (l.char_at l.cursor) →
        glyph_index cap (l.char_at l.cursor) = 63) ∧
      (0 ≤ l.char_at l.cursor → l.char_at l.cursor ≤ 255 → l.char_at l.cursor < cap →
        glyph_index cap (l.char_at l.cursor) = (l.char_at l.cursor).toNat) ∧
      (-128 ≤ l.char_at l.cursor → l.char_at l.cursor < 0 → cap ≤ 2 ^ 64 - 128 →
        glyph_index cap (l.char_at l.cursor) = 63) ∧
      (128 ≤ l.char_at l.cursor → l.char_at l.cursor ≤ 255 → cap ≤ 128 →
        glyph_index cap (l.char_at l.cursor) = 63) := by
  have hstep : chop_step cap l =
      some { l with cursor := l.cursor + 1,
                    x := l.x + a.metrics (glyph_index cap (l.char_at l.cursor)) } := by
    unfold chop_step
    simp only [hc, if_true, hx, if_false, ha]
  refine ⟨_, by rw [lexer_chop_char_one]; exact hstep, rfl, glyph_index_lt cap _ hcap, ?_, ?_,
    ?_, ?_, ?_⟩
  · intro h
    unfold glyph_index
    rw [if_neg (by omega)]
  · intro h
    unfold glyph_index
    rw [if_pos h]
  · intro h0 h255 h1
    have hs : size_t_of_char (l.char_at l.cursor) = (l.char_at l.cursor).toNat := by
      unfold size_t_of_char
      have hp : (2 : Int) ^ 64 = 18446744073709551616 := by norm_num
      have hq : (2 : Nat) ^ 64 = 18446744073709551616 := by norm_num
      rw [hp]
      omega
    unfold glyph_index
    rw [hs, if_neg (by omega)]
  · intro h0 h1 h2
    have hs : 2 ^ 64 - 128 ≤ size_t_of_char (l.char_at l.cursor) := by
      unfold size_t_of_char
      have hp : (2 : Int) ^ 64 = 18446744073709551616 := by norm_num
      have hq : (2 : Nat) ^ 64 = 18446744073709551616 := by norm_num
      rw [hp, hq]
      omega
    unfold glyph_index
    rw [if_pos (by omega)]
  · intro h0 h1 h2
    have hs : 128 ≤ size_t_of_char (l.char_at l.cursor) := by
      unfold size_t_of_char
      have hp : (2 : Int) ^ 64 = 18446744073709551616 := by norm_num
      rw [hp]
      omega
    unfold glyph_index
    rw [if_pos (by omega)]

/-- C17 with capacity 128 on the bytes `A`, 200, the cursor at the byte 200:
the advance added is that of glyph 63. -/
theorem advance_uses_fallback_witness :
    ∃ l1, lexer_chop_char 128 { metrics_lexer with cursor := 1 } 1 = some l1 ∧
      l1.x = 0 + ((63 : Nat) : Int) + 1 ∧ glyph_index 128 200 = 63 ∧ glyph_index 128 200 < 128 :=
  match advance_uses_fallback 128 { metrics_lexer with cursor := 1 }
      { metrics := fun i => (i : Int) + 1 } (by decide) rfl (by decide) (by decide) with
  | ⟨l1, h1, h2, h3, _, _, _, _, h4⟩ =>
    ⟨l1, h1, by rw [h2, h4 (by decide) (by decide) (by decide)]; rfl,
      h4 (by decide) (by decide) (by decide), h3⟩

/-! ## Position bookkeeping -/

theorem line_start_le (content : List Int) : ∀ c, line_start content c ≤ c := by
  intro c
  induction c with
  | zero => simp [line_start]
  | succ c ih =>
    simp only [line_start]
    split_ifs
    · exact le_refl _
    · omega

theorem width_sum_self (cap : Nat) (a : Free_Glyph_Atlas) (content : List Int) (b : Nat) :
    width_sum cap a content b b = 0 := by
  simp [width_sum]

theorem width_sum_succ (cap : Nat) (a : Free_Glyph_Atlas) (content : List Int) (b e : Nat)
    (h : b ≤ e) :
    width_sum cap a content b (e + 1) =
      width_sum cap a content b e + advance cap a (content.getD e 0) := by
  unfold width_sum
  have h1 : e + 1 - b = (e - b) + 1 := by omega
  have h2 : b + (e - b) = e := by omega
  rw [h1, List.range_succ, List.map_append, List.sum_append]
  simp [h2]

theorem pen_at_succ_newline (cap : Nat) (atlas : Option Free_Glyph_Atlas)
    (content : List Int) (c : Nat) (h : content.getD c 0 = 10) :
    pen_at cap atlas content (c + 1) = 0 := by
  unfold pen_at
  cases atlas with
  | none => rfl
  | some a => simp only [line_start, h, if_true, width_sum_self]

theorem pen_at_succ_other (cap : Nat) (a : Free_Glyph_Atlas) (content : List Int) (c : Nat)
    (h : content.getD c 0 ≠ 10) :
    pen_at cap (some a) content (c + 1) =
      pen_at cap (some a) content c + advance cap a (content.getD c 0) := by
  unfold pen_at
  simp only [line_start, h, if_false]
  exact width_sum_succ cap a content _ c (line_start_le content c)

theorem bookkeeping_new (cap : Nat) (atlas : Option Free_Glyph_Atlas) (content : List Int)
    (n : Nat) : Bookkeeping cap (lexer_new atlas content n) := by
  refine ⟨rfl, rfl, ?_⟩
  cases atlas with
  | none => rfl
  | some a => simp [lexer_new, pen_at, line_start, width_sum]

/-- One chop keeps the bookkeeping in step with the cursor. -/
theorem chop_step_bookkeeping (cap : Nat) (l l1 : Lexer) (h : chop_step cap l = some l1)
    (hb : Bookkeeping cap l) : Bookkeeping cap l1 := by
  obtain ⟨b1, b2, b3⟩ := hb
  unfold chop_step at h
  by_cases hc : l.cursor < l.content_len
  · rw [if_pos hc] at h
    by_cases hx : l.char_at l.cursor = 10
    · simp only [hx, if_true, Option.some.injEq] at h
      subst h
      have hx2 : l.content.getD l.cursor 0 = 10 := hx
      refine ⟨?_, ?_, ?_⟩
      · simp only [count_newlines, hx2, if_true, b1]
      · simp only [line_start, hx2, if_true]
      · simp only [pen_at_succ_newline cap l.atlas l.content l.cursor hx2]
    · simp only [hx, if_false] at h
      have hx2 : l.content.getD l.cursor 0 ≠ 10 := hx
      cases ha : l.atlas with
      | none =>
        simp only [ha, Option.some.injEq] at h
        subst h
        refine ⟨?_, ?_, ?_⟩
        · simp only [count_newlines, hx2, if_false, b1]
        · simp only [line_start, hx2, if_false, b2]
        · simp only [b3, ha, pen_at]
      | some a =>
        simp only [ha, Option.some.injEq] at h
        subst h
        refine ⟨?_, ?_, ?_⟩
        · simp only [count_newlines, hx2, if_false, b1]
        · simp only [line_start, hx2, if_false, b2]
        · simp only [ha, pen_at_succ_other cap a l.content l.cursor hx2, b3, advance,
            Lexer.char_at]
  · rw [if_neg hc] at h
    cases h

/-! ## Whatever single chops preserve, the scanner preserves -/

theorem chop_char_preserves (cap : Nat) (P : Lexer → Prop)
    (hstep : ∀ l l1, chop_step cap l = some l1 → P l → P l1) :
    ∀ (n : Nat) (l l1 : Lexer), lexer_chop_char cap l n = some l1 → P l → P l1 := by
  intro n
  induction n with
  | zero =>
    intro l l1 h hp
    simp only [lexer_chop_char, Option.some.injEq] at h
    rw [← h]; exact hp
  | succ n ih =>
    intro l l1 h hp
    simp only [lexer_chop_char] at h
    cases hs : chop_step cap l with
    | none => rw [hs] at h; cases h
    | some l2 =>
      rw [hs] at h
      exact ih l2 l1 h (hstep l l2 hs hp)

theorem chop_while_preserves (cap : Nat) (P : Lexer → Prop)
    (hstep : ∀ l l1, chop_step cap l = some l1 → P l → P l1) (p : Int → Bool) :
    ∀ (fuel : Nat) (l l1 : Lexer), lexer_chop_while cap p fuel l = some l1 → P l → P l1 := by
  intro fuel
  induction fuel with
  | zero =>
    intro l l1 h hp
    simp only [lexer_chop_while] at h
    split_ifs at h
    cases h
    exact hp
  | succ fuel ih =>
    intro l l1 h hp
    simp only [lexer_chop_while] at h
    split_ifs at h
    · cases hs : lexer_chop_char cap l 1 with
      | none => rw [hs] at h; cases h
      | some l2 =>
        rw [hs] at h
        exact ih l2 l1 h (chop_char_preserves cap P hstep 1 l l2 hs hp)
    · cases h
      exact hp

theorem symbol_loop_preserves (cap : Nat) (P : Lexer → Prop)
    (hstep : ∀ l l1, chop_step cap l = some l1 → P l → P l1) :
    ∀ (fuel : Nat) (l l1 : Lexer) (k k1 : Nat),
      symbol_loop cap fuel l k = some (l1, k1) → P l → P l1 := by
  intro fuel
  induction fuel with
  | zero =>
    intro l l1 k k1 h hp
    simp only [symbol_loop] at h
    split_ifs at h
    cases h
    exact hp
  | succ fuel ih =>
    intro l l1 k k1 h hp
    simp only [symbol_loop] at h
    split_ifs at h
    · cases hs : lexer_chop_char cap l 1 with
      | none => rw [hs] at h; cases h
      | some l2 =>
        rw [hs] at h
        exact ih l2 l1 _ k1 h (chop_char_preserves cap P hstep 1 l l2 hs hp)
    · cases h
      exact hp

theorem chop_if_more_preserves (cap : Nat) (P : Lexer → Prop)
    (hstep : ∀ l l1, chop_step cap l = some l1 → P l → P l1) (l l1 : Lexer)
    (h : chop_if_more cap l = some l1) (hp : P l) : P l1 := by
  unfold chop_if_more at h
  split_ifs at h
  · exact chop_char_preserves cap P hstep 1 l l1 h hp
  · cases h
    exact hp

theorem trim_left_preserves (cap : Nat) (P : Lexer → Prop)
    (hstep : ∀ l l1, chop_step cap l = some l1 → P l → P l1) (l l1 : Lexer)
    (h : lexer_trim_left cap l = some l1) (hp : P l) : P l1 :=
  chop_while_preserves cap P hstep isspace _ l l1 h hp

theorem line_tail_preserves (cap : Nat) (P : Lexer → Prop)
    (hstep : ∀ l l1, chop_step cap l = some l1 → P l → P l1) (p : Int → Bool)
    (mk : Lexer → Token) (l : Lexer) (tok : Token) (l1 : Lexer)
    (h : (match lexer_chop_while cap p (l.content_len - l.cursor) l with
      | none => none
      | some l2 =>
        match chop_if_more cap l2 with
        | none => none
        | some l3 => some (mk l3, l3)) = some (tok, l1))
    (hp : P l) : P l1 := by
  cases h2 : lexer_chop_while cap p (l.content_len - l.cursor) l with
  | none => rw [h2] at h; cases h
  | some l2 =>
    rw [h2] at h
    simp only at h
    cases h3 : chop_if_more cap l2 with
    | none => rw [h3] at h; cases h
    | some l3 =>
      rw [h3] at h
      simp only [Option.some.injEq, Prod.mk.injEq] at h
      rw [← h.2]
      exact chop_if_more_preserves cap P hstep l2 l3 h3
        (chop_while_preserves cap P hstep p _ l l2 h2 hp)

/-- The part of `lexer_next` after the whitespace changes the state by single
chops only. -/
theorem dispatch_preserves (cap : Nat) (fs : Int) (P : Lexer → Prop)
    (hstep : ∀ l l1, chop_step cap l = some l1 → P l → P l1) (l : Lexer) (tok : Token)
    (l1 : Lexer) (h : lexer_dispatch cap fs l = some (tok, l1)) (hp : P l) : P l1 := by
  unfold lexer_dispatch at h
  simp only at h
  by_cases c0 : l.cursor ≥ l.content_len
  · rw [if_pos c0] at h
    simp only [Option.some.injEq, Prod.mk.injEq] at h
    rw [← h.2]; exact hp
  rw [if_neg c0] at h
  by_cases c1 : l.char_at l.cursor = 34
  · rw [if_pos c1] at h
    cases h1 : lexer_chop_char cap l 1 with
    | none => rw [h1] at h; cases h
    | some l2 =>
      rw [h1] at h
      exact line_tail_preserves cap P hstep _
        (fun l3 => ⟨TOKEN_STRING, l.cursor, l3.cursor - l.cursor,
          ⟨l.x, vertical_slot fs l.line⟩⟩) l2 tok l1 h
        (chop_char_preserves cap P hstep 1 l l2 h1 hp)
  rw [if_neg c1] at h
  by_cases c2 : l.char_at l.cursor = 35
  · rw [if_pos c2] at h
    exact line_tail_preserves cap P hstep _
      (fun l3 => ⟨TOKEN_PREPROC, l.cursor, l3.cursor - l.cursor,
        ⟨l.x, vertical_slot fs l.line⟩⟩) l tok l1 h hp
  rw [if_neg c2] at h
  by_cases c3 : lexer_starts_with l (cstr "//") = true
  · rw [if_pos c3] at h
    exact line_tail_preserves cap P hstep _
      (fun l3 => ⟨TOKEN_COMMENT, l.cursor, l3.cursor - l.cursor,
        ⟨l.x, vertical_slot fs l.line⟩⟩) l tok l1 h hp
  rw [if_neg c3] at h
  cases hf : literal_tokens.find? (fun lt => lexer_starts_with l lt.text) with
  | some lt =>
    rw [hf] at h
    simp only at h
    cases h1 : lexer_chop_char cap l lt.text.length with
    | none => rw [h1] at h; cases h
    | some l2 =>
      rw [h1] at h
      simp only [Option.some.injEq, Prod.mk.injEq] at h
      rw [← h.2]
      exact chop_char_preserves cap P hstep _ l l2 h1 hp
  | none =>
    rw [hf] at h
    simp only at h
    by_cases c4 : is_symbol_start (l.char_at l.cursor) = true
    · rw [if_pos c4] at h
      cases h1 : symbol_loop cap (l.content_len - l.cursor) l 0 with
      | none => rw [h1] at h; cases h
      | some r =>
        obtain ⟨l2, k⟩ := r
        rw [h1] at h
        simp only [Option.some.injEq, Prod.mk.injEq] at h
        rw [← h.2]
        exact symbol_loop_preserves cap P hstep _ l l2 0 k h1 hp
    · rw [if_neg c4] at h
      cases h1 : lexer_chop_char cap l 1 with
      | none => rw [h1] at h; cases h
      | some l2 =>
        rw [h1] at h
        simp only [Option.some.injEq, Prod.mk.injEq] at h
        rw [← h.2]
        exact chop_char_preserves cap P hstep 1 l l2 h1 hp

/-- A call of `lexer_next` changes the state by single chops only: what every
chop preserves holds for the state in which the token starts and for the state
after the call. -/
theorem lexer_next_preserves (cap : Nat) (fs : Int) (P : Lexer → Prop)
    (hstep : ∀ l l1, chop_step cap l = some l1 → P l → P l1) (l : Lexer) (tok : Token)
    (l1 : Lexer) (h : lexer_next cap fs l = some (tok, l1)) (hp : P l) :
    P l1 ∧ ∃ lt, lexer_trim_left cap l = some lt ∧ P lt ∧ tok.text = lt.cursor ∧
      tok.position = ⟨lt.x, vertical_slot fs lt.line⟩ := by
  obtain ⟨tok', l1', lt, ht, hn, _, _, _, _, _, _, f, g, _⟩ := lexer_next_spec cap fs l
  rw [h] at hn
  simp only [Option.some.injEq, Prod.mk.injEq] at hn
  obtain ⟨rfl, rfl⟩ := hn
  have hlt := trim_left_preserves cap P hstep l lt ht hp
  rw [lexer_next_of_trim cap fs l lt ht] at h
  exact ⟨dispatch_preserves cap fs P hstep lt tok l1 h hlt, lt, ht, hlt, f, g⟩

/-! ## Token positions in a scan -/

theorem chop_step_frame (cap : Nat) (l l1 : Lexer) (h : chop_step cap l = some l1) :
    Frame l l1 := by
  by_cases hc : l.cursor < l.content_len
  · obtain ⟨l2, h2, hfr, _⟩ := chop_step_spec cap l hc
    rw [h] at h2
    cases h2
    exact hfr
  · unfold chop_step at h
    rw [if_neg hc] at h
    cases h

theorem count_newlines_mono (content : List Int) (c1 c2 : Nat) (h : c1 ≤ c2) :
    count_newlines content c1 ≤ count_newlines content c2 := by
  induction c2, h using Nat.le_induction with
  | base => exact le_refl _
  | succ c2 _ ih =>
    simp only [count_newlines]
    split_ifs <;> omega

theorem count_newlines_lt (content : List Int) (c1 i c2 : Nat) (h1 : c1 ≤ i) (h2 : i < c2)
    (hx : content.getD i 0 = 10) :
    count_newlines content c1 < count_newlines content c2 := by
  have a := count_newlines_mono content c1 i h1
  have b := count_newlines_mono content (i + 1) c2 h2
  have c : count_newlines content (i + 1) = count_newlines content i + 1 := by
    simp only [count_newlines, hx, if_true]
  omega

theorem line_start_mono (content : List Int) (c1 c2 : Nat) (h : c1 ≤ c2) :
    line_start content c1 ≤ line_start content c2 := by
  induction c2, h using Nat.le_induction with
  | base => exact le_refl _
  | succ c2 hle ih =>
    simp only [line_start]
    split_ifs
    · have := line_start_le content c1
      omega
    · exact ih

theorem line_start_after_newline (content : List Int) (i c2 : Nat) (h2 : i < c2)
    (hx : content.getD i 0 = 10) : i < line_start content c2 := by
  have a := line_start_mono content (i + 1) c2 h2
  have b : line_start content (i + 1) = i + 1 := by
    simp only [line_start, hx, if_true]
  omega

/-- On one line the pen position does not decrease from an offset to a later
one, given that no advance width is negative. -/
theorem pen_at_mono (cap : Nat) (atlas : Option Free_Glyph_Atlas) (content : List Int)
    (hw : ∀ a, atlas = some a → ∀ i, 0 ≤ a.metrics i) (c1 : Nat) :
    ∀ d, count_newlines content (c1 + d) = count_newlines content c1 →
      pen_at cap atlas content c1 ≤ pen_at cap atlas content (c1 + d) := by
  intro d
  induction d with
  | zero => intro _; exact le_refl _
  | succ d ih =>
    intro h
    have hm := count_newlines_mono content c1 (c1 + d) (by omega)
    have hstep : count_newlines content (c1 + d + 1) =
        if content.getD (c1 + d) 0 = 10 then count_newlines content (c1 + d) + 1
        else count_newlines content (c1 + d) := rfl
    rw [← Nat.add_assoc] at h
    by_cases hx : content.getD (c1 + d) 0 = 10
    · rw [hstep, if_pos hx] at h
      omega
    · rw [hstep, if_neg hx] at h
      have := ih h
      cases atlas with
      | none => exact le_refl _
      | some a =>
        rw [← Nat.add_assoc, pen_at_succ_other cap a content (c1 + d) hx]
        have hn : 0 ≤ advance cap a (content.getD (c1 + d) 0) := hw a rfl _
        omega

theorem covers_pairwise (l0 : Lexer) :
    ∀ (toks : List (Token × Lexer)) (c : Nat), covers l0 c toks →
      (∀ p ∈ toks, c ≤ p.1.text) ∧ toks.Pairwise (fun p q => p.1.text ≤ q.1.text) := by
  intro toks
  induction toks with
  | nil => intro c _; exact ⟨fun p hp => absurd hp (List.not_mem_nil p), List.Pairwise.nil⟩
  | cons p rest ih =>
    intro c hc
    obtain ⟨h1, _, h3, h4⟩ := hc
    obtain ⟨a, b⟩ := ih p.2.cursor h4
    refine ⟨fun q hq => ?_, List.Pairwise.cons (fun q hq => ?_) b⟩
    · rcases List.mem_cons.1 hq with rfl | hq
      · exact h1
      · have := a q hq
        omega
    · have := a q hq
      omega

/-- Every token of a scan that starts in a state with correct bookkeeping has
the position that belongs to the offset of its text. -/
theorem scan_token_positions (cap : Nat) (fs : Int) (atlas : Option Free_Glyph_Atlas)
    (content : List Int) :
    ∀ (calls : Nat) (l : Lexer) (toks : List (Token × Lexer)),
      Bookkeeping cap l → l.content = content → l.atlas = atlas →
      lexer_scan cap fs calls l = some toks →
      ∀ p ∈ toks, p.1.position =
        ⟨pen_at cap atlas content p.1.text, vertical_slot fs (count_newlines content p.1.text)⟩ := by
  intro calls
  induction calls with
  | zero => intro l toks _ _ _ h; cases h
  | succ calls ih =>
    intro l toks hb hcont hatl h
    simp only [lexer_scan] at h
    cases hn : lexer_next cap fs l with
    | none => rw [hn] at h; cases h
    | some r =>
      obtain ⟨tok, l1⟩ := r
      rw [hn] at h
      simp only at h
      have hP := lexer_next_preserves cap fs
        (fun s => Bookkeeping cap s ∧ s.content = content ∧ s.atlas = atlas)
        (fun s s1 hs hp => by
          have hfr := chop_step_frame cap s s1 hs
          exact ⟨chop_step_bookkeeping cap s s1 hs hp.1, hfr.content.trans hp.2.1,
            hfr.atlas.trans hp.2.2⟩)
        l tok l1 hn ⟨hb, hcont, hatl⟩
      obtain ⟨⟨hb1, hc1, ha1⟩, lt, _, ⟨hbt, hct, hat⟩, htext, hpos⟩ := hP
      have htok : tok.position =
          ⟨pen_at cap atlas content tok.text, vertical_slot fs (count_newlines content tok.text)⟩ := by
        rw [hpos, hbt.x, hbt.line, hct, hat, htext]
      by_cases hk : tok.kind = TOKEN_END
      · rw [if_pos hk] at h
        simp only [Option.some.injEq] at h
        intro p hp
        rw [← h] at hp
        rw [List.mem_singleton.1 hp]
        exact htok
      · rw [if_neg hk] at h
        cases hs : lexer_scan cap fs calls l1 with
        | none => rw [hs] at h; cases h
        | some rest =>
          rw [hs] at h
          simp only [Option.some.injEq] at h
          intro p hp
          rw [← h] at hp
          rcases List.mem_cons.1 hp with rfl | hp
          · exact htok
          · exact ih l1 rest hb1 hc1 ha1 hs p hp

/-- The scan from `lexer_new`: it completes, each token has the position that
belongs to the offset of its text, and the offsets do not decrease. -/
theorem scan_positions (cap : Nat) (fs : Int) (atlas : Option Free_Glyph_Atlas)
    (content : List Int) (n : Nat) :
    ∃ toks, lexer_scan cap fs (n + 1) (lexer_new atlas content n) = some toks ∧
      (∀ p ∈ toks, p.1.position =
        ⟨pen_at cap atlas content p.1.text, vertical_slot fs (count_newlines content p.1.text)⟩) ∧
      toks.Pairwise (fun p q => p.1.text ≤ q.1.text) := by
  obtain ⟨front, last, hs, _, _, _, _, _, hcov⟩ :=
    scan_spec cap fs (n + 1) (lexer_new atlas content n) (Nat.zero_le _)
      (by simp [lexer_new])
  exact ⟨_, hs, scan_token_positions cap fs atlas content (n + 1) (lexer_new atlas content n) _
    (bookkeeping_new cap atlas content n) rfl rfl hs,
    (covers_pairwise (lexer_new atlas content n) _ _ hcov).2⟩

/-! ## The scan of a directive line followed by a declaration -/

/-- A view of the calls that does not look at the atlas or at horizontal
positions is the same for the scan with any atlas and the scan without. -/
theorem scan_view_without_atlas {α : Type} (v : Token × Lexer → α)
    (hv : ∀ p, v (erase_call p) = v p) (cap cap2 : Nat) (fs : Int)
    (atlas : Option Free_Glyph_Atlas) (content : List Int) (n calls : Nat) :
    (lexer_scan cap fs calls (lexer_new atlas content n)).map (List.map v) =
      (lexer_scan cap2 fs calls (lexer_new none content n)).map (List.map v) := by
  have hnew : lexer_new none content n = erase (lexer_new atlas content n) := rfl
  rw [hnew, lexer_scan_erase cap cap2 fs calls (lexer_new atlas content n)]
  cases lexer_scan cap fs calls (lexer_new atlas content n) with
  | none => rfl
  | some toks =>
    simp only [Option.map_some', List.map_map, Option.some.injEq]
    apply List.map_congr_left
    intro p _
    exact (hv p).symm

/-- C21: the scan of `#define X 1\nint y;` from `lexer_new`, with any atlas,
yields in this order a `TOKEN_PREPROC` token, the `TOKEN_KEYWORD` token `int`, the
`TOKEN_SYMBOL` token `y`, the `TOKEN_SEMICOLON` token `;` and `TOKEN_END`; the `X`
and the `1` of the directive line give no token of their own (they lie in the
text of the directive token, which runs through the newline). -/
theorem directive_then_declaration (cap : Nat) (fs : Int) (atlas : Option Free_Glyph_Atlas) :
    (lexer_scan cap fs 19 (lexer_new atlas define_buffer 18)).map
        (List.map (kind_and_text define_buffer)) =
      some [(TOKEN_PREPROC, cstr "#define X 1\n"), (TOKEN_KEYWORD, cstr "int"),
        (TOKEN_SYMBOL, cstr "y"), (TOKEN_SEMICOLON, cstr ";"), (TOKEN_END, [])] := by
  rw [scan_view_without_atlas (kind_and_text define_buffer) (fun _ => rfl) cap cap fs atlas
    define_buffer 18 19]
  rfl

/-! ## Names and colours of the token kinds -/

/-- C22: `token_kind_name` and `token_kind_color` are exhaustive over the 13
token kinds. Every kind is one of the 13; each has exactly one `case` label in
either `switch`, so both functions return a value for every kind and none falls
out of the `switch`; the 13 names are pairwise distinct. -/
theorem kind_metadata_exhaustive :
    (∀ k : Token_Kind, k ∈ all_token_kinds) ∧ all_token_kinds.length = 13 ∧
      all_token_kinds.Nodup ∧
      (∀ k : Token_Kind, ∃ s, token_kind_name k = some s) ∧
      (∀ k : Token_Kind, ∃ c, token_kind_color k = some c) ∧
      (∀ k : Token_Kind, (token_kind_name_switch.map Prod.fst).count k = 1) ∧
      (∀ k : Token_Kind, (token_kind_color_switch.map Prod.fst).count k = 1) ∧
      (token_kind_name_switch.map Prod.snd).Nodup ∧
      (token_kind_name_switch.map Prod.snd).length = 13 ∧
      (∀ k1 k2 : Token_Kind, token_kind_name k1 = token_kind_name k2 → k1 = k2) := by
  refine ⟨?_, rfl, by decide, ?_, ?_, ?_, ?_, by decide, rfl, ?_⟩
  · intro k; cases k <;> decide
  · intro k; cases k <;> exact ⟨_, rfl⟩
  · intro k; cases k <;> exact ⟨_, rfl⟩
  · intro k; cases k <;> decide
  · intro k; cases k <;> decide
  · intro k1 k2
    cases k1 <;> cases k2 <;> first | (intro _; rfl) | (intro h; exact absurd h (by decide))

/-! ## The bookkeeping invariant of reachable states -/

theorem count_newlines_eq_filter (content : List Int) (c : Nat) :
    count_newlines content c =
      ((List.range c).filter (fun i => content.getD i 0 = 10)).length := by
  induction c with
  | zero => rfl
  | succ c ih =>
    rw [List.range_succ, List.filter_append, List.length_append, ← ih]
    by_cases hx : content.getD c 0 = 10
    · have hf : List.filter (fun i => decide (content.getD i 0 = 10)) [c] = [c] := by
        simp only [List.filter, decide_eq_true hx]
      rw [hf]
      simp only [count_newlines, hx, if_true, List.length_singleton]
    · have hf : List.filter (fun i => decide (content.getD i 0 = 10)) [c] = [] := by
        simp only [List.filter, decide_eq_false hx]
      rw [hf]
      simp only [count_newlines, hx, if_false, List.length_nil, Nat.add_zero]

/-- What `line_start` computes: 0 when no newline lies before `c`, else one
plus the offset of the last newline before `c`. -/
theorem line_start_spec (content : List Int) (c : Nat) :
    (line_start content c = 0 ∧ ∀ i, i < c → content.getD i 0 ≠ 10) ∨
      (∃ j, j < c ∧ content.getD j 0 = 10 ∧ line_start content c = j + 1 ∧
        ∀ i, j < i → i < c → content.getD i 0 ≠ 10) := by
  induction c with
  | zero => exact Or.inl ⟨rfl, fun i h => absurd h (Nat.not_lt_zero i)⟩
  | succ c ih =>
    by_cases hx : content.getD c 0 = 10
    · refine Or.inr ⟨c, Nat.lt_succ_self c, hx, ?_, fun i a b => ?_⟩
      · simp only [line_start, hx, if_true]
      · omega
    · have hs : line_start content (c + 1) = line_start content c := by
        simp only [line_start, hx, if_false]
      rcases ih with ⟨h0, hall⟩ | ⟨j, hj, hjx, hls, hall⟩
      · refine Or.inl ⟨by rw [hs, h0], fun i hi => ?_⟩
        rcases Nat.lt_succ_iff_lt_or_eq.1 hi with h | h
        · exact hall i h
        · rw [h]; exact hx
      · refine Or.inr ⟨j, by omega, hjx, by rw [hs, hls], fun i a b => ?_⟩
        rcases Nat.lt_succ_iff_lt_or_eq.1 b with h | h
        · exact hall i a h
        · rw [h]; exact hx

theorem reachable_bookkeeping (cap : Nat) (fs : Int) (atlas : Option Free_Glyph_Atlas)
    (content : List Int) (n : Nat) (l : Lexer)
    (h : Reachable cap fs (lexer_new atlas content n) l) :
    Bookkeeping cap l ∧ l.content = content ∧ l.atlas = atlas := by
  induction h with
  | start => exact ⟨bookkeeping_new cap atlas content n, rfl, rfl⟩
  | next l tok l1 _ hn ih =>
    exact (lexer_next_preserves cap fs
      (fun s => Bookkeeping cap s ∧ s.content = content ∧ s.atlas = atlas)
      (fun s s1 hs hp => by
        have hfr := chop_step_frame cap s s1 hs
        exact ⟨chop_step_bookkeeping cap s s1 hs hp.1, hfr.content.trans hp.2.1,
          hfr.atlas.trans hp.2.2⟩)
      l tok l1 hn ih).1

/-- C23: in every state reachable from `lexer_new` by calls of `lexer_next`,
`line` is the number of newline bytes before the cursor; `bol` is one plus the
offset of the last newline before the cursor, or 0 when there is none; and with
an atlas `x` is the sum of the advance widths, with the fallback to the glyph of
`?`, of the bytes from `bol` up to the cursor (without atlas `x` is 0). -/
theorem bookkeeping_invariant (cap : Nat) (fs : Int) (atlas : Option Free_Glyph_Atlas)
    (content : List Int) (n : Nat) (l : Lexer)
    (h : Reachable cap fs (lexer_new atlas content n) l) :
    l.content = content ∧ l.atlas = atlas ∧
      l.line = ((List.range l.cursor).filter (fun i => content.getD i 0 = 10)).length ∧
      ((l.bol = 0 ∧ ∀ i, i < l.cursor → content.getD i 0 ≠ 10) ∨
        (∃ j, j < l.cursor ∧ content.getD j 0 = 10 ∧ l.bol = j + 1 ∧
          ∀ i, j < i → i < l.cursor → content.getD i 0 ≠ 10)) ∧
      l.bol ≤ l.cursor ∧
      (∀ a, atlas = some a → l.x = width_sum cap a content l.bol l.cursor) ∧
      (atlas = none → l.x = 0) := by
  obtain ⟨⟨b1, b2, b3⟩, hc, ha⟩ := reachable_bookkeeping cap fs atlas content n l h
  rw [hc] at b1 b2 b3
  rw [ha] at b3
  refine ⟨hc, ha, ?_, ?_, ?_, ?_, ?_⟩
  · rw [b1, count_newlines_eq_filter]
  · rw [b2]; exact line_start_spec content l.cursor
  · rw [b2]; exact line_start_le content l.cursor
  · intro a haa
    rw [b3, b2, haa]
    rfl
  · intro hn
    rw [b3, hn]
    rfl

/-- C23 on the bytes `A`, newline, `B` after two calls: line 1, bol 2 and `x`
the advance width of `B` alone. -/
theorem bookkeeping_invariant_witness :
    Reachable 128 64 (lexer_new (some ramp_atlas) two_line_buffer 3) two_line_state ∧
      two_line_state.line = 1 ∧ two_line_state.bol = 2 ∧ two_line_state.cursor = 3 ∧
      two_line_state.line =
        ((List.range two_line_state.cursor).filter
          (fun i => two_line_buffer.getD i 0 = 10)).length ∧
      (∀ a, some ramp_atlas = some a →
        two_line_state.x = width_sum 128 a two_line_buffer two_line_state.bol
          two_line_state.cursor) :=
  have h1 : Reachable 128 64 (lexer_new (some ramp_atlas) two_line_buffer 3)
      { atlas := some ramp_atlas, content := two_line_buffer, content_len := 3,
        line := 0, bol := 0, cursor := 1, x := 66 } :=
    Reachable.next _ ⟨TOKEN_SYMBOL, 0, 1, ⟨0, 0⟩⟩ _ Reachable.start (by rfl)
  have h2 : Reachable 128 64 (lexer_new (some ramp_atlas) two_line_buffer 3) two_line_state :=
    Reachable.next _ ⟨TOKEN_SYMBOL, 2, 1, ⟨0, -64⟩⟩ _ h1 (by rfl)
  match bookkeeping_invariant 128 64 (some ramp_atlas) two_line_buffer 3 two_line_state h2 with
  | ⟨_, _, a, _, _, b, _⟩ => ⟨h2, rfl, rfl, rfl, a, b⟩

/-! ## The table words as whole buffers -/

theorem table_words_classify :
    ∀ w ∈ keywords ++ control_flow,
      w ≠ [] ∧ is_symbol_start (w.getD 0 0) = true ∧ (∀ c ∈ w, is_symbol c = true) ∧
        reference_kind w = (if w ∈ control_flow then TOKEN_CONTROL_FLOW else TOKEN_KEYWORD) := by
  decide

/-- A scan whose first call returns a token other than `TOKEN_END` and whose
second call returns `TOKEN_END` consists of these two calls. -/
theorem scan_two_calls (cap : Nat) (fs : Int) (l l1 l2 : Lexer) (tok tok2 : Token)
    (calls : Nat) (h1 : lexer_next cap fs l = some (tok, l1)) (hk : tok.kind ≠ TOKEN_END)
    (h2 : lexer_next cap fs l1 = some (tok2, l2)) (hk2 : tok2.kind = TOKEN_END) :
    lexer_scan cap fs (calls + 2) l = some [(tok, l1), (tok2, l2)] := by
  simp only [lexer_scan, h1, hk, if_false, h2, hk2, if_true]

/-- C24: the all-caps rule collides with no table entry. For every entry `w` of
`keywords` or `control_flow`, the scan of the buffer `w` from `lexer_new` is one
token that spans the whole buffer, followed by `TOKEN_END`; the token is
`TOKEN_CONTROL_FLOW` for an entry of `control_flow` and `TOKEN_KEYWORD` for an
entry of `keywords` other than `while`, never `TOKEN_PREPROC`. -/
theorem table_words_keep_their_kind (cap : Nat) (fs : Int) (atlas : Option Free_Glyph_Atlas)
    (w : List Int) (hw : w ∈ keywords ++ control_flow) :
    ∃ tok l1 tok2,
      lexer_scan cap fs (w.length + 1) (lexer_new atlas w w.length) =
        some [(tok, l1), (tok2, l1)] ∧
      tok.text = 0 ∧ tok.text_len = w.length ∧ token_text w tok = w ∧
      l1.cursor = w.length ∧ tok.kind ≠ TOKEN_PREPROC ∧
      (w ∈ control_flow → tok.kind = TOKEN_CONTROL_FLOW) ∧
      (w ∈ keywords → w ≠ cstr "while" → tok.kind = TOKEN_KEYWORD) ∧
      tok2.kind = TOKEN_END ∧ tok2.text_len = 0 := by
  obtain ⟨hne, hs, hall, hkind⟩ := table_words_classify w hw
  obtain ⟨tok, l1, hn, a, b, c, d⟩ := lexer_next_whole_word cap fs atlas w hs hall hne
  rw [hkind] at d
  have hpos : 0 < w.length := List.length_pos.2 hne
  have hfr : l1.content_len = w.length := by
    obtain ⟨tok', l1', _, _, hn', hfr', _⟩ :=
      lexer_next_spec cap fs (lexer_new atlas w w.length)
    rw [hn] at hn'
    simp only [Option.some.injEq, Prod.mk.injEq] at hn'
    rw [hn'.2]
    exact hfr'.content_len
  have hend := lexer_next_at_end cap fs l1 (by rw [hfr, c])
  have hk : tok.kind ≠ TOKEN_END := by
    rw [d]; split_ifs <;> decide
  have hcalls : w.length + 1 = (w.length - 1) + 2 := by omega
  refine ⟨tok, l1, ⟨TOKEN_END, l1.cursor, 0, ⟨l1.x, vertical_slot fs l1.line⟩⟩, ?_, a, b, ?_, c,
    ?_, ?_, ?_, rfl, rfl⟩
  · rw [hcalls]
    exact scan_two_calls cap fs _ l1 l1 tok _ _ hn hk hend rfl
  · have := new_slice_all atlas w
    simp only [token_text, a, b]
    exact this
  · rw [d]; split_ifs <;> decide
  · intro hcf
    rw [d, if_pos hcf]
  · intro hkw hwhile
    have hncf : w ∉ control_flow := fun hcf => hwhile (only_while_in_both_tables w hkw hcf)
    rw [d, if_neg hncf]

/-- C24 on the buffer `int`. -/
theorem table_words_keep_their_kind_witness :
    cstr "int" ∈ keywords ++ control_flow ∧
      ∃ tok l1 tok2,
        lexer_scan 128 64 ((cstr "int").length + 1)
            (lexer_new none (cstr "int") (cstr "int").length) =
          some [(tok, l1), (tok2, l1)] ∧
        tok.text = 0 ∧ tok.text_len = 3 ∧ token_text (cstr "int") tok = cstr "int" ∧
        tok.kind = TOKEN_KEYWORD ∧ tok2.kind = TOKEN_END :=
  match table_words_keep_their_kind 128 64 none (cstr "int") (by decide) with
  | ⟨tok, l1, tok2, h1, h2, h3, h4, _, _, _, h5, h6, _⟩ =>
    ⟨by decide, tok, l1, tok2, h1, h2, h3, h4, h5 (by decide) (by decide), h6⟩

/-! ## Tokens and lines -/

theorem not_space_not_newline (c : Int) (h : isspace c = false) : c ≠ 10 := by
  intro hc
  rw [hc] at h
  exact absurd h (by decide)

/-- The bytes of the token that the part of `lexer_next` after the whitespace
returns, when it starts inside the buffer at a byte that is not whitespace: no
byte but possibly the last is a newline, and a token of a kind in
`newline_free_kinds` has no newline at all. -/
theorem dispatch_text_spec (cap : Nat) (fs : Int) (l : Lexer)
    (hc : l.cursor < l.content_len) (hns : isspace (l.char_at l.cursor) = false) :
    ∃ tok l1, lexer_dispatch cap fs l = some (tok, l1) ∧ tok.text = l.cursor ∧
      l1.cursor = l.cursor + tok.text_len ∧ 1 ≤ tok.text_len ∧
      (∀ i, l.cursor ≤ i → i + 1 < l.cursor + tok.text_len → l.char_at i ≠ 10) ∧
      (tok.kind ∈ newline_free_kinds →
        ∀ i, l.cursor ≤ i → i < l.cursor + tok.text_len → l.char_at i ≠ 10) := by
  have h10 : l.char_at l.cursor ≠ 10 := not_space_not_newline _ hns
  by_cases h34 : l.char_at l.cursor = 34
  · obtain ⟨m, hm⟩ := exists_string_end l l.cursor hc
    obtain ⟨l3, hd, _, hcur, _, _⟩ := dispatch_string cap fs l m hc h34 hm
    obtain ⟨hm1, hm2, hm3, _⟩ := hm
    have hb : l.cursor < l3.cursor ∧ l3.cursor ≤ m + 1 := by
      rw [hcur]; split_ifs <;> omega
    refine ⟨_, l3, hd, rfl, ?_, ?_, ?_, ?_⟩
    · simp only; omega
    · simp only; omega
    · intro i a b
      simp only at b
      rcases Nat.eq_or_lt_of_le a with h | h
      · rw [← h]; exact h10
      · exact (hm3 i h (by omega)).2
    · intro hk
      have hk2 : TOKEN_STRING ∈ newline_free_kinds := hk
      exact absurd hk2 (by decide)
  by_cases h35 : l.char_at l.cursor = 35
  · obtain ⟨n, hn⟩ := exists_line_end l l.cursor (le_of_lt hc)
    obtain ⟨l3, hd, _, hcur, _, _⟩ := dispatch_preproc cap fs l n hc h35 hn
    obtain ⟨hn1, hn2, hn3, hn5⟩ := hn
    have hn4 : l.cursor < n := by
      rcases Nat.eq_or_lt_of_le hn1 with h | h
      · exact absurd (hn5 (by omega)) (by rw [← h]; exact h10)
      · exact h
    have hb : l.cursor < l3.cursor ∧ l3.cursor ≤ n + 1 := by
      rw [hcur]; split_ifs <;> omega
    refine ⟨_, l3, hd, rfl, ?_, ?_, ?_, ?_⟩
    · simp only; omega
    · simp only; omega
    · intro i a b
      simp only at b
      exact hn3 i a (by omega)
    · intro hk
      have hk2 : TOKEN_PREPROC ∈ newline_free_kinds := hk
      exact absurd hk2 (by decide)
  cases hsw : lexer_starts_with l (cstr "//") with
  | true =>
    obtain ⟨hc2, h47, h47b⟩ := (starts_with_comment l).1 hsw
    obtain ⟨n, hn⟩ := exists_line_end l l.cursor (le_of_lt hc)
    obtain ⟨l3, hd, _, hcur, _, _⟩ := dispatch_comment cap fs l n hc2 h47 h47b hn
    obtain ⟨hn1, hn2, hn3, hn5⟩ := hn
    have hn4 : l.cursor < n := by
      rcases Nat.eq_or_lt_of_le hn1 with h | h
      · exact absurd (hn5 (by omega)) (by rw [← h]; exact h10)
      · exact h
    have hb : l.cursor < l3.cursor ∧ l3.cursor ≤ n + 1 := by
      rw [hcur]; split_ifs <;> omega
    refine ⟨_, l3, hd, rfl, ?_, ?_, ?_, ?_⟩
    · simp only; omega
    · simp only; omega
    · intro i a b
      simp only at b
      exact hn3 i a (by omega)
    · intro hk
      have hk2 : TOKEN_COMMENT ∈ newline_free_kinds := hk
      exact absurd hk2 (by decide)
  | false =>
    cases hfind : literal_tokens.find? (fun t => lexer_starts_with l t.text) with
    | some lt =>
      obtain ⟨l1, hd, _, hcur, _, _, _⟩ := dispatch_literal cap fs l lt hc hfind
      refine ⟨_, l1, hd, rfl, hcur, le_refl _, ?_, ?_⟩
      · intro i a b
        simp only at b
        omega
      · intro _ i a b
        simp only at b
        have : i = l.cursor := by omega
        rw [this]; exact h10
    | none =>
      cases hs : is_symbol_start (l.char_at l.cursor) with
      | true =>
        obtain ⟨m, hm⟩ := exists_symbol_end l l.cursor (le_of_lt hc)
        obtain ⟨l1, hd, _, hcur, hlt, _, _⟩ := dispatch_symbol cap fs l m hc hs hm
        obtain ⟨_, _, hm3, _⟩ := hm
        have hall : ∀ i, l.cursor ≤ i → i < l.cursor + (m - l.cursor) → l.char_at i ≠ 10 := by
          intro i a b
          have := symbol_char_bounds _ (hm3 i a (by omega))
          omega
        refine ⟨_, l1, hd, rfl, ?_, ?_, ?_, ?_⟩
        · simp only; omega
        · simp only; omega
        · intro i a b
          exact hall i a (by simp only at b; omega)
        · intro _ i a b
          exact hall i a b
      | false =>
        obtain ⟨l1, hd, _, hcur⟩ := dispatch_invalid cap fs l hc h34 h35 hsw hfind hs
        refine ⟨_, l1, hd, rfl, hcur, le_refl _, ?_, ?_⟩
        · intro i a b
          simp only at b
          omega
        · intro _ i a b
          simp only at b
          have : i = l.cursor := by omega
          rw [this]; exact h10

theorem chop_step_line (cap : Nat) (s s1 : Lexer) (h : chop_step cap s = some s1) :
    s1.content = s.content ∧ s1.cursor = s.cursor + 1 ∧
      s1.line = s.line + (if s.content.getD s.cursor 0 = 10 then 1 else 0) := by
  by_cases hc : s.cursor < s.content_len
  · obtain ⟨s2, h2, hfr, hcur, hnl, hnn⟩ := chop_step_spec cap s hc
    rw [h] at h2
    cases h2
    refine ⟨hfr.content, hcur, ?_⟩
    by_cases hx : s.content.getD s.cursor 0 = 10
    · rw [if_pos hx]; exact (hnl hx).1
    · rw [if_neg hx]; exact (hnn hx).1
  · unfold chop_step at h
    rw [if_neg hc] at h
    cases h

theorem count_newlines_same (content : List Int) (c1 c2 : Nat) (h : c1 ≤ c2)
    (hall : ∀ i, c1 ≤ i → i < c2 → content.getD i 0 ≠ 10) :
    count_newlines content c2 = count_newlines content c1 := by
  induction c2, h using Nat.le_induction with
  | base => rfl
  | succ c2 hle ih =>
    have hx := hall c2 hle (Nat.lt_succ_self c2)
    simp only [count_newlines, hx, if_false]
    exact ih (fun i a b => hall i a (by omega))

theorem count_newlines_succ_le (content : List Int) (c : Nat) :
    count_newlines content (c + 1) ≤ count_newlines content c + 1 := by
  simp only [count_newlines]
  split_ifs <;> omega

/-- The part of `lexer_next` after the whitespace adds to `line` the number of
newlines between the old and the new cursor. -/
theorem dispatch_line_count (cap : Nat) (fs : Int) (l : Lexer) (tok : Token) (l1 : Lexer)
    (h : lexer_dispatch cap fs l = some (tok, l1)) :
    l1.line + count_newlines l.content l.cursor =
      l.line + count_newlines l.content l1.cursor := by
  have hP := dispatch_preserves cap fs
    (fun s => s.content = l.content ∧
      s.line + count_newlines l.content l.cursor = l.line + count_newlines l.content s.cursor)
    (fun s s1 hs hp => by
      obtain ⟨e1, e2, e3⟩ := chop_step_line cap s s1 hs
      refine ⟨e1.trans hp.1, ?_⟩
      rw [e2, e3]
      simp only [count_newlines]
      rw [hp.1] at *
      split_ifs <;> omega)
    l tok l1 h ⟨rfl, rfl⟩
  exact hP.2

/-- C26: no token spans more than one line. For every token that `lexer_next`
returns, no byte of its text other than possibly the last one is a newline and
its first byte is not whitespace; a token of kind `TOKEN_SYMBOL`,
`TOKEN_KEYWORD`, `TOKEN_CONTROL_FLOW`, `TOKEN_INVALID` or of a punctuation kind has
no newline byte at all; and after the leading whitespace has been skipped the
call increases `line` by at most one. -/
theorem tokens_stay_on_one_line (cap : Nat) (fs : Int) (l : Lexer) :
    ∃ tok l1 lt, lexer_trim_left cap l = some lt ∧ lexer_next cap fs l = some (tok, l1) ∧
      tok.text = lt.cursor ∧ l1.cursor = tok.text + tok.text_len ∧
      (∀ i, tok.text ≤ i → i + 1 < tok.text + tok.text_len → l.char_at i ≠ 10) ∧
      (1 ≤ tok.text_len → isspace (l.char_at tok.text) = false) ∧
      (tok.kind ∈ newline_free_kinds →
        ∀ i, tok.text ≤ i → i < tok.text + tok.text_len → l.char_at i ≠ 10) ∧
      lt.line ≤ l1.line ∧ l1.line ≤ lt.line + 1 := by
  obtain ⟨lt, ht, hfr, _, _, _, _, e⟩ := trim_left_spec cap l
  rw [lexer_next_of_trim cap fs l lt ht]
  by_cases hc : lt.cursor < lt.content_len
  · have hns : isspace (lt.char_at lt.cursor) = false := by
      rw [hfr.char_at_eq]
      exact e (by rw [← hfr.content_len]; exact hc)
    obtain ⟨tok, l1, hd, a, b, c, d, f⟩ := dispatch_text_spec cap fs lt hc hns
    have hline := dispatch_line_count cap fs lt tok l1 hd
    have hsame : count_newlines lt.content (lt.cursor + (tok.text_len - 1)) =
        count_newlines lt.content lt.cursor :=
      count_newlines_same lt.content lt.cursor _ (by omega) (fun i x y => by
        have := d i x (by omega)
        exact this)
    have hsucc := count_newlines_succ_le lt.content (lt.cursor + (tok.text_len - 1))
    have hidx : lt.cursor + (tok.text_len - 1) + 1 = l1.cursor := by omega
    rw [hidx] at hsucc
    have hmono := count_newlines_mono lt.content lt.cursor l1.cursor (by omega)
    refine ⟨tok, l1, lt, ht, hd, a, by rw [a]; exact b, ?_, ?_, ?_, by omega, by omega⟩
    · intro i x y
      rw [a] at x y
      rw [← hfr.char_at_eq]
      exact d i x y
    · intro _
      rw [a, ← hfr.char_at_eq]
      exact hns
    · intro hk i x y
      rw [a] at x y
      rw [← hfr.char_at_eq]
      exact f hk i x y
  · have hle : lt.content_len ≤ lt.cursor := by omega
    refine ⟨_, lt, lt, ht, dispatch_end cap fs lt hle, rfl, rfl, ?_, ?_, ?_, le_refl _,
      Nat.le_succ _⟩
    · intro i x y
      simp only at x y
      omega
    · intro h
      simp only at h
      omega
    · intro _ i x y
      simp only at x y
      omega


/-! ## The bounds checks never fail -/

theorem read_eq (l : Lexer) (i : Nat) (h : i < l.content_len) :
    l.read i = some (l.char_at i) := by
  simp only [Lexer.read, h, if_true]

theorem starts_with_loop_checked_eq (l : Lexer) (pfx : List Int) :
    ∀ (idx : List Nat), (∀ i ∈ idx, l.cursor + i < l.content_len) →
      starts_with_loop_checked l pfx idx =
        some (idx.all (fun i => pfx.getD i 0 == l.char_at (l.cursor + i))) := by
  intro idx
  induction idx with
  | nil => intro _; rfl
  | cons i rest ih =>
    intro h
    have hi := h i (List.mem_cons_self i rest)
    have hrest := ih (fun j hj => h j (List.mem_cons_of_mem i hj))
    simp only [starts_with_loop_checked, read_eq l _ hi, hrest, List.all_cons, bne]
    cases (pfx.getD i 0 == l.char_at (l.cursor + i)) <;> rfl

/-- `lexer_starts_with` reads no byte at or past `content_len`, for any prefix
and in any state. -/
theorem starts_with_checked_eq (l : Lexer) (pfx : List Int) :
    lexer_starts_with_checked l pfx = some (lexer_starts_with l pfx) := by
  unfold lexer_starts_with_checked lexer_starts_with
  simp only
  by_cases h0 : pfx.length = 0
  · rw [if_pos h0, if_pos h0]
  · rw [if_neg h0, if_neg h0]
    by_cases h1 : l.cursor + pfx.length - 1 ≥ l.content_len
    · rw [if_pos h1, if_pos h1]
    · rw [if_neg h1, if_neg h1]
      exact starts_with_loop_checked_eq l pfx _ (fun i hi => by
        have := List.mem_range.1 hi
        omega)

theorem chop_step_checked_eq (cap : Nat) (l : Lexer) :
    chop_step_checked cap l = chop_step cap l := by
  unfold chop_step_checked chop_step
  by_cases hc : l.cursor < l.content_len
  · rw [if_pos hc, if_pos hc, read_eq l _ hc]
  · rw [if_neg hc, if_neg hc]

theorem chop_char_checked_eq (cap : Nat) :
    ∀ (n : Nat) (l : Lexer), lexer_chop_char_checked cap l n = lexer_chop_char cap l n := by
  intro n
  induction n with
  | zero => intro l; rfl
  | succ n ih =>
    intro l
    simp only [lexer_chop_char_checked, lexer_chop_char, chop_step_checked_eq]
    cases chop_step cap l with
    | none => rfl
    | some l1 => exact ih l1

theorem loop_test_checked_eq (l : Lexer) (p : Int → Bool) :
    loop_test_checked l p =
      some (decide (l.cursor < l.content_len) && p (l.char_at l.cursor)) := by
  unfold loop_test_checked
  by_cases hc : l.cursor < l.content_len
  · rw [if_pos hc, read_eq l _ hc]
    simp [hc]
  · rw [if_neg hc]
    simp [hc]

theorem chop_while_checked_eq (cap : Nat) (p : Int → Bool) :
    ∀ (fuel : Nat) (l : Lexer),
      lexer_chop_while_checked cap p fuel l = lexer_chop_while cap p fuel l := by
  intro fuel
  induction fuel with
  | zero =>
    intro l
    simp only [lexer_chop_while_checked, lexer_chop_while, loop_test_checked_eq]
    cases (decide (l.cursor < l.content_len) && p (l.char_at l.cursor)) <;> rfl
  | succ fuel ih =>
    intro l
    simp only [lexer_chop_while_checked, lexer_chop_while, loop_test_checked_eq,
      chop_char_checked_eq]
    cases (decide (l.cursor < l.content_len) && p (l.char_at l.cursor)) with
    | false => rfl
    | true =>
      simp only [if_true]
      cases lexer_chop_char cap l 1 with
      | none => rfl
      | some l1 => exact ih l1

theorem symbol_loop_checked_eq (cap : Nat) :
    ∀ (fuel : Nat) (l : Lexer) (k : Nat),
      symbol_loop_checked cap fuel l k = symbol_loop cap fuel l k := by
  intro fuel
  induction fuel with
  | zero =>
    intro l k
    simp only [symbol_loop_checked, symbol_loop, loop_test_checked_eq]
    cases (decide (l.cursor < l.content_len) && is_symbol (l.char_at l.cursor)) <;> rfl
  | succ fuel ih =>
    intro l k
    simp only [symbol_loop_checked, symbol_loop, loop_test_checked_eq, chop_char_checked_eq]
    cases (decide (l.cursor < l.content_len) && is_symbol (l.char_at l.cursor)) with
    | false => rfl
    | true =>
      simp only [if_true]
      cases lexer_chop_char cap l 1 with
      | none => rfl
      | some l1 => exact ih l1 (k + 1)

theorem chop_if_more_checked_eq (cap : Nat) (l : Lexer) :
    chop_if_more_checked cap l = chop_if_more cap l := by
  simp only [chop_if_more_checked, chop_if_more, chop_char_checked_eq]

theorem trim_left_checked_eq (cap : Nat) (l : Lexer) :
    lexer_trim_left_checked cap l = lexer_trim_left cap l :=
  chop_while_checked_eq cap isspace _ l

theorem read_slice_eq (l : Lexer) (off : Nat) :
    ∀ len, off + len ≤ l.content_len → read_slice l off len = some (l.slice off len) := by
  intro len
  induction len with
  | zero => intro _; rfl
  | succ len ih =>
    intro h
    have h1 := ih (by omega)
    have h2 := read_eq l (off + len) (by omega)
    have h3 : l.slice off (len + 1) = l.slice off len ++ [l.char_at (off + len)] := by
      rw [slice_append]
      rfl
    simp only [read_slice, h1, h2, h3]

theorem word_matches_checked_eq (l : Lexer) (text text_len : Nat) (w : List Int)
    (h : text + text_len ≤ l.content_len) :
    word_matches_checked l text text_len w = some (word_matches l text text_len w) := by
  unfold word_matches_checked word_matches
  by_cases hl : w.length = text_len
  · have hb : (w.length == text_len) = true := by simp [hl]
    rw [if_pos hb, read_slice_eq l text w.length (by omega), hb]
    simp
  · have hb : (w.length == text_len) = false := by simp [hl]
    rw [hb]
    simp

theorem table_any_checked_eq (l : Lexer) (text text_len : Nat)
    (h : text + text_len ≤ l.content_len) :
    ∀ table : List (List Int),
      table_any_checked l text text_len table =
        some (table.any (word_matches l text text_len)) := by
  intro table
  induction table with
  | nil => rfl
  | cons w rest ih =>
    simp only [table_any_checked, word_matches_checked_eq l text text_len w h, List.any_cons]
    cases word_matches l text text_len w with
    | true => rfl
    | false => simpa using ih

theorem all_caps_checked_eq (l : Lexer) (text text_len : Nat)
    (h : text + text_len ≤ l.content_len) :
    all_caps_checked l text text_len = some (all_caps l text text_len) := by
  simp only [all_caps_checked, read_slice_eq l text text_len h, all_caps]

theorem classify_symbol_checked_eq (l : Lexer) (text text_len : Nat)
    (h : text + text_len ≤ l.content_len) :
    classify_symbol_checked l text text_len = some (classify_symbol l text text_len) := by
  simp only [classify_symbol_checked, table_any_checked_eq l text text_len h,
    all_caps_checked_eq l text text_len h, classify_symbol]

theorem literal_find_checked_eq (l : Lexer) :
    ∀ table : List Literal_Token,
      literal_find_checked l table =
        some (table.find? (fun lt => lexer_starts_with l lt.text)) := by
  intro table
  induction table with
  | nil => rfl
  | cons lt rest ih =>
    simp only [literal_find_checked, starts_with_checked_eq, List.find?_cons]
    cases lexer_starts_with l lt.text with
    | true => rfl
    | false => simpa using ih

theorem line_tail_checked_eq (cap : Nat) (p : Int → Bool) (kind : Token_Kind) (token : Token)
    (l : Lexer) :
    line_tail_checked cap p kind token l =
      match lexer_chop_while cap p (l.content_len - l.cursor) l with
      | none => none
      | some l2 =>
        match chop_if_more cap l2 with
        | none => none
        | some l3 => some ({ token with kind := kind, text_len := l3.cursor - token.text }, l3) := by
  simp only [line_tail_checked, chop_while_checked_eq, chop_if_more_checked_eq]

/-- The identifier loop leaves the counted text inside the buffer. -/
theorem symbol_loop_inside (cap : Nat) (l l1 : Lexer) (n : Nat)
    (hc : l.cursor ≤ l.content_len)
    (h : symbol_loop cap (l.content_len - l.cursor) l 0 = some (l1, n)) :
    l.cursor + n ≤ l1.content_len := by
  obtain ⟨l2, h2, h3⟩ := symbol_loop_eq cap (l.content_len - l.cursor) l 0 (le_refl _)
  obtain ⟨l2', h2', hfr, hcur, hle, _⟩ :=
    chop_while_spec cap is_symbol (l.content_len - l.cursor) l (le_refl _)
  rw [h2] at h2'
  cases h2'
  rw [h] at h3
  simp only [Option.some.injEq, Prod.mk.injEq] at h3
  obtain ⟨rfl, hn⟩ := h3
  have := hle hc
  rw [hfr.content_len]
  omega

/-- The part of `lexer_next` after the whitespace, with every read checked,
returns what it returns unchecked: no check fails. -/
theorem dispatch_checked_eq (cap : Nat) (fs : Int) (l : Lexer) :
    lexer_dispatch_checked cap fs l = lexer_dispatch cap fs l := by
  unfold lexer_dispatch_checked lexer_dispatch
  simp only
  by_cases c0 : l.cursor ≥ l.content_len
  · rw [if_pos c0, if_pos c0]
  rw [if_neg c0, if_neg c0, read_eq l _ (by omega)]
  simp only
  by_cases c1 : l.char_at l.cursor = 34
  · rw [if_pos c1, if_pos c1, chop_char_checked_eq]
    cases lexer_chop_char cap l 1 with
    | none => rfl
    | some l1 =>
      simp only
      rw [line_tail_checked_eq]
  rw [if_neg c1, if_neg c1]
  by_cases c2 : l.char_at l.cursor = 35
  · rw [if_pos c2, if_pos c2, line_tail_checked_eq]
  rw [if_neg c2, if_neg c2, starts_with_checked_eq]
  cases hsw : lexer_starts_with l (cstr "//") with
  | true =>
    simp only [if_true]
    rw [line_tail_checked_eq]
  | false =>
    simp only [Bool.false_eq_true, if_false]
    rw [literal_find_checked_eq]
    cases literal_tokens.find? (fun lt => lexer_starts_with l lt.text) with
    | some lt =>
      simp only [chop_char_checked_eq]
    | none =>
      simp only
      by_cases c4 : is_symbol_start (l.char_at l.cursor) = true
      · rw [if_pos c4, if_pos c4, symbol_loop_checked_eq]
        cases hsl : symbol_loop cap (l.content_len - l.cursor) l 0 with
        | none => rfl
        | some r =>
          obtain ⟨l1, n⟩ := r
          simp only
          rw [classify_symbol_checked_eq l1 l.cursor n
            (symbol_loop_inside cap l l1 n (by omega) hsl)]
      · rw [if_neg c4, if_neg c4, chop_char_checked_eq]

theorem lexer_next_checked_eq (cap : Nat) (fs : Int) (l : Lexer) :
    lexer_next_checked cap fs l = lexer_next cap fs l := by
  unfold lexer_next_checked lexer_next
  rw [trim_left_checked_eq]
  cases lexer_trim_left cap l with
  | none => rfl
  | some lt => exact dispatch_checked_eq cap fs lt

/-- C25: for every scanner state with `cursor ≤ content_len`, `lexer_next` with
the `assert` of `lexer_chop_char` and a bounds check on every read of `content`
returns a result, the one of the unchecked function: every chop of the call,
also the chops of `lexer_trim_left` and the chop of a literal, runs with
`cursor < content_len` (a chop fails exactly when its `assert` does), and no byte
at or past `content_len` is read; `lexer_starts_with` passes its bounds checks
for every prefix. -/
theorem chops_and_reads_stay_inside (cap : Nat) (fs : Int) (l : Lexer)
    (h : l.cursor ≤ l.content_len) :
    (∃ tok l1, lexer_next_checked cap fs l = some (tok, l1) ∧
      lexer_next cap fs l = some (tok, l1) ∧ l1.cursor ≤ l1.content_len) ∧
      (∀ pfx : List Int, ∃ b, lexer_starts_with_checked l pfx = some b ∧
        b = lexer_starts_with l pfx) ∧
      (∀ s : Lexer, chop_step_checked cap s = none ↔ ¬ s.cursor < s.content_len) ∧
      (∀ (s : Lexer) (i : Nat), s.read i = none ↔ ¬ i < s.content_len) := by
  refine ⟨?_, fun pfx => ⟨_, starts_with_checked_eq l pfx, rfl⟩, fun s => ?_, fun s i => ?_⟩
  · obtain ⟨tok, l1, lt, _, hn, hfr, _, b, _, _, _, _, _, hcur, i, j⟩ :=
      lexer_next_spec cap fs l
    have hb := b h
    refine ⟨tok, l1, by rw [lexer_next_checked_eq]; exact hn, hn, ?_⟩
    rw [hfr.content_len]
    by_cases hlt : lt.cursor < l.content_len
    · exact (j hlt).2.2
    · have := (i (by omega)).2.1
      omega
  · rw [chop_step_checked_eq]
    constructor
    · intro hs hc
      obtain ⟨s1, h1, _⟩ := chop_step_spec cap s hc
      rw [hs] at h1
      cases h1
    · intro hc
      unfold chop_step
      rw [if_neg hc]
  · unfold Lexer.read
    by_cases hi : i < s.content_len
    · simp [hi]
    · simp [hi]

/-- C25 at the start of `#define X 1\nint y;`: the checked call returns the
directive token. -/
theorem chops_and_reads_stay_inside_witness :
    define_lexer.cursor ≤ define_lexer.content_len ∧
      ∃ tok l1, lexer_next_checked 128 64 define_lexer = some (tok, l1) ∧
        lexer_next 128 64 define_lexer = some (tok, l1) ∧ l1.cursor ≤ l1.content_len :=
  ⟨by decide, (chops_and_reads_stay_inside 128 64 define_lexer (by decide)).1⟩

/-! ## The vertical slot in binary32 -/

theorem log2_eq (n k : Nat) (h1 : 2 ^ k ≤ n) (h2 : n < 2 ^ (k + 1)) : Nat.log2 n = k := by
  have hn : n ≠ 0 := by
    intro h; rw [h] at h1; exact absurd h1 (by simp)
  have a := (Nat.le_log2 hn).2 h1
  have b := (Nat.log2_lt hn).2 h2
  omega

theorem float_of_nat_small (n : Nat) (h : n < 16777216) : float_of_nat n = n := by
  unfold float_of_nat
  rw [if_pos h]

/-- The shape of the rounding of a number that needs more than 24 bits. -/
theorem float_of_nat_large (n : Nat) (h : 16777216 ≤ n) :
    ∃ e q r, 1 ≤ e ∧ e + 23 = Nat.log2 n ∧ n = q * 2 ^ e + r ∧ r < 2 ^ e ∧
      8388608 ≤ q ∧ q < 16777216 ∧
      float_of_nat n =
        (if r < 2 ^ (e - 1) then q * 2 ^ e
         else if r = 2 ^ (e - 1) ∧ q % 2 = 0 then q * 2 ^ e else (q + 1) * 2 ^ e) := by
  have hn : n ≠ 0 := by omega
  have hlog : 24 ≤ Nat.log2 n := (Nat.le_log2 hn).2 (by norm_num; exact h)
  have hlo := Nat.log2_self_le hn
  have hhi := Nat.lt_log2_self (n := n)
  have hpos : 0 < 2 ^ (Nat.log2 n - 23) := pow_pos (by norm_num) _
  have hsplit : Nat.log2 n = (Nat.log2 n - 23) + 23 := by omega
  have hlo2 : 8388608 * 2 ^ (Nat.log2 n - 23) ≤ n := by
    have : 2 ^ Nat.log2 n = 2 ^ (Nat.log2 n - 23) * 8388608 := by
      conv_lhs => rw [hsplit, pow_add]
      norm_num
    omega
  have hhi2 : n < 16777216 * 2 ^ (Nat.log2 n - 23) := by
    have : 2 ^ (Nat.log2 n + 1) = 2 ^ (Nat.log2 n - 23) * 16777216 := by
      conv_lhs => rw [hsplit, Nat.add_assoc, pow_add]
      norm_num
    omega
  refine ⟨Nat.log2 n - 23, n / 2 ^ (Nat.log2 n - 23), n % 2 ^ (Nat.log2 n - 23), by omega,
    by omega, ?_, Nat.mod_lt _ hpos, ?_, ?_, ?_⟩
  · rw [Nat.mul_comm]; exact (Nat.div_add_mod n _).symm
  · exact (Nat.le_div_iff_mul_le hpos).2 hlo2
  · exact (Nat.div_lt_iff_lt_mul hpos).2 hhi2
  · unfold float_of_nat
    rw [if_neg (by omega)]

theorem float_of_nat_bounds (n : Nat) (h : 16777216 ≤ n) :
    ∃ e q, 1 ≤ e ∧ e + 23 = Nat.log2 n ∧ q = n / 2 ^ e ∧ 8388608 ≤ q ∧ q < 16777216 ∧
      q * 2 ^ e ≤ float_of_nat n ∧ float_of_nat n ≤ (q + 1) * 2 ^ e := by
  obtain ⟨e, q, r, he, hl, hn, hr, hq1, hq2, hf⟩ := float_of_nat_large n h
  have hpos : 0 < 2 ^ e := pow_pos (by norm_num) _
  have hq : q = n / 2 ^ e := by
    rw [hn, Nat.mul_comm, Nat.mul_add_div hpos, Nat.div_eq_of_lt hr, Nat.add_zero]
  have hle : q * 2 ^ e ≤ (q + 1) * 2 ^ e := Nat.mul_le_mul_right _ (Nat.le_succ q)
  refine ⟨e, q, he, hl, hq, hq1, hq2, ?_, ?_⟩
  · rw [hf]; split_ifs <;> first | exact le_refl _ | exact hle
  · rw [hf]; split_ifs <;> first | exact le_refl _ | exact hle

theorem log2_mono (a b : Nat) (ha : a ≠ 0) (h : a ≤ b) : Nat.log2 a ≤ Nat.log2 b := by
  have hb : b ≠ 0 := by omega
  exact (Nat.le_log2 hb).2 (le_trans (Nat.log2_self_le ha) h)

/-- Rounding to binary32 keeps the order. -/
theorem float_of_nat_mono (a b : Nat) (h : a ≤ b) : float_of_nat a ≤ float_of_nat b := by
  by_cases ha : a < 16777216
  · rw [float_of_nat_small a ha]
    by_cases hb : b < 16777216
    · rw [float_of_nat_small b hb]; exact h
    · obtain ⟨e, q, he, _, _, hq1, _, hlo, _⟩ := float_of_nat_bounds b (by omega)
      have h2 : 2 ^ 1 ≤ 2 ^ e := Nat.pow_le_pow_right (by norm_num) he
      have : 8388608 * 2 ≤ q * 2 ^ e := Nat.mul_le_mul hq1 (by simpa using h2)
      omega
  · have ha' : 16777216 ≤ a := by omega
    have hb' : 16777216 ≤ b := by omega
    obtain ⟨ea, qa, ra, hea, hla, hna, hra, hqa1, hqa2, hfa⟩ := float_of_nat_large a ha'
    obtain ⟨eb, qb, rb, heb, hlb, hnb, hrb, hqb1, hqb2, hfb⟩ := float_of_nat_large b hb'
    have hlog := log2_mono a b (by omega) h
    have hae : (qa + 1) * 2 ^ ea ≤ 16777216 * 2 ^ ea := Nat.mul_le_mul_right _ (by omega)
    have hfa_le : float_of_nat a ≤ (qa + 1) * 2 ^ ea := by
      rw [hfa]
      have : qa * 2 ^ ea ≤ (qa + 1) * 2 ^ ea := Nat.mul_le_mul_right _ (Nat.le_succ qa)
      split_ifs <;> first | exact le_refl _ | exact this
    have hfb_ge : qb * 2 ^ eb ≤ float_of_nat b := by
      rw [hfb]
      have : qb * 2 ^ eb ≤ (qb + 1) * 2 ^ eb := Nat.mul_le_mul_right _ (Nat.le_succ qb)
      split_ifs <;> first | exact le_refl _ | exact this
    rcases Nat.lt_or_ge ea eb with hlt | hge
    · have h1 : 2 ^ (ea + 1) ≤ 2 ^ eb := Nat.pow_le_pow_right (by norm_num) hlt
      have h2 : 16777216 * 2 ^ ea = 8388608 * 2 ^ (ea + 1) := by rw [pow_succ]; ring
      have h3 : 8388608 * 2 ^ (ea + 1) ≤ qb * 2 ^ eb := Nat.mul_le_mul hqb1 h1
      omega
    · have hee : ea = eb := by omega
      subst hee
      have hpos : 0 < 2 ^ ea := pow_pos (by norm_num) _
      have hqle : qa ≤ qb := by
        by_contra hcon
        have hlt : qb + 1 ≤ qa := by omega
        have : (qb + 1) * 2 ^ ea ≤ qa * 2 ^ ea := Nat.mul_le_mul_right _ hlt
        have e1 : (qb + 1) * 2 ^ ea = qb * 2 ^ ea + 2 ^ ea := by ring
        omega
      rcases Nat.lt_or_ge qa qb with hq | hq
      · have : (qa + 1) * 2 ^ ea ≤ qb * 2 ^ ea := Nat.mul_le_mul_right _ hq
        omega
      · have hqq : qa = qb := by omega
        subst hqq
        have hr : ra ≤ rb := by omega
        have hstep : qa * 2 ^ ea ≤ (qa + 1) * 2 ^ ea := Nat.mul_le_mul_right _ (Nat.le_succ qa)
        rw [hfa, hfb]
        split_ifs <;> first | exact le_refl _ | exact hstep | omega

theorem float_of_int_neg (z : Int) : float_of_int (-z) = -float_of_int z := by
  unfold float_of_int
  rcases lt_trichotomy z 0 with h | h | h
  · rw [if_neg (by omega), if_pos h, Int.natAbs_neg, neg_neg]
  · rw [h]; simp [float_of_nat]
  · rw [if_pos (by omega), if_neg (by omega), Int.natAbs_neg]

theorem float_of_int_nonneg (z : Int) (h : 0 ≤ z) : 0 ≤ float_of_int z := by
  unfold float_of_int
  rw [if_neg (by omega)]
  exact Int.ofNat_nonneg _

theorem float_of_int_of_nonneg (z : Int) (h : 0 ≤ z) :
    float_of_int z = (float_of_nat z.natAbs : Int) := by
  unfold float_of_int
  rw [if_neg (by omega)]

theorem float_of_int_mono (a b : Int) (h : a ≤ b) : float_of_int a ≤ float_of_int b := by
  rcases lt_or_le a 0 with ha | ha
  · rcases lt_or_le b 0 with hb | hb
    · have h1 := float_of_nat_mono b.natAbs a.natAbs (by omega)
      unfold float_of_int
      rw [if_pos ha, if_pos hb]
      omega
    · have h1 := float_of_int_nonneg b hb
      unfold float_of_int at *
      rw [if_pos ha]
      have := Int.ofNat_nonneg (float_of_nat a.natAbs)
      omega
  · have hb : 0 ≤ b := le_trans ha h
    rw [float_of_int_of_nonneg a ha, float_of_int_of_nonneg b hb]
    exact Int.ofNat_le.2 (float_of_nat_mono _ _ (by omega))

/-- For a constant that is not negative the vertical slot does not go up with
the line. -/
theorem vertical_slot_antitone (fs : Int) (hfs : 0 ≤ fs) (a b : Nat) (h : a ≤ b) :
    vertical_slot fs b ≤ vertical_slot fs a := by
  unfold vertical_slot
  apply float_of_int_mono
  have h1 : (float_of_nat a : Int) ≤ float_of_nat b := Int.ofNat_le.2 (float_of_nat_mono a b h)
  have h2 := float_of_int_nonneg fs hfs
  nlinarith

/-! ## Two identifiers below many lines -/

theorem deep_getD_lt (N i : Nat) (h : i < N) : (deep_buffer N).getD i 0 = 10 := by
  unfold deep_buffer
  rw [List.getD_eq_getElem?_getD, List.getElem?_append_left (by simpa using h)]
  simp [List.getElem?_replicate, h]

theorem deep_getD_add (N j : Nat) :
    (deep_buffer N).getD (N + j) 0 = ([32, 65, 10, 65] : List Int).getD j 0 := by
  unfold deep_buffer
  rw [List.getD_eq_getElem?_getD, List.getD_eq_getElem?_getD,
    List.getElem?_append_right (by simp)]
  simp

theorem deep_count_le (N : Nat) : ∀ k, k ≤ N → count_newlines (deep_buffer N) k = k := by
  intro k
  induction k with
  | zero => intro _; rfl
  | succ k ih =>
    intro h
    simp only [count_newlines]
    rw [if_pos (deep_getD_lt N k (by omega)), ih (by omega)]

theorem deep_count_first (N : Nat) : count_newlines (deep_buffer N) (N + 1) = N := by
  have h : (deep_buffer N).getD N 0 ≠ 10 := by
    have := deep_getD_add N 0
    rw [Nat.add_zero] at this
    rw [this]; decide
  simp only [count_newlines]
  rw [if_neg h, deep_count_le N N (le_refl _)]

theorem deep_count_second (N : Nat) : count_newlines (deep_buffer N) (N + 3) = N + 1 := by
  have h1 : (deep_buffer N).getD (N + 1) 0 ≠ 10 := by
    rw [deep_getD_add N 1]; decide
  have h2 : (deep_buffer N).getD (N + 2) 0 = 10 := by
    rw [deep_getD_add N 2]; decide
  have e : count_newlines (deep_buffer N) (N + 3) =
      if (deep_buffer N).getD (N + 2) 0 = 10 then count_newlines (deep_buffer N) (N + 2) + 1
      else count_newlines (deep_buffer N) (N + 2) := rfl
  have e2 : count_newlines (deep_buffer N) (N + 2) =
      if (deep_buffer N).getD (N + 1) 0 = 10 then count_newlines (deep_buffer N) (N + 1) + 1
      else count_newlines (deep_buffer N) (N + 1) := rfl
  rw [e, if_pos h2, e2, if_neg h1, deep_count_first]

theorem deep_line_start_le (N : Nat) : ∀ k, k ≤ N → line_start (deep_buffer N) k = k := by
  intro k
  cases k with
  | zero => intro _; rfl
  | succ k =>
    intro h
    simp only [line_start]
    rw [if_pos (deep_getD_lt N k (by omega))]

theorem deep_pen_first (cap : Nat) (a : Free_Glyph_Atlas) (N : Nat) :
    pen_at cap (some a) (deep_buffer N) (N + 1) = advance cap a 32 := by
  have h : (deep_buffer N).getD N 0 = 32 := by
    have := deep_getD_add N 0
    rw [Nat.add_zero] at this
    rw [this]; rfl
  rw [pen_at_succ_other cap a _ N (by rw [h]; decide), h]
  unfold pen_at
  simp only
  rw [deep_line_start_le N N (le_refl _), width_sum_self, zero_add]

theorem deep_pen_second (cap : Nat) (atlas : Option Free_Glyph_Atlas) (N : Nat) :
    pen_at cap atlas (deep_buffer N) (N + 3) = 0 :=
  pen_at_succ_newline cap atlas _ (N + 2) (by rw [deep_getD_add N 2]; decide)

theorem deep_char_at (atlas : Option Free_Glyph_Atlas) (N n i : Nat) :
    (lexer_new atlas (deep_buffer N) n).char_at i = (deep_buffer N).getD i 0 := rfl

theorem scan_one_call (cap : Nat) (fs : Int) (l l1 : Lexer) (tok : Token)
    (calls : Nat) (rest : List (Token × Lexer))
    (h1 : lexer_next cap fs l = some (tok, l1)) (hk : tok.kind ≠ TOKEN_END)
    (h2 : lexer_scan cap fs calls l1 = some rest) :
    lexer_scan cap fs (calls + 1) l = some ((tok, l1) :: rest) := by
  simp only [lexer_scan, h1, hk, if_false, h2]

/-- The scan of the buffer of `N` newlines, ` A`, a newline and `A`: its first
two tokens start at the offsets `N + 1` and `N + 3`, on the lines `N` and
`N + 1`. -/
theorem deep_scan (cap : Nat) (fs : Int) (atlas : Option Free_Glyph_Atlas) (N : Nat) :
    ∃ p q rest,
      lexer_scan cap fs (N + 5) (lexer_new atlas (deep_buffer N) (N + 4)) =
        some (p :: q :: rest) ∧
      p.1.text = N + 1 ∧ q.1.text = N + 3 ∧
      p.1.position = ⟨pen_at cap atlas (deep_buffer N) (N + 1), vertical_slot fs N⟩ ∧
      q.1.position = ⟨0, vertical_slot fs (N + 1)⟩ := by
  have hc := deep_char_at atlas N (N + 4)
  have c0 : (deep_buffer N).getD N 0 = 32 := by
    have := deep_getD_add N 0
    rw [Nat.add_zero] at this
    rw [this]; rfl
  have c1 : (deep_buffer N).getD (N + 1) 0 = 65 := by rw [deep_getD_add N 1]; rfl
  have c2 : (deep_buffer N).getD (N + 2) 0 = 10 := by rw [deep_getD_add N 2]; rfl
  have c3 : (deep_buffer N).getD (N + 3) 0 = 65 := by rw [deep_getD_add N 3]; rfl
  have hk1 : first_nonspace_at (lexer_new atlas (deep_buffer N) (N + 4)) (N + 1) := by
    refine ⟨Nat.zero_le _, ?_, ?_, ?_⟩
    · show N + 1 < N + 4
      omega
    · intro i _ hi
      rw [hc]
      rcases Nat.lt_or_ge i N with h | h
      · rw [deep_getD_lt N i h]; decide
      · have : i = N := by omega
        rw [this, c0]; decide
    · rw [hc, c1]; decide
  have hm1 : symbol_end_at (lexer_new atlas (deep_buffer N) (N + 4)) (N + 1) (N + 2) := by
    refine ⟨by omega, ?_, ?_, ?_⟩
    · show N + 2 ≤ N + 4
      omega
    · intro i h1 h2
      have : i = N + 1 := by omega
      rw [this, hc, c1]; decide
    · intro _
      rw [hc, c2]; decide
  obtain ⟨tok1, l1, hn1, ht1, _, _, hcur1, hkind1⟩ :=
    lexer_next_symbol cap fs _ (N + 1) (N + 2) hk1 (by rw [hc, c1]; decide) hm1
  obtain ⟨tok1', l1', _, _, hn1', hfr1, _⟩ := lexer_next_spec cap fs
    (lexer_new atlas (deep_buffer N) (N + 4))
  rw [hn1] at hn1'
  have e1 : l1' = l1 := by
    have := Option.some.inj hn1'
    exact (Prod.mk.inj this).2.symm
  rw [e1] at hfr1
  have hlen1 : l1.content_len = N + 4 := hfr1.content_len
  have hc1 : ∀ i, l1.char_at i = (deep_buffer N).getD i 0 := by
    intro i
    rw [hfr1.char_at_eq, hc]
  have hk2 : first_nonspace_at l1 (N + 3) := by
    refine ⟨by omega, by omega, ?_, ?_⟩
    · intro i h1 h2
      have : i = N + 2 := by omega
      rw [this, hc1, c2]; decide
    · rw [hc1, c3]; decide
  have hm2 : symbol_end_at l1 (N + 3) (N + 4) := by
    refine ⟨by omega, by omega, ?_, ?_⟩
    · intro i h1 h2
      have : i = N + 3 := by omega
      rw [this, hc1, c3]; decide
    · intro h
      omega
  obtain ⟨tok2, l2, hn2, ht2, _, _, hcur2, hkind2⟩ :=
    lexer_next_symbol cap fs l1 (N + 3) (N + 4) hk2 (by rw [hc1, c3]; decide) hm2
  obtain ⟨tok2', l2', _, _, hn2', hfr2, _⟩ := lexer_next_spec cap fs l1
  rw [hn2] at hn2'
  have e2 : l2' = l2 := by
    have := Option.some.inj hn2'
    exact (Prod.mk.inj this).2.symm
  rw [e2] at hfr2
  have hlen2 : l2.content_len = N + 4 := by rw [hfr2.content_len, hlen1]
  have hne1 : tok1.kind ≠ TOKEN_END := by
    rw [hkind1]
    rcases reference_kind_cases
      ((lexer_new atlas (deep_buffer N) (N + 4)).slice (N + 1) (N + 2 - (N + 1))) with
      h | h | h | h <;> rw [h] <;> decide
  have hne2 : tok2.kind ≠ TOKEN_END := by
    rw [hkind2]
    rcases reference_kind_cases (l1.slice (N + 3) (N + 4 - (N + 3))) with
      h | h | h | h <;> rw [h] <;> decide
  obtain ⟨front, last, hs, _⟩ := scan_spec cap fs (N + 3) l2 (by omega) (by omega)
  have hscan : lexer_scan cap fs (N + 5) (lexer_new atlas (deep_buffer N) (N + 4)) =
      some ((tok1, l1) :: (tok2, l2) :: (front ++ [last])) := by
    exact scan_one_call cap fs _ l1 tok1 (N + 4) _ hn1 hne1
      (scan_one_call cap fs l1 l2 tok2 (N + 3) _ hn2 hne2 hs)
  have hpos := scan_token_positions cap fs atlas (deep_buffer N) (N + 5)
    (lexer_new atlas (deep_buffer N) (N + 4)) _
    (bookkeeping_new cap atlas (deep_buffer N) (N + 4)) rfl rfl hscan
  have p1 := hpos (tok1, l1) (List.mem_cons_self _ _)
  have p2 := hpos (tok2, l2) (List.mem_cons_of_mem _ (List.mem_cons_self _ _))
  simp only at p1 p2
  rw [ht1, deep_count_first] at p1
  rw [ht2, deep_count_second, deep_pen_second] at p2
  exact ⟨(tok1, l1), (tok2, l2), front ++ [last], hscan, ht1, ht2, p1, p2⟩

/-! ## Where the vertical slot is exact and where it is not -/

theorem float_of_nat_mul_pow (line k : Nat) (h : line ≤ 16777216) :
    float_of_nat (line * 2 ^ k) = line * 2 ^ k := by
  by_cases hn : line * 2 ^ k < 16777216
  · exact float_of_nat_small _ hn
  · obtain ⟨e, q, r, he, hl, hn', hr, _, _, hf⟩ := float_of_nat_large (line * 2 ^ k) (by omega)
    have hne : line * 2 ^ k ≠ 0 := by omega
    have hdvd : 2 ^ e ∣ line * 2 ^ k := by
      rcases Nat.lt_or_ge line 16777216 with hlt | hge
      · have hpos : 0 < 2 ^ k := pow_pos (by norm_num) _
        have h1 : line * 2 ^ k < 2 ^ (24 + k) := by
          rw [pow_add]
          exact Nat.mul_lt_mul_of_pos_right (by simpa using hlt) hpos
        have h2 := (Nat.log2_lt hne).2 h1
        exact Dvd.dvd.mul_left (pow_dvd_pow 2 (by omega)) line
      · have h16 : line = 2 ^ 24 := by norm_num; omega
        have h1 : line * 2 ^ k = 2 ^ (24 + k) := by rw [h16, pow_add]
        have h2 : Nat.log2 (line * 2 ^ k) = 24 + k := by
          rw [h1]
          exact log2_eq _ _ (le_refl _) (Nat.pow_lt_pow_right (by norm_num) (by omega))
        rw [h1]
        exact pow_dvd_pow 2 (by omega)
    have hr0 : r = 0 := by
      have h1 : 2 ^ e ∣ q * 2 ^ e + r := by rw [← hn']; exact hdvd
      have h2 : 2 ^ e ∣ r := (Nat.dvd_add_right (Dvd.intro_left q rfl)).1 h1
      exact Nat.eq_zero_of_dvd_of_lt h2 hr
    rw [hf, if_pos (by rw [hr0]; exact pow_pos (by norm_num) _)]
    omega

theorem float_of_int_natCast (n : Nat) : float_of_int (n : Int) = (float_of_nat n : Int) := by
  rw [float_of_int_of_nonneg _ (Int.ofNat_nonneg n), Int.natAbs_ofNat]

/-- With a power of two as the constant the slots of the lines up to `2 ^ 24`
are exact. -/
theorem slot_is_exact_pow (k line : Nat) (h : line ≤ 16777216) :
    slot_is_exact (2 ^ k) line := by
  have h1 : float_of_nat line = line := by
    have := float_of_nat_mul_pow line 0 h
    simpa using this
  have h2 : float_of_int ((2 : Int) ^ k) = 2 ^ k := by
    have e : ((2 : Int) ^ k) = ((1 * 2 ^ k : Nat) : Int) := by push_cast; ring
    rw [e, float_of_int_natCast, float_of_nat_mul_pow 1 k (by norm_num)]
  have h3 : float_of_int ((line : Int) * 2 ^ k) = (line : Int) * 2 ^ k := by
    have e : ((line : Int) * 2 ^ k) = ((line * 2 ^ k : Nat) : Int) := by push_cast; ring
    rw [e, float_of_int_natCast, float_of_nat_mul_pow line k h]
  exact ⟨h1, h2, h3⟩

/-- An exact slot is the product the specification names. -/
theorem vertical_slot_exact (fs : Int) (line : Nat) (h : slot_is_exact fs line) :
    vertical_slot fs line = -(line : Int) * fs := by
  obtain ⟨h1, h2, h3⟩ := h
  unfold vertical_slot
  rw [h1, h2, neg_mul, float_of_int_neg, h3]

theorem slot_injective (fs : Int) (hfs : fs ≠ 0) (a b : Nat)
    (h : -(a : Int) * fs = -(b : Int) * fs) : a = b := by
  have h1 : -(a : Int) = -(b : Int) := mul_right_cancel₀ hfs h
  have h2 : (a : Int) = (b : Int) := neg_inj.1 h1
  exact Int.ofNat_inj.1 h2

theorem exact_slot_injective (fs : Int) (hfs : fs ≠ 0) (a b : Nat)
    (ha : slot_is_exact fs a) (hb : slot_is_exact fs b)
    (h : vertical_slot fs a = vertical_slot fs b) : a = b := by
  rw [vertical_slot_exact fs a ha, vertical_slot_exact fs b hb] at h
  exact slot_injective fs hfs a b h

theorem float_of_nat_two_pow_24 : float_of_nat 16777216 = 16777216 := by
  have := float_of_nat_mul_pow 16777216 0 (le_refl _)
  simpa using this

/-- The line number `2 ^ 24 + 1` is not a binary32 value: it is halfway between
its neighbours and rounds to the even one. -/
theorem float_of_nat_first_inexact : float_of_nat 16777217 = 16777216 := by
  have h : Nat.log2 16777217 = 24 := log2_eq _ _ (by norm_num) (by norm_num)
  simp [float_of_nat, h]

theorem vertical_slot_64_last_exact : vertical_slot 64 16777216 = -1073741824 := by
  have h := vertical_slot_exact 64 16777216 (slot_is_exact_pow 6 16777216 (le_refl _))
  rw [h]
  norm_num

theorem vertical_slot_64_first_inexact : vertical_slot 64 16777217 = -1073741824 := by
  have h : vertical_slot 64 16777217 = vertical_slot 64 16777216 := by
    unfold vertical_slot
    rw [float_of_nat_first_inexact, float_of_nat_two_pow_24]
  rw [h, vertical_slot_64_last_exact]

/-! ## Horizontal and vertical order of the tokens -/

/-- C15, as the code has it: with an atlas without negative advance widths
and the constant 64, the scan of 16777216 newlines followed by ` A`, a newline
and `A` emits the identifier of line 16777216 and then the identifier of line
16777217 with the same `position.y`, the earlier one at `x = 33` and the later
one at `x = 0`. -/
theorem equal_slot_pen_goes_back :
    (∀ a, some ramp_atlas = some a → ∀ i, 0 ≤ a.metrics i) ∧
      ∃ p q rest,
        lexer_scan 128 64 16777221
          (lexer_new (some ramp_atlas) (deep_buffer 16777216) 16777220) =
            some (p :: q :: rest) ∧
        count_newlines (deep_buffer 16777216) p.1.text = 16777216 ∧
        count_newlines (deep_buffer 16777216) q.1.text = 16777217 ∧
        p.1.position.y = q.1.position.y ∧
        p.1.position.x = 33 ∧ q.1.position.x = 0 ∧
        ¬ p.1.position.x ≤ q.1.position.x := by
  refine ⟨?_, ?_⟩
  · intro a ha i
    cases ha
    show (0 : Int) ≤ (i : Int) + 1
    omega
  · obtain ⟨p, q, rest, hs, hp, hq, pp, pq⟩ := deep_scan 128 64 (some ramp_atlas) 16777216
    have hx : p.1.position.x = 33 := by
      rw [pp, deep_pen_first]
      rfl
    have hx2 : q.1.position.x = 0 := by rw [pq]
    refine ⟨p, q, rest, hs, ?_, ?_, ?_, hx, hx2, ?_⟩
    · rw [hp]; exact deep_count_first 16777216
    · rw [hq]; exact deep_count_second 16777216
    · rw [pp, pq]
      show vertical_slot 64 16777216 = vertical_slot 64 16777217
      rw [vertical_slot_64_last_exact, vertical_slot_64_first_inexact]
    · rw [hx, hx2]; decide

/-- C15, amended: provided no advance width of the atlas is negative, in the
scan from `lexer_new` every token has as `position.x` the advance widths summed
from 0 at the start of its line up to its first byte, and as `position.y` the
binary32 slot of its line; of two tokens emitted in this order that start on
the same line (the same number of newlines before them) the earlier one has the
smaller or equal `position.x`, and equal `position.y` means the same line when
the constant is not 0 and the slots of both lines are exact, which they are for
a constant that is a power of two up to line `2 ^ 24`; and when a newline lies
between the starts of two tokens, the later one starts on a later line, whose
start lies after that newline, with a different `position.y` under the same
condition. -/
theorem pen_is_monotone_on_a_line (cap : Nat) (fs : Int) (atlas : Option Free_Glyph_Atlas)
    (content : List Int) (n : Nat) (hw : ∀ a, atlas = some a → ∀ i, 0 ≤ a.metrics i) :
    ∃ toks, lexer_scan cap fs (n + 1) (lexer_new atlas content n) = some toks ∧
      (∀ p ∈ toks, p.1.position.x = pen_at cap atlas content p.1.text ∧
        p.1.position.y = vertical_slot fs (count_newlines content p.1.text)) ∧
      (∀ k : Nat, fs = 2 ^ k → ∀ p ∈ toks, count_newlines content p.1.text ≤ 16777216 →
        slot_is_exact fs (count_newlines content p.1.text)) ∧
      toks.Pairwise (fun p q =>
        (count_newlines content p.1.text = count_newlines content q.1.text →
          p.1.position.x ≤ q.1.position.x) ∧
        (fs ≠ 0 → slot_is_exact fs (count_newlines content p.1.text) →
          slot_is_exact fs (count_newlines content q.1.text) →
          p.1.position.y = q.1.position.y → p.1.position.x ≤ q.1.position.x) ∧
        (∀ i, p.1.text ≤ i → i < q.1.text → content.getD i 0 = 10 →
          count_newlines content p.1.text < count_newlines content q.1.text ∧
          i < line_start content q.1.text ∧
          (fs ≠ 0 → slot_is_exact fs (count_newlines content p.1.text) →
            slot_is_exact fs (count_newlines content q.1.text) →
            p.1.position.y ≠ q.1.position.y))) := by
  obtain ⟨toks, hs, hpos, hpw⟩ := scan_positions cap fs atlas content n
  refine ⟨toks, hs, fun p hp => ⟨by rw [hpos p hp], by rw [hpos p hp]⟩, ?_, ?_⟩
  · intro k hk p _ hle
    rw [hk]
    exact slot_is_exact_pow k _ hle
  refine List.Pairwise.imp_of_mem ?_ hpw
  intro p q hp hq hle
  have ep := hpos p hp
  have eq := hpos q hq
  have key : count_newlines content p.1.text = count_newlines content q.1.text →
      p.1.position.x ≤ q.1.position.x := by
    intro hc
    rw [ep, eq]
    obtain ⟨d, hd⟩ := Nat.exists_eq_add_of_le hle
    simp only [hd]
    exact pen_at_mono cap atlas content hw p.1.text d (by rw [← hd]; exact hc.symm)
  refine ⟨key, fun hfs h1 h2 hy => ?_, fun i h1 h2 hx => ?_⟩
  · rw [ep, eq] at hy
    exact key (exact_slot_injective fs hfs _ _ h1 h2 hy)
  · have hlt := count_newlines_lt content p.1.text i q.1.text h1 h2 hx
    refine ⟨hlt, line_start_after_newline content i q.1.text h2 hx, fun hfs e1 e2 hy => ?_⟩
    rw [ep, eq] at hy
    have := exact_slot_injective fs hfs _ _ e1 e2 hy
    omega

/-- C15, amended, on the bytes `A`, 200 with an atlas of positive advance
widths. -/
theorem pen_is_monotone_on_a_line_witness :
    (∀ a, some ramp_atlas = some a → ∀ i, 0 ≤ a.metrics i) ∧
      ∃ toks, lexer_scan 128 64 3 (lexer_new (some ramp_atlas) [65, 200] 2) = some toks ∧
        toks.map (fun p => (p.1.kind, p.1.position.x)) =
          [(TOKEN_SYMBOL, 0), (TOKEN_INVALID, 66), (TOKEN_END, 130)] ∧
        toks.Pairwise (fun p q =>
          count_newlines [65, 200] p.1.text = count_newlines [65, 200] q.1.text →
            p.1.position.x ≤ q.1.position.x) :=
  have hw : ∀ a, some ramp_atlas = some a → ∀ i, 0 ≤ a.metrics i := by
    intro a ha i
    cases ha
    show (0 : Int) ≤ (i : Int) + 1
    omega
  match pen_is_monotone_on_a_line 128 64 (some ramp_atlas) [65, 200] 2 hw with
  | ⟨toks, h1, _, _, h2⟩ =>
    ⟨hw, toks, h1, by
      have h3 : (lexer_scan 128 64 3 (lexer_new (some ramp_atlas) [65, 200] 2)).map
          (List.map (fun p => (p.1.kind, p.1.position.x))) =
          some [(TOKEN_SYMBOL, 0), (TOKEN_INVALID, 66), (TOKEN_END, 130)] := by rfl
      rw [h1] at h3
      exact Option.some.inj h3, h2.imp (fun h => h.1)⟩

/-- C18, as the code has it: with the constant 64, the scan of 16777216
newlines followed by ` A`, a newline and `A` emits the identifier of line
16777216 and the identifier of line 16777217 with the same `position.y`,
`-1073741824`, which is not `-(16777217) * 64`. -/
theorem vertical_position_collides :
    ∃ p q rest,
      lexer_scan 128 64 16777221 (lexer_new none (deep_buffer 16777216) 16777220) =
        some (p :: q :: rest) ∧
      count_newlines (deep_buffer 16777216) p.1.text = 16777216 ∧
      count_newlines (deep_buffer 16777216) q.1.text = 16777217 ∧
      p.1.position.y = -1073741824 ∧ q.1.position.y = -1073741824 ∧
      p.1.position.y = q.1.position.y ∧
      q.1.position.y ≠ -(16777217 : Int) * 64 := by
  obtain ⟨p, q, rest, hs, hp, hq, pp, pq⟩ := deep_scan 128 64 none 16777216
  have hy : q.1.position.y = -1073741824 := by
    rw [pq]
    exact vertical_slot_64_first_inexact
  have hy0 : p.1.position.y = -1073741824 := by
    rw [pp]
    exact vertical_slot_64_last_exact
  refine ⟨p, q, rest, hs, ?_, ?_, hy0, hy, by rw [hy0, hy], ?_⟩
  · rw [hp]; exact deep_count_first 16777216
  · rw [hq]; exact deep_count_second 16777216
  · rw [hy]; decide

/-- C18, amended: in the scan from `lexer_new` the `position.y` of every token
is the binary32 value of `-(float)line * FREE_GLYPH_FONT_SIZE`, where `line` is
the number of newlines before the first byte of the token; it is the exact
product `-(line) * FREE_GLYPH_FONT_SIZE` whenever the line, the constant and
their product are binary32 values, which is so for a constant that is a power
of two and every line up to `2 ^ 24`. The lines do not decrease in emission
order. For a positive constant `y` never increases in emission order; of two
tokens whose slots are exact the one on the later line has the strictly smaller
`y`, and tokens with exact slots on distinct lines have distinct `y`. -/
theorem vertical_position_by_line (cap : Nat) (fs : Int) (atlas : Option Free_Glyph_Atlas)
    (content : List Int) (n : Nat) :
    ∃ toks, lexer_scan cap fs (n + 1) (lexer_new atlas content n) = some toks ∧
      (∀ p ∈ toks, p.1.position.y = vertical_slot fs (count_newlines content p.1.text)) ∧
      (∀ p ∈ toks, slot_is_exact fs (count_newlines content p.1.text) →
        p.1.position.y = -(count_newlines content p.1.text : Int) * fs) ∧
      (∀ k : Nat, fs = 2 ^ k → ∀ p ∈ toks, count_newlines content p.1.text ≤ 16777216 →
        p.1.position.y = -(count_newlines content p.1.text : Int) * fs) ∧
      toks.Pairwise (fun p q =>
        count_newlines content p.1.text ≤ count_newlines content q.1.text) ∧
      (0 < fs →
        toks.Pairwise (fun p q => q.1.position.y ≤ p.1.position.y ∧
          (slot_is_exact fs (count_newlines content p.1.text) →
            slot_is_exact fs (count_newlines content q.1.text) →
            count_newlines content p.1.text < count_newlines content q.1.text →
            q.1.position.y < p.1.position.y)) ∧
        ∀ p ∈ toks, ∀ q ∈ toks,
          slot_is_exact fs (count_newlines content p.1.text) →
          slot_is_exact fs (count_newlines content q.1.text) →
          count_newlines content p.1.text ≠ count_newlines content q.1.text →
            p.1.position.y ≠ q.1.position.y) := by
  obtain ⟨toks, hs, hpos, hpw⟩ := scan_positions cap fs atlas content n
  have hy : ∀ p ∈ toks, p.1.position.y = vertical_slot fs (count_newlines content p.1.text) :=
    fun p hp => by rw [hpos p hp]
  refine ⟨toks, hs, hy, ?_, ?_, ?_, fun hfs => ⟨?_, ?_⟩⟩
  · intro p hp he
    rw [hy p hp, vertical_slot_exact fs _ he]
  · intro k hk p hp hle
    rw [hy p hp, vertical_slot_exact fs _ (by rw [hk]; exact slot_is_exact_pow k _ hle)]
  · exact hpw.imp (fun h => count_newlines_mono content _ _ h)
  · refine List.Pairwise.imp_of_mem ?_ hpw
    intro p q hp hq hle
    have hm := count_newlines_mono content _ _ hle
    refine ⟨?_, fun e1 e2 hlt => ?_⟩
    · rw [hy p hp, hy q hq]
      exact vertical_slot_antitone fs (le_of_lt hfs) _ _ hm
    · rw [hy p hp, hy q hq, vertical_slot_exact fs _ e1, vertical_slot_exact fs _ e2]
      have hlt' : (count_newlines content p.1.text : Int) < count_newlines content q.1.text :=
        Int.ofNat_lt.2 hlt
      nlinarith
  · intro p hp q hq e1 e2 hne h
    rw [hy p hp, hy q hq] at h
    exact hne (exact_slot_injective fs (ne_of_gt hfs) _ _ e1 e2 h)


end Ded
